import Mathlib

/-!
Verification of the CS221 graph-search engine.

Shallow embedding of:
  * `PriorityQueue` from `src/v1_4/ai_toolkit/structures.py` (lazy-deletion
    decrease-key queue: delete-on-pop, `__len__` counts tracked entries) and
    the variant from `src/v1_1/ai_toolkit/structures.py` (no delete-on-pop,
    `__len__` counts the whole heap);
  * the search algorithms `bfs`, `dfs`, `ucs`, `astar` and `_reconstruct`
    from `src/v2_0_step1/ai_toolkit/core/search/algorithms.py`.

Modelling conventions:
  * Python `float` costs and priorities are modelled by an arbitrary
    linearly ordered commutative ring `K` (exact arithmetic: no claim
    concerns rounding; `K := ℚ` covers every finite float value, and the
    concrete counterexamples below use `K := ℤ`).
  * Python `dict` is modelled as an association list with insert-or-replace
    in place and first-match lookup, which preserves the insertion order and
    the key count of a dict.
  * The `heapq` binary heap is modelled by its extract-min specification: a
    list kept sorted by the lexicographic order on `(priority, state)`
    pairs, which is exactly the order Python tuple comparison applies.
    `heappush` is order-preserving insertion, `heappop` takes the head.
    A `LinearOrder` on states models the requirement that Python states be
    mutually orderable when priorities tie (the C10 development below models
    the untyped comparison that raises `TypeError` separately).
  * `time.perf_counter` bookkeeping (`runtime_sec`) is dropped: wall-clock
    time is not representable and no claim mentions it.
  * `ai_toolkit/priority_queue.py`, imported by `v2_0_step1` algorithms, is
    not under `src/`. Modelled from the spec: section 4.2's operations
    (insert-or-decrease `update`, delete-on-pop `pop_min`, live-count
    `size`) coincide with the v1_4 `structures.PriorityQueue`, which is the
    queue used below for `ucs`/`astar`.
  * Raising `RuntimeError` / `ValueError` is modelled by `Except` values
    with distinct constructors; a run that would hang (cyclic parent map in
    `_reconstruct`) or die with an uncaught `KeyError` is modelled as `none`.
-/

variable {K : Type w} [LinearOrderedCommRing K]

/-- First-match lookup in an association list (Python `dict.get`). -/
def alookup {K : Type u} {V : Type v} [DecidableEq K] : List (K × V) → K → Option V
  | [], _ => none
  | (k, v) :: m, k' => if k' = k then some v else alookup m k'

/-- Insert-or-replace in place (Python `d[k] = v`), preserving dict order. -/
def ainsert {K : Type u} {V : Type v} [DecidableEq K] : List (K × V) → K → V → List (K × V)
  | [], k, v => [(k, v)]
  | (k0, v0) :: m, k, v => if k = k0 then (k, v) :: m else (k0, v0) :: ainsert m k v

/-- Key removal (Python `del d[k]`). -/
def aerase {K : Type u} {V : Type v} [DecidableEq K] : List (K × V) → K → List (K × V)
  | [], _ => []
  | (k0, v0) :: m, k => if k = k0 then m else (k0, v0) :: aerase m k

/-- The order `heapq` effectively maintains on `(priority, state)` tuples:
lexicographic comparison, priorities first, states breaking ties. -/
def hle {S : Type u} [LinearOrder S] (x y : K × S) : Prop :=
  x.1 < y.1 ∨ (x.1 = y.1 ∧ x.2 ≤ y.2)

instance {K : Type w} [LinearOrderedCommRing K] {S : Type u} [LinearOrder S] : DecidableRel (hle (K := K) (S := S)) := by
  intro x y
  unfold hle
  infer_instance

instance {K : Type w} [LinearOrderedCommRing K] {S : Type u} [LinearOrder S] : IsTotal (K × S) hle := by
  constructor
  intro a b
  rcases lt_trichotomy a.1 b.1 with h | h | h
  · exact Or.inl (Or.inl h)
  · rcases le_total a.2 b.2 with h2 | h2
    · exact Or.inl (Or.inr ⟨h, h2⟩)
    · exact Or.inr (Or.inr ⟨h.symm, h2⟩)
  · exact Or.inr (Or.inl h)

instance {K : Type w} [LinearOrderedCommRing K] {S : Type u} [LinearOrder S] : IsTrans (K × S) hle := by
  constructor
  rintro a b c (h1 | ⟨h1, h1'⟩) (h2 | ⟨h2, h2'⟩)
  · exact Or.inl (h1.trans h2)
  · exact Or.inl (h2 ▸ h1)
  · exact Or.inl (h1 ▸ h2)
  · exact Or.inr ⟨h1.trans h2, h1'.trans h2'⟩

/-- The lazy-deletion priority queue state: `heap` models the `heapq` list
(kept sorted, see module docstring), `best` the `_best` dict. Shared by the
v1_4 and v1_1 variants, whose `update` methods are textually identical. -/
structure PQ (K : Type w) (S : Type u) where
  heap : List (K × S)
  best : List (S × K)

/-- The empty queue (`_heap = []`, `_best = {}`). -/
def PQ.empty {S : Type u} : PQ K S := ⟨[], []⟩

/-- `PriorityQueue.update` (identical in v1_4 and v1_1 `structures.py`):
insert or strictly decrease; returns whether a push occurred. -/
def PQ.update {S : Type u} [DecidableEq S] [LinearOrder S] (q : PQ K S) (state : S)
    (priority : K) : Bool × PQ K S :=
  match alookup q.best state with
  | none =>
      (true, ⟨q.heap.orderedInsert hle (priority, state), ainsert q.best state priority⟩)
  | some old =>
      if priority < old then
        (true, ⟨q.heap.orderedInsert hle (priority, state), ainsert q.best state priority⟩)
      else
        (false, q)

/-- The `while self._heap` loop of v1_4 `pop_min`, structurally recursive
on the heap list. -/
def popGo14 {S : Type u} [DecidableEq S] (best : List (S × K)) :
    List (K × S) → Option (S × K) × PQ K S
  | [] => (none, ⟨[], best⟩)
  | (pri, state) :: rest =>
      if alookup best state = some pri then
        (some (state, pri), ⟨rest, aerase best state⟩)
      else
        popGo14 best rest

/-- `PriorityQueue.pop_min` from v1_4 `structures.py`: skip stale heap
entries, delete the first live state from `_best`, return it. -/
def PQ.popMin14 {S : Type u} [DecidableEq S] (q : PQ K S) : Option (S × K) × PQ K S :=
  popGo14 q.best q.heap

/-- The `while self._heap` loop of v1_1 `pop_min`. -/
def popGo11 {S : Type u} [DecidableEq S] (best : List (S × K)) :
    List (K × S) → Option (S × K) × PQ K S
  | [] => (none, ⟨[], best⟩)
  | (pri, state) :: rest =>
      if alookup best state = some pri then
        (some (state, pri), ⟨rest, best⟩)
      else
        popGo11 best rest

/-- `PriorityQueue.pop_min` from v1_1 `structures.py`: same stale skipping,
but the live state is NOT removed from `_best`. -/
def PQ.popMin11 {S : Type u} [DecidableEq S] (q : PQ K S) : Option (S × K) × PQ K S :=
  popGo11 q.best q.heap

/-- `PriorityQueue.__len__` from v1_4: the size of `_best` (live entries). -/
def PQ.len14 {S : Type u} (q : PQ K S) : ℕ := q.best.length

/-- `PriorityQueue.__len__` from v1_1: the size of `_heap` (incl. stale). -/
def PQ.len11 {S : Type u} (q : PQ K S) : ℕ := q.heap.length

/-- `PriorityQueue.heap_size` from v1_4. -/
def PQ.heapSize {S : Type u} (q : PQ K S) : ℕ := q.heap.length

/-- A `SearchProblem`: `start_state()`, `is_goal`, `successors` (finite,
deterministic successor enumeration, as a Lean function of the state). -/
structure Problem (K : Type w) (S : Type u) (A : Type v) where
  start : S
  isGoal : S → Bool
  succs : S → List (A × S × K)

/-- `IsPath p x es y`: `es` is a sequence of successor edges leading from
state `x` to state `y` in problem `p`. -/
inductive IsPath {K : Type w} {S : Type u} {A : Type v} (p : Problem K S A) : S → List (A × S × K) → S → Prop
  | nil (x : S) : IsPath p x [] x
  | cons {x y z : S} {a : A} {c : K} {es : List (A × S × K)} :
      (a, y, c) ∈ p.succs x → IsPath p y es z → IsPath p x ((a, y, c) :: es) z

/-- Total cost of an edge sequence. -/
def pathCost {S : Type u} {A : Type v} (es : List (A × S × K)) : K :=
  (es.map fun e => e.2.2).sum

/-- All step costs the problem can ever produce are nonnegative. -/
def NonnegCosts {S : Type u} {A : Type v} (p : Problem K S A) : Prop :=
  ∀ s : S, ∀ e ∈ p.succs s, 0 ≤ e.2.2

/-- `h` never overestimates the true remaining cost: it is a lower bound on
the cost of every path from `s` to every goal state. -/
def Admissible {S : Type u} {A : Type v} (p : Problem K S A) (h : S → K) : Prop :=
  ∀ s t : S, ∀ es : List (A × S × K), IsPath p s es t → p.isGoal t = true → h s ≤ pathCost es

/-- Some goal state is reachable from the start state. -/
def GoalReachable {S : Type u} {A : Type v} (p : Problem K S A) : Prop :=
  ∃ es : List (A × S × K), ∃ t : S, IsPath p p.start es t ∧ p.isGoal t = true

/-- Decidable equality of `Except` outcomes (needed to evaluate concrete
runs inside the kernel). -/
instance {E : Type u} {X : Type v} [DecidableEq E] [DecidableEq X] :
    DecidableEq (Except E X) := fun x y =>
  match x, y with
  | .error u, .error v =>
      if h : u = v then isTrue (by rw [h]) else
        isFalse (by intro hh; cases hh; exact h rfl)
  | .ok u, .ok v =>
      if h : u = v then isTrue (by rw [h]) else
        isFalse (by intro hh; cases hh; exact h rfl)
  | .error _, .ok _ => isFalse (by intro hh; cases hh)
  | .ok _, .error _ => isFalse (by intro hh; cases hh)

/-- The two fatal outcomes of a search call: `RuntimeError` (expansion cap
reached) and `ValueError` (frontier exhausted), distinct constructors. -/
inductive SearchErr where
  | resourceExhausted
  | noSolution
  deriving DecidableEq

/-- `SearchTrace` (algorithms.py): best-known tree snapshot, expansion
order, optionally every generated edge. -/
structure SearchTrace (K : Type w) (S : Type u) (A : Type v) where
  parent : List (S × (Option S × Option A))
  gScore : List (S × K)
  expandedOrder : List S
  generatedEdges : Option (List (S × S × A × K))
  deriving DecidableEq

/-- `SearchResult` (algorithms.py) minus `runtime_sec` (wall clock, not
modelled). -/
structure SearchResult (K : Type w) (S : Type u) (A : Type v) where
  cost : K
  actions : List A
  states : List S
  expanded : ℕ
  generated : ℕ
  reopens : ℕ
  maxFrontier : ℕ
  trace : Option (SearchTrace K S A)
  deriving DecidableEq

/-- One step of the `_reconstruct` while-loop: walk `parent` backward from
the goal collecting states and actions, then reverse both.  Fuel bounds the
walk; `none` models a `KeyError` or a walk that never reaches the root
sentinel (Python: uncaught exception or an infinite loop). -/
def reconRec {S : Type u} {A : Type v} [DecidableEq S] :
    ℕ → List (S × (Option S × Option A)) → Option S → List S → List A →
      Option (List S × List A)
  | _, _, none, states, actions => some (states.reverse, actions.reverse)
  | 0, _, some _, _, _ => none
  | n + 1, parent, some cur, states, actions =>
      match alookup parent cur with
      | none => none
      | some (p, a) =>
          reconRec n parent p (states ++ [cur])
            (match a with
             | some act => actions ++ [act]
             | none => actions)

/-- `_reconstruct(goal, parent)`, with fuel `parent.length + 2`, enough for
any walk that visits pairwise-distinct keys of `parent`. -/
def reconstruct {S : Type u} {A : Type v} [DecidableEq S]
    (goal : S) (parent : List (S × (Option S × Option A))) :
    Option (List S × List A) :=
  reconRec (parent.length + 2) parent (some goal) [] []

/-- Outcome of one iteration of a search main loop. -/
inductive StepOut (St : Type u) (R : Type v) where
  | cont (st : St)
  | done (r : R)
  | fail (e : SearchErr)
  | crash

/-- Lexicographic strict order on the termination measures used below. -/
def lexLt (a b : ℕ × ℕ) : Prop :=
  a.1 < b.1 ∨ (a.1 = b.1 ∧ a.2 < b.2)

instance : DecidableRel lexLt := by
  intro a b
  unfold lexLt
  infer_instance

/-- Generic driver: iterate a loop body `f` until it returns, raises, or
crashes.  `μ` is a termination measure; the guard is provably never taken
for the loop bodies defined below (each strictly decreases `μ`
lexicographically on every `cont` step), so the driver computes exactly the
iteration of `f`. -/
def runLoop {St : Type u} {R : Type v} (f : St → StepOut St R) (μ : St → ℕ × ℕ)
    (st : St) : Option (Except SearchErr R) :=
  match f st with
  | .cont st' =>
      if h : lexLt (μ st') (μ st) then runLoop f μ st' else none
  | .done r => some (.ok r)
  | .fail e => some (.error e)
  | .crash => none
termination_by μ st
decreasing_by
  rcases hst' : μ st' with ⟨a', b'⟩
  rcases hst : μ st with ⟨a, b⟩
  rw [hst', hst] at h
  rcases h with h | ⟨h1, h2⟩
  · exact Prod.Lex.left _ _ h
  · cases h1
    exact Prod.Lex.right _ h2

/-- Iterate a loop body `n` times, requiring every step to continue. -/
def stepIter {St : Type u} {R : Type v} (f : St → StepOut St R) : ℕ → St → Option St
  | 0, st => some st
  | n + 1, st =>
      match f st with
      | .cont st' => stepIter f n st'
      | _ => none

/-- The states an execution of loop body `f` can pass through from `st0`. -/
def LoopReach {St : Type u} {R : Type v} (f : St → StepOut St R) (st0 st : St) : Prop :=
  Relation.ReflTransGen (fun a b => f a = .cont b) st0 st

/-- Loop state of `ucs` (algorithms.py lines 191-256): the frontier, the
`parent` and `best_g` dicts, the trace accumulators, and the counters. -/
structure UState (K : Type w) (S : Type u) (A : Type v) where
  frontier : PQ K S
  parent : List (S × (Option S × Option A))
  bestG : List (S × K)
  expandedOrder : List S
  edges : Option (List (S × S × A × K))
  expanded : ℕ
  generated : ℕ
  reopens : ℕ
  maxFrontier : ℕ

/-- Body of the successor `for` loop of `ucs` (lines 242-254), for one edge
`(a, s2, c)` generated from the expanded state `s` whose popped cost is
`g`. -/
def ucsRelax {S : Type u} {A : Type v} [DecidableEq S] [LinearOrder S]
    (s : S) (g : K) (st : UState K S A) (e : A × S × K) : UState K S A :=
  let a := e.1
  let s2 := e.2.1
  let c := e.2.2
  let gen := st.generated + 1
  let eds := match st.edges with
    | none => none
    | some l => some (l ++ [(s, s2, a, c)])
  let g2 := g + c
  let ro := match alookup st.bestG s2 with
    | some old => if g2 < old then st.reopens + 1 else st.reopens
    | none => st.reopens
  let improve := match alookup st.bestG s2 with
    | some old => decide (g2 < old)
    | none => true
  if improve then
    let bg := ainsert st.bestG s2 g2
    let par := ainsert st.parent s2 (some s, some a)
    let fr := (PQ.update st.frontier s2 g2).2
    let mf := if st.maxFrontier < PQ.len14 fr then PQ.len14 fr else st.maxFrontier
    { frontier := fr, parent := par, bestG := bg, expandedOrder := st.expandedOrder,
      edges := eds, expanded := st.expanded, generated := gen, reopens := ro,
      maxFrontier := mf }
  else
    { st with generated := gen, edges := eds, reopens := ro }

/-- One iteration of the `ucs` `while True` loop (lines 213-254). -/
def ucsStep {S : Type u} {A : Type v} [DecidableEq S] [LinearOrder S]
    (p : Problem K S A) (cap : ℕ) (tr : Bool) (st : UState K S A) :
    StepOut (UState K S A) (SearchResult K S A) :=
  if cap ≤ st.expanded then .fail .resourceExhausted
  else
    match PQ.popMin14 st.frontier with
    | (none, _) => .fail .noSolution
    | (some (s, g), q') =>
        let st1 : UState K S A := { st with frontier := q' }
        if some g ≠ alookup st1.bestG s then .cont st1
        else
          let st2 : UState K S A :=
            { st1 with expanded := st1.expanded + 1,
                       expandedOrder :=
                         if tr then st1.expandedOrder ++ [s] else st1.expandedOrder }
          if p.isGoal s then
            match reconstruct s st2.parent with
            | none => .crash
            | some (states, actions) =>
                .done { cost := g, actions := actions, states := states,
                        expanded := st2.expanded, generated := st2.generated,
                        reopens := st2.reopens, maxFrontier := st2.maxFrontier,
                        trace :=
                          if tr then
                            some ⟨st2.parent, st2.bestG, st2.expandedOrder, st2.edges⟩
                          else none }
          else .cont ((p.succs s).foldl (ucsRelax s g) st2)

/-- Initial `ucs` loop state (lines 198-211). -/
def ucsInit {S : Type u} {A : Type v} [DecidableEq S] [LinearOrder S]
    (p : Problem K S A) (tr te : Bool) : UState K S A :=
  let fr := (PQ.update PQ.empty p.start 0).2
  { frontier := fr, parent := [(p.start, (none, none))], bestG := [(p.start, 0)],
    expandedOrder := [], edges := if tr && te then some [] else none,
    expanded := 0, generated := 0, reopens := 0, maxFrontier := PQ.len14 fr }

/-- Termination measure for the `ucs`/`astar` loops: expansions left (cap
check), then heap size (every pop shortens the heap). -/
def pqMeasure {S : Type u} {A : Type v} (cap : ℕ) (st : UState K S A) : ℕ × ℕ :=
  (cap + 1 - st.expanded, st.frontier.heap.length)

/-- `ucs(problem, max_expansions=cap, trace=tr, trace_edges=te)`. -/
def ucsRun {S : Type u} {A : Type v} [DecidableEq S] [LinearOrder S]
    (p : Problem K S A) (cap : ℕ) (tr te : Bool) :
    Option (Except SearchErr (SearchResult K S A)) :=
  runLoop (ucsStep p cap tr) (pqMeasure cap) (ucsInit p tr te)

/-- Loop state of `astar` (lines 259-327): `ucs` plus the `best_f` dict. -/
structure AState (K : Type w) (S : Type u) (A : Type v) where
  frontier : PQ K S
  parent : List (S × (Option S × Option A))
  bestG : List (S × K)
  bestF : List (S × K)
  expandedOrder : List S
  edges : Option (List (S × S × A × K))
  expanded : ℕ
  generated : ℕ
  reopens : ℕ
  maxFrontier : ℕ

/-- Body of the successor `for` loop of `astar` (lines 313-327). -/
def astarRelax {S : Type u} {A : Type v} [DecidableEq S] [LinearOrder S]
    (h : S → K) (s : S) (g : K) (st : AState K S A) (e : A × S × K) : AState K S A :=
  let a := e.1
  let s2 := e.2.1
  let c := e.2.2
  let gen := st.generated + 1
  let eds := match st.edges with
    | none => none
    | some l => some (l ++ [(s, s2, a, c)])
  let g2 := g + c
  let ro := match alookup st.bestG s2 with
    | some old => if g2 < old then st.reopens + 1 else st.reopens
    | none => st.reopens
  let improve := match alookup st.bestG s2 with
    | some old => decide (g2 < old)
    | none => true
  if improve then
    let bg := ainsert st.bestG s2 g2
    let par := ainsert st.parent s2 (some s, some a)
    let f2 := g2 + h s2
    let bf := ainsert st.bestF s2 f2
    let fr := (PQ.update st.frontier s2 f2).2
    let mf := if st.maxFrontier < PQ.len14 fr then PQ.len14 fr else st.maxFrontier
    { frontier := fr, parent := par, bestG := bg, bestF := bf,
      expandedOrder := st.expandedOrder, edges := eds, expanded := st.expanded,
      generated := gen, reopens := ro, maxFrontier := mf }
  else
    { st with generated := gen, edges := eds, reopens := ro }

/-- One iteration of the `astar` `while True` loop (lines 283-327).  The
`g = best_g[s]` dict access raises `KeyError` if absent (modelled `crash`);
the loop invariants below show it never does. -/
def astarStep {S : Type u} {A : Type v} [DecidableEq S] [LinearOrder S]
    (p : Problem K S A) (h : S → K) (cap : ℕ) (tr : Bool) (st : AState K S A) :
    StepOut (AState K S A) (SearchResult K S A) :=
  if cap ≤ st.expanded then .fail .resourceExhausted
  else
    match PQ.popMin14 st.frontier with
    | (none, _) => .fail .noSolution
    | (some (s, f), q') =>
        let st1 : AState K S A := { st with frontier := q' }
        if some f ≠ alookup st1.bestF s then .cont st1
        else
          match alookup st1.bestG s with
          | none => .crash
          | some g =>
              let st2 : AState K S A :=
                { st1 with expanded := st1.expanded + 1,
                           expandedOrder :=
                             if tr then st1.expandedOrder ++ [s] else st1.expandedOrder }
              if p.isGoal s then
                match reconstruct s st2.parent with
                | none => .crash
                | some (states, actions) =>
                    .done { cost := g, actions := actions, states := states,
                            expanded := st2.expanded, generated := st2.generated,
                            reopens := st2.reopens, maxFrontier := st2.maxFrontier,
                            trace :=
                              if tr then
                                some ⟨st2.parent, st2.bestG, st2.expandedOrder, st2.edges⟩
                              else none }
              else .cont ((p.succs s).foldl (astarRelax h s g) st2)

/-- Initial `astar` loop state (lines 267-281). -/
def astarInit {S : Type u} {A : Type v} [DecidableEq S] [LinearOrder S]
    (p : Problem K S A) (h : S → K) (tr te : Bool) : AState K S A :=
  let fr := (PQ.update PQ.empty p.start (h p.start)).2
  { frontier := fr, parent := [(p.start, (none, none))], bestG := [(p.start, 0)],
    bestF := [(p.start, h p.start)],
    expandedOrder := [], edges := if tr && te then some [] else none,
    expanded := 0, generated := 0, reopens := 0, maxFrontier := PQ.len14 fr }

/-- Measure for the `astar` loop; same shape as `pqMeasure`. -/
def pqMeasureA {S : Type u} {A : Type v} (cap : ℕ) (st : AState K S A) : ℕ × ℕ :=
  (cap + 1 - st.expanded, st.frontier.heap.length)

/-- `astar(problem, heuristic, max_expansions=cap, trace=tr, trace_edges=te)`. -/
def astarRun {S : Type u} {A : Type v} [DecidableEq S] [LinearOrder S]
    (p : Problem K S A) (h : S → K) (cap : ℕ) (tr te : Bool) :
    Option (Except SearchErr (SearchResult K S A)) :=
  runLoop (astarStep p h cap tr) (pqMeasureA cap) (astarInit p h tr te)

/-- Loop state of `bfs` (lines 66-127) and `dfs` (lines 130-188): FIFO
queue / LIFO stack (the stack is kept top-first), `parent` and `depth`
dicts, trace accumulators, counters. -/
structure BState (K : Type w) (S : Type u) (A : Type v) where
  q : List S
  parent : List (S × (Option S × Option A))
  depth : List (S × ℕ)
  expandedOrder : List S
  edges : Option (List (S × S × A × K))
  expanded : ℕ
  generated : ℕ
  maxFrontier : ℕ

/-- Body of the successor `for` loop of `bfs` (lines 97-125): recursion
rather than a fold because generating a goal child returns immediately.
`depth[s]` raising `KeyError` is modelled `crash`. -/
def bfsScan {S : Type u} {A : Type v} [DecidableEq S]
    (p : Problem K S A) (tr : Bool) (s : S) :
    List (A × S × K) → BState K S A → StepOut (BState K S A) (SearchResult K S A)
  | [], st => .cont st
  | e :: rest, st =>
      let a := e.1
      let s2 := e.2.1
      let c := e.2.2
      let st1 : BState K S A :=
        { st with generated := st.generated + 1,
                  edges := match st.edges with
                    | none => none
                    | some l => some (l ++ [(s, s2, a, c)]) }
      if (alookup st1.parent s2).isSome then bfsScan p tr s rest st1
      else
        match alookup st1.depth s with
        | none => .crash
        | some d =>
            let st2 : BState K S A :=
              { st1 with parent := ainsert st1.parent s2 (some s, some a),
                         depth := ainsert st1.depth s2 (d + 1) }
            if p.isGoal s2 then
              match reconstruct s2 st2.parent with
              | none => .crash
              | some (states, actions) =>
                  .done { cost := (actions.length : K), actions := actions,
                          states := states, expanded := st2.expanded,
                          generated := st2.generated, reopens := 0,
                          maxFrontier := st2.maxFrontier,
                          trace :=
                            if tr then
                              some ⟨st2.parent,
                                    st2.depth.map fun kv => (kv.1, (kv.2 : K)),
                                    st2.expandedOrder, st2.edges⟩
                            else none }
            else
              let q' := st2.q ++ [s2]
              let mf := if st2.maxFrontier < q'.length then q'.length else st2.maxFrontier
              bfsScan p tr s rest { st2 with q := q', maxFrontier := mf }

/-- One iteration of the `bfs` `while q` loop (lines 89-125). -/
def bfsStep {S : Type u} {A : Type v} [DecidableEq S]
    (p : Problem K S A) (cap : ℕ) (tr : Bool) (st : BState K S A) :
    StepOut (BState K S A) (SearchResult K S A) :=
  match st.q with
  | [] => .fail .noSolution
  | s :: rest =>
      if cap ≤ st.expanded then .fail .resourceExhausted
      else
        bfsScan p tr s (p.succs s)
          { st with q := rest, expanded := st.expanded + 1,
                    expandedOrder :=
                      if tr then st.expandedOrder ++ [s] else st.expandedOrder }

/-- Measure for `bfs`/`dfs`: every iteration expands, so expansions left
suffice. -/
def bMeasure {S : Type u} {A : Type v} (cap : ℕ) (st : BState K S A) : ℕ × ℕ :=
  (cap + 1 - st.expanded, 0)

/-- `bfs(problem, max_expansions=cap, trace=tr, trace_edges=te)`, including
the start-is-goal early return (lines 75-77). -/
def bfsRun {S : Type u} {A : Type v} [DecidableEq S]
    (p : Problem K S A) (cap : ℕ) (tr te : Bool) :
    Option (Except SearchErr (SearchResult K S A)) :=
  if p.isGoal p.start then
    some (.ok { cost := 0, actions := [], states := [p.start], expanded := 0,
                generated := 0, reopens := 0, maxFrontier := 1,
                trace :=
                  if tr then
                    some ⟨[(p.start, (none, none))], [(p.start, 0)], [],
                          if te then some [] else none⟩
                  else none })
  else
    runLoop (bfsStep p cap tr) (bMeasure cap)
      { q := [p.start], parent := [(p.start, (none, none))],
        depth := [(p.start, 0)], expandedOrder := [],
        edges := if tr && te then some [] else none,
        expanded := 0, generated := 0, maxFrontier := 1 }

/-- Body of the successor `for` loop of `dfs` (lines 176-186); no early
return (the goal test of `dfs` is at pop time). -/
def dfsScan {S : Type u} {A : Type v} [DecidableEq S]
    (p : Problem K S A) (s : S) :
    List (A × S × K) → BState K S A → StepOut (BState K S A) (SearchResult K S A)
  | [], st => .cont st
  | e :: rest, st =>
      let a := e.1
      let s2 := e.2.1
      let c := e.2.2
      let st1 : BState K S A :=
        { st with generated := st.generated + 1,
                  edges := match st.edges with
                    | none => none
                    | some l => some (l ++ [(s, s2, a, c)]) }
      if (alookup st1.parent s2).isSome then dfsScan p s rest st1
      else
        match alookup st1.depth s with
        | none => .crash
        | some d =>
            let q' := s2 :: st1.q
            let mf := if st1.maxFrontier < q'.length then q'.length else st1.maxFrontier
            dfsScan p s rest
              { st1 with parent := ainsert st1.parent s2 (some s, some a),
                         depth := ainsert st1.depth s2 (d + 1),
                         q := q', maxFrontier := mf }

/-- One iteration of the `dfs` `while stack` loop (lines 149-186). -/
def dfsStep {S : Type u} {A : Type v} [DecidableEq S]
    (p : Problem K S A) (cap : ℕ) (tr : Bool) (st : BState K S A) :
    StepOut (BState K S A) (SearchResult K S A) :=
  match st.q with
  | [] => .fail .noSolution
  | s :: rest =>
      if cap ≤ st.expanded then .fail .resourceExhausted
      else
        let st2 : BState K S A :=
          { st with q := rest, expanded := st.expanded + 1,
                    expandedOrder :=
                      if tr then st.expandedOrder ++ [s] else st.expandedOrder }
        if p.isGoal s then
          match reconstruct s st2.parent with
          | none => .crash
          | some (states, actions) =>
              .done { cost := (actions.length : K), actions := actions,
                      states := states, expanded := st2.expanded,
                      generated := st2.generated, reopens := 0,
                      maxFrontier := st2.maxFrontier,
                      trace :=
                        if tr then
                          some ⟨st2.parent,
                                st2.depth.map fun kv => (kv.1, (kv.2 : K)),
                                st2.expandedOrder, st2.edges⟩
                        else none }
        else dfsScan p s (p.succs s) st2

/-- `dfs(problem, max_expansions=cap, trace=tr, trace_edges=te)`. -/
def dfsRun {S : Type u} {A : Type v} [DecidableEq S]
    (p : Problem K S A) (cap : ℕ) (tr te : Bool) :
    Option (Except SearchErr (SearchResult K S A)) :=
  runLoop (dfsStep p cap tr) (bMeasure cap)
    { q := [p.start], parent := [(p.start, (none, none))],
      depth := [(p.start, 0)], expandedOrder := [],
      edges := if tr && te then some [] else none,
      expanded := 0, generated := 0, maxFrontier := 1 }

/-- The zero heuristic; `astar` with it is `ucs`. -/
def zeroH {S : Type u} : S → K := fun _ => 0

/-- View a `ucs` loop state as an `astar` loop state whose `best_f` dict
coincides with `best_g` (the zero-heuristic simulation). -/
def embedU {S : Type u} {A : Type v} (st : UState K S A) : AState K S A :=
  { frontier := st.frontier, parent := st.parent, bestG := st.bestG,
    bestF := st.bestG, expandedOrder := st.expandedOrder, edges := st.edges,
    expanded := st.expanded, generated := st.generated, reopens := st.reopens,
    maxFrontier := st.maxFrontier }

/-- The algorithmically meaningful fields of a `SearchResult`: everything
except the observational `trace`. -/
def SearchResult.core {S : Type u} {A : Type v} (r : SearchResult K S A) :
    K × List A × List S × ℕ × ℕ × ℕ × ℕ :=
  (r.cost, r.actions, r.states, r.expanded, r.generated, r.reopens, r.maxFrontier)

/-- Project a whole run outcome onto the non-trace result fields. -/
def runCore {S : Type u} {A : Type v}
    (o : Option (Except SearchErr (SearchResult K S A))) :
    Option (Except SearchErr (K × List A × List S × ℕ × ℕ × ℕ × ℕ)) :=
  o.map (Except.map SearchResult.core)

/-- The returned cost of a successful run, if any. -/
def runCost {S : Type u} {A : Type v}
    (o : Option (Except SearchErr (SearchResult K S A))) : Option K :=
  match o with
  | some (.ok r) => some r.cost
  | _ => none

/-- The returned expansion count of a successful run, if any. -/
def runExpanded {S : Type u} {A : Type v}
    (o : Option (Except SearchErr (SearchResult K S A))) : Option ℕ :=
  match o with
  | some (.ok r) => some r.expanded
  | _ => none

/-- A caller-visible priority-queue operation. -/
inductive PQOp (K : Type w) (S : Type u) where
  | update (s : S) (pri : K)
  | pop

/-- Run a sequence of operations against the v1_4 queue. -/
def runOps14 {S : Type u} [DecidableEq S] [LinearOrder S] (ops : List (PQOp K S)) : PQ K S :=
  ops.foldl
    (fun q op =>
      match op with
      | .update s pri => (PQ.update q s pri).2
      | .pop => (PQ.popMin14 q).2)
    PQ.empty

/-- Run a sequence of operations against the v1_1 queue. -/
def runOps11 {S : Type u} [DecidableEq S] [LinearOrder S] (ops : List (PQOp K S)) : PQ K S :=
  ops.foldl
    (fun q op =>
      match op with
      | .update s pri => (PQ.update q s pri).2
      | .pop => (PQ.popMin11 q).2)
    PQ.empty

/-- `x`'s parent pointer leads to `y` in the given parent dict. -/
def pstep {S : Type u} {A : Type v} [DecidableEq S]
    (parent : List (S × (Option S × Option A))) (x y : S) : Prop :=
  ∃ a, alookup parent x = some (some y, a)

/-- The parent dict has no cycle: no state is its own strict ancestor. -/
def Acyc {S : Type u} {A : Type v} [DecidableEq S]
    (parent : List (S × (Option S × Option A))) : Prop :=
  ∀ x, ¬ Relation.TransGen (pstep parent) x x

/-- Global invariant of the `astar` loop state (instantiated with the zero
heuristic it also serves `ucs` through `embedU`). -/
structure AInv {S : Type u} {A : Type v} [DecidableEq S] [LinearOrder S]
    (p : Problem K S A) (h : S → K) (st : AState K S A) : Prop where
  sorted : st.frontier.heap.Sorted hle
  nkBest : (st.frontier.best.map Prod.fst).Nodup
  track : ∀ s pri, alookup st.frontier.best s = some pri → (pri, s) ∈ st.frontier.heap
  tsync : ∀ s pri, alookup st.frontier.best s = some pri → alookup st.bestF s = some pri
  fsync : ∀ s, alookup st.bestF s = (alookup st.bestG s).map fun g => g + h s
  reach : ∀ s g, alookup st.bestG s = some g →
    ∃ es, IsPath p p.start es s ∧ pathCost es = g
  closed : ∀ s g, alookup st.bestG s = some g → alookup st.frontier.best s = none →
    ∀ e ∈ p.succs s, ∃ g', alookup st.bestG e.2.1 = some g' ∧ g' ≤ g + e.2.2
  noGoalClosed : ∀ s, p.isGoal s = true → (alookup st.bestG s).isSome →
    (alookup st.frontier.best s).isSome
  parg : ∀ s2 q a, alookup st.parent s2 = some (some q, a) →
    ∃ a' c g2 gq, a = some a' ∧ (a', s2, c) ∈ p.succs q ∧
      alookup st.bestG q = some gq ∧ alookup st.bestG s2 = some g2 ∧ gq + c ≤ g2
  parRoot : ∀ s a, alookup st.parent s = some (none, a) → s = p.start ∧ a = none
  parDom : ∀ s, (alookup st.parent s).isSome ↔ (alookup st.bestG s).isSome
  acyc : Acyc st.parent

/-- A fixed start-to-goal path `es` together with a live frontier witness:
some node `v` on the path is tracked and its recorded cost is at most the
cost of the path prefix reaching it. -/
def PathWitness {S : Type u} {A : Type v} [DecidableEq S] [LinearOrder S]
    (p : Problem K S A) (st : AState K S A) (es : List (A × S × K)) (t : S) : Prop :=
  ∃ pre suf v, es = pre ++ suf ∧ IsPath p p.start pre v ∧ IsPath p v suf t ∧
    ∃ gv, alookup st.bestG v = some gv ∧ gv ≤ pathCost pre ∧
      (alookup st.frontier.best v).isSome

/-- A path from `x` to some goal state costing `d`. -/
def GoalPathCost {K : Type w} [LinearOrderedCommRing K] {S : Type u} {A : Type v} (p : Problem K S A)
    (x : S) (d : K) : Prop :=
  ∃ es t, IsPath p x es t ∧ p.isGoal t = true ∧ pathCost es = d

/-- Invariant holding between the successor-relaxation steps of one
`astar` expansion of the non-goal state `s`, popped at recorded cost `g`;
`done` is the list of edges already relaxed.  Compared to `AInv`, the
`closed` field exempts `s`, whose successor bounds are being established
edge by edge (`doneBound`). -/
structure MidInv {K : Type w} [LinearOrderedCommRing K] {S : Type u} {A : Type v}
    [DecidableEq S] [LinearOrder S] (p : Problem K S A) (h : S → K) (s : S) (g : K)
    (done : List (A × S × K)) (st : AState K S A) : Prop where
  sorted : st.frontier.heap.Sorted hle
  nkBest : (st.frontier.best.map Prod.fst).Nodup
  track : ∀ x pri, alookup st.frontier.best x = some pri → (pri, x) ∈ st.frontier.heap
  tsync : ∀ x pri, alookup st.frontier.best x = some pri → alookup st.bestF x = some pri
  fsync : ∀ x, alookup st.bestF x = (alookup st.bestG x).map fun gx => gx + h x
  reach : ∀ x gx, alookup st.bestG x = some gx →
    ∃ es, IsPath p p.start es x ∧ pathCost es = gx
  closedX : ∀ x gx, alookup st.bestG x = some gx → alookup st.frontier.best x = none →
    x ≠ s → ∀ e ∈ p.succs x, ∃ g', alookup st.bestG e.2.1 = some g' ∧ g' ≤ gx + e.2.2
  noGoalClosed : ∀ x, p.isGoal x = true → (alookup st.bestG x).isSome →
    (alookup st.frontier.best x).isSome
  parg : ∀ s2 q a, alookup st.parent s2 = some (some q, a) →
    ∃ a' c g2 gq, a = some a' ∧ (a', s2, c) ∈ p.succs q ∧
      alookup st.bestG q = some gq ∧ alookup st.bestG s2 = some g2 ∧ gq + c ≤ g2
  parRoot : ∀ x a, alookup st.parent x = some (none, a) → x = p.start ∧ a = none
  parDom : ∀ x, (alookup st.parent x).isSome ↔ (alookup st.bestG x).isSome
  acyc : Acyc st.parent
  sBG : alookup st.bestG s = some g
  sUntracked : alookup st.frontier.best s = none
  sNotGoal : p.isGoal s = false
  doneBound : ∀ e ∈ done, ∃ g', alookup st.bestG e.2.1 = some g' ∧ g' ≤ g + e.2.2

/-- Identity-only Python objects (no `__lt__`): comparing any two raises
`TypeError`, modelled as `Except.error`. -/
def pyObjLt (_ _ : ℕ) : Except Unit Bool := .error ()

/-- Python tuple `<` on `(priority, state)`: compare priorities by `==`
first (floats are orderable); only on a priority tie compare the states,
which for identity-only objects raises. -/
def pyTupLt (x y : ℚ × ℕ) : Except Unit Bool :=
  if x.1 = y.1 then
    (if x.2 = y.2 then .ok false else pyObjLt x.2 y.2)
  else .ok (decide (x.1 < y.1))

/-- CPython `heapq._siftdown(heap, startpos, pos)` with the dynamic tuple
comparison: bubble `newitem` up, raising whatever the comparison raises.
The explicit fuel (first `ℕ`, passed as `pos` by `heappushPy`) only bounds
the loop so the recursion is structural; the position strictly decreases
each turn, so fuel `pos` never runs out. -/
def siftdownPy (startpos : ℕ) (newitem : ℚ × ℕ) :
    ℕ → ℕ → List (ℚ × ℕ) → Except Unit (List (ℚ × ℕ))
  | fuel, pos, heap =>
    if startpos < pos then
      match fuel with
      | 0 => .error ()
      | fuel' + 1 =>
          let parentpos := (pos - 1) / 2
          match heap.get? parentpos with
          | none => .error ()
          | some par =>
              match pyTupLt newitem par with
              | .error e => .error e
              | .ok true => siftdownPy startpos newitem fuel' parentpos (heap.set pos par)
              | .ok false => .ok (heap.set pos newitem)
    else .ok (heap.set pos newitem)

/-- CPython `heapq.heappush`: append, then sift up from the tail. -/
def heappushPy (heap : List (ℚ × ℕ)) (item : ℚ × ℕ) : Except Unit (List (ℚ × ℕ)) :=
  siftdownPy 0 item heap.length heap.length (heap ++ [item])

/-- The v1_4/v1_1 queue state over identity-only Python states. -/
structure PQPy where
  heap : List (ℚ × ℕ)
  best : List (ℕ × ℚ)
  deriving DecidableEq

/-- `PriorityQueue.update` under the dynamic Python semantics: the
`heapq.heappush` call may raise `TypeError` from a tuple comparison. -/
def PQPy.update (q : PQPy) (state : ℕ) (priority : ℚ) : Except Unit (Bool × PQPy) :=
  match alookup q.best state with
  | none =>
      match heappushPy q.heap (priority, state) with
      | .error e => .error e
      | .ok heap' => .ok (true, ⟨heap', ainsert q.best state priority⟩)
  | some old =>
      if priority < old then
        match heappushPy q.heap (priority, state) with
        | .error e => .error e
        | .ok heap' => .ok (true, ⟨heap', ainsert q.best state priority⟩)
      else .ok (false, q)

/-- Two-edge diamond on which an admissible heuristic that is negative at
the goal makes `astar` return the expensive path: direct edge `0 → 2` of
cost 10 against `0 → 1 → 2` of cost `1 + 4`. -/
def cexNegH : Problem ℤ (Fin 3) ℕ :=
  { start := 0, isGoal := fun s => decide (s = 2),
    succs := fun s =>
      match s with
      | 0 => [(0, 2, 10), (1, 1, 1)]
      | 1 => [(2, 2, 4)]
      | 2 => [] }

/-- Heuristic for `cexNegH`: zero except at the goal, where it is `-100`
(still a lower bound on every remaining path cost). -/
def cexNegHheur : Fin 3 → ℤ := fun s =>
  match s with
  | 2 => -100
  | _ => 0

/-- One-state problem whose start is its goal. -/
def trivGoal : Problem ℤ (Fin 1) ℕ :=
  { start := 0, isGoal := fun _ => true, succs := fun _ => [] }

/-- Two-state unit-cost line, the generic small witness problem. -/
def lineProb : Problem ℤ (Fin 2) ℕ :=
  { start := 0, isGoal := fun s => decide (s = 1),
    succs := fun s =>
      match s with
      | 0 => [(0, 1, 1)]
      | 1 => [] }

/-- Negative-cost problem under which the `ucs` parent map becomes cyclic
(`1 ↔ 2`) before the goal `3` is popped, so `_reconstruct` walks forever:
edges `0 →0→ 1`, `1 →0→ 2`, `2 →(-5)→ 1`, `2 →(-50)→ 3`. -/
def cexNegCost : Problem ℤ (Fin 4) ℕ :=
  { start := 0, isGoal := fun s => decide (s = 3),
    succs := fun s =>
      match s with
      | 0 => [(0, 1, 0)]
      | 1 => [(0, 2, 0)]
      | 2 => [(0, 1, -5), (1, 3, -50)]
      | 3 => [] }

/-- Fuel-bounded evaluator for `runLoop`, structurally recursive so that
concrete runs reduce inside the kernel; `none` means the fuel ran out,
`some o` that the driver returns outcome `o`. -/
def runLoopFuel {St : Type u} {R : Type v} (f : St → StepOut St R) (μ : St → ℕ × ℕ) :
    ℕ → St → Option (Option (Except SearchErr R))
  | 0, _ => none
  | n + 1, st =>
      match f st with
      | .cont st' =>
          if lexLt (μ st') (μ st) then runLoopFuel f μ n st' else some none
      | .done r => some (some (.ok r))
      | .fail e => some (some (.error e))
      | .crash => some none

/-- The parent dict `ucs` has built on `cexNegCost` when the goal is
popped: `1` and `2` point at each other. -/
def cexCycleParent : List (Fin 4 × (Option (Fin 4) × Option ℕ)) :=
  [(0, (none, none)), (1, (some 2, some 0)), (2, (some 1, some 0)), (3, (some 2, some 1))]

/-- Two `ucs` loop states that agree on every algorithmic field, differing
only in the trace accumulators `expandedOrder` and `edges`. -/
def RelU {S : Type u} {A : Type v} (a b : UState K S A) : Prop :=
  a.frontier = b.frontier ∧ a.parent = b.parent ∧ a.bestG = b.bestG ∧
  a.expanded = b.expanded ∧ a.generated = b.generated ∧ a.reopens = b.reopens ∧
  a.maxFrontier = b.maxFrontier

/-- Two `astar` loop states that agree on every algorithmic field. -/
def RelA {S : Type u} {A : Type v} (a b : AState K S A) : Prop :=
  a.frontier = b.frontier ∧ a.parent = b.parent ∧ a.bestG = b.bestG ∧
  a.bestF = b.bestF ∧ a.expanded = b.expanded ∧ a.generated = b.generated ∧
  a.reopens = b.reopens ∧ a.maxFrontier = b.maxFrontier

/-- Two `bfs`/`dfs` loop states that agree on every algorithmic field. -/
def RelB {S : Type u} {A : Type v} (a b : BState K S A) : Prop :=
  a.q = b.q ∧ a.parent = b.parent ∧ a.depth = b.depth ∧
  a.expanded = b.expanded ∧ a.generated = b.generated ∧
  a.maxFrontier = b.maxFrontier

/-- Global invariant of the `bfs` loop state, between iterations.
`parent` keys are the discovered states; `depth` records the breadth
level, which is both attained (`reachB`) and minimal (`ubB`); the queue
depths are sorted and spread over at most two consecutive levels; every
dequeued state has all its successors discovered; no discovered state is
a goal (the goal child returns before being recorded). -/
structure BInv {K : Type w} {S : Type u} {A : Type v} [DecidableEq S]
    (p : Problem K S A) (st : BState K S A) : Prop where
  pdDom : ∀ x, (alookup st.parent x).isSome ↔ (alookup st.depth x).isSome
  pardepth : ∀ x q a, alookup st.parent x = some (some q, a) →
    ∃ act dq dx, a = some act ∧ alookup st.depth q = some dq ∧
      alookup st.depth x = some dx ∧ dx = dq + 1
  parRootB : ∀ x a, alookup st.parent x = some (none, a) →
    x = p.start ∧ a = none ∧ alookup st.depth x = some 0
  reachB : ∀ x dx, alookup st.depth x = some dx →
    ∃ es, IsPath p p.start es x ∧ es.length = dx
  ubB : ∀ x dx, alookup st.depth x = some dx →
    ∀ es, IsPath p p.start es x → dx ≤ es.length
  qDisc : ∀ x ∈ st.q, (alookup st.depth x).isSome
  qSortedB : st.q.Pairwise (fun x y => ∀ dx dy, alookup st.depth x = some dx →
    alookup st.depth y = some dy → dx ≤ dy)
  qSpread : ∀ x ∈ st.q, ∀ y ∈ st.q, ∀ dx dy, alookup st.depth x = some dx →
    alookup st.depth y = some dy → dx ≤ dy + 1
  closedB : ∀ x, (alookup st.parent x).isSome → x ∉ st.q →
    ∀ e ∈ p.succs x, (alookup st.parent e.2.1).isSome
  noGoalDisc : ∀ x, (alookup st.parent x).isSome → p.isGoal x = false
  startDisc : (alookup st.parent p.start).isSome

/-- Invariant holding between the successor steps of one `bfs` expansion
of the dequeued state `s` at breadth level `dS`; `done` is the list of
edges already scanned.  `closedX` exempts `s`; `doneDisc` re-establishes
its closure once the whole successor list has been scanned. -/
structure MidB {K : Type w} {S : Type u} {A : Type v} [DecidableEq S]
    (p : Problem K S A) (s : S) (dS : ℕ) (done : List (A × S × K))
    (st : BState K S A) : Prop where
  pdDom : ∀ x, (alookup st.parent x).isSome ↔ (alookup st.depth x).isSome
  pardepth : ∀ x q a, alookup st.parent x = some (some q, a) →
    ∃ act dq dx, a = some act ∧ alookup st.depth q = some dq ∧
      alookup st.depth x = some dx ∧ dx = dq + 1
  parRootB : ∀ x a, alookup st.parent x = some (none, a) →
    x = p.start ∧ a = none ∧ alookup st.depth x = some 0
  reachB : ∀ x dx, alookup st.depth x = some dx →
    ∃ es, IsPath p p.start es x ∧ es.length = dx
  ubB : ∀ x dx, alookup st.depth x = some dx →
    ∀ es, IsPath p p.start es x → dx ≤ es.length
  qDisc : ∀ x ∈ st.q, (alookup st.depth x).isSome
  qSortedB : st.q.Pairwise (fun x y => ∀ dx dy, alookup st.depth x = some dx →
    alookup st.depth y = some dy → dx ≤ dy)
  qBound : ∀ x ∈ st.q, ∀ dx, alookup st.depth x = some dx → dS ≤ dx ∧ dx ≤ dS + 1
  closedX : ∀ x, (alookup st.parent x).isSome → x ∉ st.q → x ≠ s →
    ∀ e ∈ p.succs x, (alookup st.parent e.2.1).isSome
  noGoalDisc : ∀ x, (alookup st.parent x).isSome → p.isGoal x = false
  startDisc : (alookup st.parent p.start).isSome
  sDepth : alookup st.depth s = some dS
  doneDisc : ∀ e ∈ done, (alookup st.parent e.2.1).isSome

/-- Pairing of two loop-iteration outcomes: related continuation states,
results with equal algorithmic cores, identical errors, or twin crashes. -/
def StepSim {K : Type w} {St : Type u} {S : Type u1} {A : Type v}
    (Rel : St → St → Prop)
    (o1 o2 : StepOut St (SearchResult K S A)) : Prop :=
  match o1, o2 with
  | .cont a, .cont b => Rel a b
  | .done r1, .done r2 => SearchResult.core r2 = SearchResult.core r1
  | .fail e1, .fail e2 => e2 = e1
  | .crash, .crash => True
  | _, _ => False

/-! ### Association-list lemmas -/

theorem alookup_ainsert_self {K : Type u} {V : Type v} [DecidableEq K]
    (m : List (K × V)) (k : K) (v : V) : alookup (ainsert m k v) k = some v := by
  induction m with
  | nil => simp [ainsert, alookup]
  | cons kv m ih =>
      by_cases h : k = kv.1
      · simp [ainsert, h, alookup]
      · simp only [ainsert]
        rw [if_neg (by exact fun h' => h (by cases kv; exact h'))]
        simp only [alookup]
        rw [if_neg (by cases kv; exact h), ih]

theorem alookup_ainsert_ne {K : Type u} {V : Type v} [DecidableEq K]
    (m : List (K × V)) (k k' : K) (v : V) (hne : k' ≠ k) :
    alookup (ainsert m k v) k' = alookup m k' := by
  induction m with
  | nil => simp [ainsert, alookup, hne]
  | cons kv m ih =>
      by_cases h : k = kv.1
      · cases kv with
        | mk k0 v0 =>
            simp only [ainsert]
            rw [if_pos h]
            simp only [alookup]
            rw [if_neg hne, if_neg (fun h' => hne (h ▸ h'))]
      · cases kv with
        | mk k0 v0 =>
            simp only [ainsert]
            rw [if_neg h]
            simp only [alookup]
            by_cases h2 : k' = k0
            · rw [if_pos h2, if_pos h2]
            · rw [if_neg h2, if_neg h2, ih]

theorem alookup_aerase_ne {K : Type u} {V : Type v} [DecidableEq K]
    (m : List (K × V)) (k k' : K) (hne : k' ≠ k) :
    alookup (aerase m k) k' = alookup m k' := by
  induction m with
  | nil => simp [aerase]
  | cons kv m ih =>
      cases kv with
      | mk k0 v0 =>
          simp only [aerase]
          by_cases h : k = k0
          · rw [if_pos h]
            simp only [alookup]
            rw [if_neg (fun h' => hne (h ▸ h'))]
          · rw [if_neg h]
            simp only [alookup]
            by_cases h2 : k' = k0
            · rw [if_pos h2, if_pos h2]
            · rw [if_neg h2, if_neg h2, ih]

theorem alookup_none_of_not_mem_keys {K : Type u} {V : Type v} [DecidableEq K]
    (m : List (K × V)) (k : K) (hk : k ∉ m.map Prod.fst) : alookup m k = none := by
  induction m with
  | nil => rfl
  | cons kv m ih =>
      simp only [List.map_cons, List.mem_cons] at hk
      push_neg at hk
      cases kv with
      | mk k0 v0 =>
          simp only [alookup]
          rw [if_neg hk.1]
          exact ih hk.2

theorem mem_keys_of_alookup_some {K : Type u} {V : Type v} [DecidableEq K]
    {m : List (K × V)} {k : K} {v : V} (h : alookup m k = some v) :
    k ∈ m.map Prod.fst := by
  induction m with
  | nil => simp [alookup] at h
  | cons kv m ih =>
      cases kv with
      | mk k0 v0 =>
          simp only [alookup] at h
          by_cases h2 : k = k0
          · simp [h2]
          · rw [if_neg h2] at h
            simp [ih h]

theorem alookup_aerase_self {K : Type u} {V : Type v} [DecidableEq K]
    (m : List (K × V)) (k : K) (hnd : (m.map Prod.fst).Nodup) :
    alookup (aerase m k) k = none := by
  induction m with
  | nil => rfl
  | cons kv m ih =>
      cases kv with
      | mk k0 v0 =>
          simp only [List.map_cons, List.nodup_cons] at hnd
          simp only [aerase]
          by_cases h : k = k0
          · rw [if_pos h]
            exact alookup_none_of_not_mem_keys m k (h ▸ hnd.1)
          · rw [if_neg h]
            simp only [alookup]
            rw [if_neg h]
            exact ih hnd.2

theorem keys_ainsert {K : Type u} {V : Type v} [DecidableEq K]
    (m : List (K × V)) (k : K) (v : V) :
    (ainsert m k v).map Prod.fst =
      if k ∈ m.map Prod.fst then m.map Prod.fst else m.map Prod.fst ++ [k] := by
  induction m with
  | nil => simp [ainsert]
  | cons kv m ih =>
      cases kv with
      | mk k0 v0 =>
          simp only [ainsert]
          by_cases h : k = k0
          · rw [if_pos h]
            simp [h]
          · rw [if_neg h]
            simp only [List.map_cons, ih]
            by_cases h2 : k ∈ m.map Prod.fst
            · rw [if_pos h2, if_pos (by simp [h2])]
            · rw [if_neg h2, if_neg (by simp [h, h2])]
              simp

theorem nodup_keys_ainsert {K : Type u} {V : Type v} [DecidableEq K]
    (m : List (K × V)) (k : K) (v : V) (hnd : (m.map Prod.fst).Nodup) :
    ((ainsert m k v).map Prod.fst).Nodup := by
  rw [keys_ainsert]
  by_cases h : k ∈ m.map Prod.fst
  · rw [if_pos h]; exact hnd
  · rw [if_neg h]
    simpa using List.Nodup.append hnd (List.nodup_singleton k) (by simpa using h)

theorem keys_aerase_subset {K : Type u} {V : Type v} [DecidableEq K]
    (m : List (K × V)) (k : K) :
    ((aerase m k).map Prod.fst).Sublist (m.map Prod.fst) := by
  induction m with
  | nil => simp [aerase]
  | cons kv m ih =>
      cases kv with
      | mk k0 v0 =>
          simp only [aerase]
          by_cases h : k = k0
          · rw [if_pos h]
            simp only [List.map_cons]
            exact (List.sublist_cons_self _ _)
          · rw [if_neg h]
            simp only [List.map_cons]
            exact ih.cons₂ _

theorem nodup_keys_aerase {K : Type u} {V : Type v} [DecidableEq K]
    (m : List (K × V)) (k : K) (hnd : (m.map Prod.fst).Nodup) :
    ((aerase m k).map Prod.fst).Nodup :=
  (keys_aerase_subset m k).nodup hnd

theorem length_ainsert_mem {K : Type u} {V : Type v} [DecidableEq K]
    (m : List (K × V)) (k : K) (v : V) (h : k ∈ m.map Prod.fst) :
    (ainsert m k v).length = m.length := by
  have := keys_ainsert m k v
  rw [if_pos h] at this
  have h1 : ((ainsert m k v).map Prod.fst).length = (m.map Prod.fst).length := by rw [this]
  simpa using h1

theorem length_ainsert_not_mem {K : Type u} {V : Type v} [DecidableEq K]
    (m : List (K × V)) (k : K) (v : V) (h : k ∉ m.map Prod.fst) :
    (ainsert m k v).length = m.length + 1 := by
  have := keys_ainsert m k v
  rw [if_neg h] at this
  have h1 : ((ainsert m k v).map Prod.fst).length = (m.map Prod.fst ++ [k]).length := by
    rw [this]
  simpa using h1

theorem alookup_isSome_of_mem_keys {K : Type u} {V : Type v} [DecidableEq K]
    {m : List (K × V)} {k : K} (h : k ∈ m.map Prod.fst) : (alookup m k).isSome := by
  induction m with
  | nil => simp at h
  | cons kv m ih =>
      cases kv with
      | mk k0 v0 =>
          simp only [alookup]
          by_cases h2 : k = k0
          · rw [if_pos h2]; rfl
          · rw [if_neg h2]
            simp only [List.map_cons, List.mem_cons] at h
            exact ih (h.resolve_left h2)

/-! ### Priority-queue lemmas -/

theorem popMin14_spec_aux {S : Type u} [DecidableEq S] (best : List (S × K)) :
    ∀ heap : List (K × S), ∃ pre rest, heap = pre ++ rest ∧
      (∀ e ∈ pre, alookup best e.2 ≠ some e.1) ∧
      ((rest = [] ∧ PQ.popMin14 ⟨heap, best⟩ = (none, ⟨[], best⟩)) ∨
       (∃ pri s tail, rest = (pri, s) :: tail ∧ alookup best s = some pri ∧
          PQ.popMin14 ⟨heap, best⟩ = (some (s, pri), ⟨tail, aerase best s⟩))) := by
  intro heap
  induction heap with
  | nil => exact ⟨[], [], rfl, by simp, Or.inl ⟨rfl, by simp [PQ.popMin14, popGo14]⟩⟩
  | cons e rest ih =>
      cases e with
      | mk pri s =>
          by_cases hlive : alookup best s = some pri
          · refine ⟨[], (pri, s) :: rest, rfl, by simp, Or.inr ⟨pri, s, rest, rfl, hlive, ?_⟩⟩
            simp [PQ.popMin14, popGo14, hlive]
          · obtain ⟨pre', rest', heq, hstale, hout⟩ := ih
            refine ⟨(pri, s) :: pre', rest', by simp [heq], ?_, ?_⟩
            · intro e he
              rcases List.mem_cons.mp he with he | he
              · subst he; exact hlive
              · exact hstale e he
            · have hrw : PQ.popMin14 ⟨(pri, s) :: rest, best⟩ = PQ.popMin14 ⟨rest, best⟩ := by
                simp [PQ.popMin14, popGo14, hlive]
              rcases hout with ⟨h1, h2⟩ | ⟨pri', s', tail, h1, h2, h3⟩
              · exact Or.inl ⟨h1, hrw ▸ h2⟩
              · exact Or.inr ⟨pri', s', tail, h1, h2, hrw ▸ h3⟩

theorem popMin14_some_elim {S : Type u} [DecidableEq S] {q q' : PQ K S} {s : S} {pri : K}
    (h : PQ.popMin14 q = (some (s, pri), q')) :
    alookup q.best s = some pri ∧ q'.best = aerase q.best s ∧
      ∃ pre, (∀ e ∈ pre, alookup q.best e.2 ≠ some e.1) ∧
        q.heap = pre ++ (pri, s) :: q'.heap := by
  obtain ⟨pre, rest, heq, hstale, hout⟩ := popMin14_spec_aux q.best q.heap
  have hq : q = ⟨q.heap, q.best⟩ := rfl
  rcases hout with ⟨h1, h2⟩ | ⟨pri', s', tail, h1, h2, h3⟩
  · rw [hq, h2] at h
    simp at h
  · rw [hq, h3] at h
    simp only [Prod.mk.injEq, Option.some.injEq] at h
    obtain ⟨⟨hs, hp⟩, hq'⟩ := h
    subst hs
    subst hp
    refine ⟨h2, by rw [← hq'], pre, hstale, ?_⟩
    rw [heq, h1, ← hq']

theorem popMin14_none_elim {S : Type u} [DecidableEq S] {q q' : PQ K S}
    (h : PQ.popMin14 q = (none, q')) :
    q'.best = q.best ∧ q'.heap = [] ∧ ∀ e ∈ q.heap, alookup q.best e.2 ≠ some e.1 := by
  obtain ⟨pre, rest, heq, hstale, hout⟩ := popMin14_spec_aux q.best q.heap
  have hq : q = ⟨q.heap, q.best⟩ := rfl
  rcases hout with ⟨h1, h2⟩ | ⟨pri', s', tail, h1, h2, h3⟩
  · rw [hq, h2] at h
    simp only [Prod.mk.injEq] at h
    refine ⟨by rw [← h.2], by rw [← h.2], ?_⟩
    intro e he
    rw [heq, h1] at he
    simp at he
    exact hstale e he
  · rw [hq, h3] at h
    simp at h

theorem popMin14_heap_lt {S : Type u} [DecidableEq S] {q q' : PQ K S} {x : S × K}
    (h : PQ.popMin14 q = (some x, q')) : q'.heap.length < q.heap.length := by
  cases x with
  | mk s pri =>
      obtain ⟨_, _, pre, _, hsplit⟩ := popMin14_some_elim h
      rw [hsplit]
      simp
      omega

theorem popMin14_min {S : Type u} [DecidableEq S] [LinearOrder S] {q q' : PQ K S}
    {s : S} {pri : K} (hsorted : q.heap.Sorted hle)
    (h : PQ.popMin14 q = (some (s, pri), q')) :
    ∀ s' p', alookup q.best s' = some p' → (p', s') ∈ q.heap → pri ≤ p' := by
  intro s' p' hlive hmem
  obtain ⟨hl, _, pre, hstale, hsplit⟩ := popMin14_some_elim h
  rw [hsplit] at hmem
  rcases List.mem_append.mp hmem with hmem | hmem
  · exact absurd hlive (hstale _ hmem)
  · rcases List.mem_cons.mp hmem with hmem | hmem
    · cases hmem; rfl
    · have hrel : hle (pri, s) (p', s') := by
        have hsorted2 : ((pri, s) :: q'.heap).Sorted hle := by
          rw [hsplit] at hsorted
          exact hsorted.sublist (List.sublist_append_right _ _)
        exact List.rel_of_sorted_cons hsorted2 _ hmem
      rcases hrel with h1 | ⟨h1, _⟩
      · exact le_of_lt h1
      · exact le_of_eq h1

theorem popMin14_mem_rest {S : Type u} [DecidableEq S] {q q' : PQ K S}
    {s : S} {pri : K} (h : PQ.popMin14 q = (some (s, pri), q')) :
    ∀ s' p', s' ≠ s → alookup q.best s' = some p' → (p', s') ∈ q.heap →
      (p', s') ∈ q'.heap := by
  intro s' p' hne hlive hmem
  obtain ⟨hl, _, pre, hstale, hsplit⟩ := popMin14_some_elim h
  rw [hsplit] at hmem
  rcases List.mem_append.mp hmem with hmem | hmem
  · exact absurd hlive (hstale _ hmem)
  · rcases List.mem_cons.mp hmem with hmem | hmem
    · exact absurd (congrArg Prod.snd hmem) (by simpa using hne)
    · exact hmem

theorem popMin14_sorted_rest {S : Type u} [DecidableEq S] [LinearOrder S] {q q' : PQ K S}
    {x : Option (S × K)} (hsorted : q.heap.Sorted hle)
    (h : PQ.popMin14 q = (x, q')) : q'.heap.Sorted hle := by
  cases x with
  | none =>
      have := (popMin14_none_elim h).2.1
      rw [this]
      exact List.sorted_nil
  | some sp =>
      cases sp with
      | mk s pri =>
          obtain ⟨_, _, pre, _, hsplit⟩ := popMin14_some_elim h
          rw [hsplit] at hsorted
          exact (hsorted.sublist (List.sublist_append_right _ _)).of_cons

theorem update_not_tracked {S : Type u} [DecidableEq S] [LinearOrder S]
    (q : PQ K S) (s : S) (pri : K) (h : alookup q.best s = none) :
    PQ.update q s pri =
      (true, ⟨q.heap.orderedInsert hle (pri, s), ainsert q.best s pri⟩) := by
  unfold PQ.update
  rw [h]

theorem update_improves {S : Type u} [DecidableEq S] [LinearOrder S]
    (q : PQ K S) (s : S) (pri old : K) (h : alookup q.best s = some old) (hlt : pri < old) :
    PQ.update q s pri =
      (true, ⟨q.heap.orderedInsert hle (pri, s), ainsert q.best s pri⟩) := by
  simp [PQ.update, h, hlt]

theorem update_noop {S : Type u} [DecidableEq S] [LinearOrder S]
    (q : PQ K S) (s : S) (pri old : K) (h : alookup q.best s = some old) (hge : ¬ pri < old) :
    PQ.update q s pri = (false, q) := by
  simp [PQ.update, h, hge]

theorem update_sorted {S : Type u} [DecidableEq S] [LinearOrder S]
    (q : PQ K S) (s : S) (pri : K) (hsorted : q.heap.Sorted hle) :
    ((PQ.update q s pri).2).heap.Sorted hle := by
  cases hb : alookup q.best s with
  | none =>
      rw [update_not_tracked q s pri hb]
      exact hsorted.orderedInsert _ _
  | some old =>
      by_cases hlt : pri < old
      · rw [update_improves q s pri old hb hlt]
        exact hsorted.orderedInsert _ _
      · rw [update_noop q s pri old hb hlt]
        exact hsorted

theorem update_nodup {S : Type u} [DecidableEq S] [LinearOrder S]
    (q : PQ K S) (s : S) (pri : K) (hnd : (q.best.map Prod.fst).Nodup) :
    (((PQ.update q s pri).2).best.map Prod.fst).Nodup := by
  cases hb : alookup q.best s with
  | none =>
      rw [update_not_tracked q s pri hb]
      exact nodup_keys_ainsert _ _ _ hnd
  | some old =>
      by_cases hlt : pri < old
      · rw [update_improves q s pri old hb hlt]
        exact nodup_keys_ainsert _ _ _ hnd
      · rw [update_noop q s pri old hb hlt]
        exact hnd

theorem update_track {S : Type u} [DecidableEq S] [LinearOrder S]
    (q : PQ K S) (s : S) (pri : K)
    (htrack : ∀ s' p', alookup q.best s' = some p' → (p', s') ∈ q.heap) :
    ∀ s' p', alookup ((PQ.update q s pri).2).best s' = some p' →
      (p', s') ∈ ((PQ.update q s pri).2).heap := by
  have main : ∀ s' p', alookup (ainsert q.best s pri) s' = some p' →
      (p', s') ∈ q.heap.orderedInsert hle (pri, s) := by
    intro s' p' hl
    by_cases he : s' = s
    · subst he
      rw [alookup_ainsert_self] at hl
      cases hl
      exact (List.mem_orderedInsert _).mpr (Or.inl rfl)
    · rw [alookup_ainsert_ne _ _ _ _ he] at hl
      exact (List.mem_orderedInsert _).mpr (Or.inr (htrack _ _ hl))
  intro s' p' hl
  cases hb : alookup q.best s with
  | none =>
      rw [update_not_tracked q s pri hb] at hl ⊢
      exact main s' p' hl
  | some old =>
      by_cases hlt : pri < old
      · rw [update_improves q s pri old hb hlt] at hl ⊢
        exact main s' p' hl
      · rw [update_noop q s pri old hb hlt] at hl ⊢
        exact htrack _ _ hl

theorem update_best_lookup_self {S : Type u} [DecidableEq S] [LinearOrder S]
    (q : PQ K S) (s : S) (pri : K) :
    alookup ((PQ.update q s pri).2).best s =
      (if (PQ.update q s pri).1 then some pri else alookup q.best s) := by
  cases hb : alookup q.best s with
  | none =>
      rw [update_not_tracked q s pri hb]
      simpa using alookup_ainsert_self q.best s pri
  | some old =>
      by_cases hlt : pri < old
      · rw [update_improves q s pri old hb hlt]
        simpa using alookup_ainsert_self q.best s pri
      · rw [update_noop q s pri old hb hlt]
        simp [hb]

theorem update_best_lookup_ne {S : Type u} [DecidableEq S] [LinearOrder S]
    (q : PQ K S) (s s' : S) (pri : K) (hne : s' ≠ s) :
    alookup ((PQ.update q s pri).2).best s' = alookup q.best s' := by
  cases hb : alookup q.best s with
  | none =>
      rw [update_not_tracked q s pri hb]
      exact alookup_ainsert_ne _ _ _ _ hne
  | some old =>
      by_cases hlt : pri < old
      · rw [update_improves q s pri old hb hlt]
        exact alookup_ainsert_ne _ _ _ _ hne
      · rw [update_noop q s pri old hb hlt]

/-! ### Generic loop-driver lemmas -/

theorem lexLt_wf : WellFounded lexLt := by
  have h : Subrelation lexLt (Prod.Lex (· < ·) (· < ·) : ℕ × ℕ → ℕ × ℕ → Prop) := by
    intro a b hab
    rcases a with ⟨a1, a2⟩
    rcases b with ⟨b1, b2⟩
    rcases hab with h | ⟨h1, h2⟩
    · exact Prod.Lex.left _ _ h
    · cases h1
      exact Prod.Lex.right _ h2
  exact Subrelation.wf h (WellFounded.prod_lex (Nat.lt_wfRel.wf) (Nat.lt_wfRel.wf))

theorem lex_induction {C : ℕ × ℕ → Prop}
    (ih : ∀ m, (∀ m', lexLt m' m → C m') → C m) : ∀ m, C m := fun m =>
  lexLt_wf.induction m ih

theorem runLoop_unfold {St : Type u} {R : Type v} (f : St → StepOut St R)
    (μ : St → ℕ × ℕ) (st : St) :
    runLoop f μ st = match f st with
      | .cont st' => if _h : lexLt (μ st') (μ st) then runLoop f μ st' else none
      | .done r => some (.ok r)
      | .fail e => some (.error e)
      | .crash => none := by
  rw [runLoop]

theorem runLoop_cont {St : Type u} {R : Type v} {f : St → StepOut St R}
    {μ : St → ℕ × ℕ} {st st' : St} (hf : f st = .cont st') :
    runLoop f μ st = if _h : lexLt (μ st') (μ st) then runLoop f μ st' else none := by
  rw [runLoop_unfold, hf]

theorem runLoop_done {St : Type u} {R : Type v} {f : St → StepOut St R}
    {μ : St → ℕ × ℕ} {st : St} {r : R} (hf : f st = .done r) :
    runLoop f μ st = some (.ok r) := by
  rw [runLoop_unfold, hf]

theorem runLoop_fail {St : Type u} {R : Type v} {f : St → StepOut St R}
    {μ : St → ℕ × ℕ} {st : St} {e : SearchErr} (hf : f st = .fail e) :
    runLoop f μ st = some (.error e) := by
  rw [runLoop_unfold, hf]

theorem runLoop_crash {St : Type u} {R : Type v} {f : St → StepOut St R}
    {μ : St → ℕ × ℕ} {st : St} (hf : f st = .crash) :
    runLoop f μ st = none := by
  rw [runLoop_unfold, hf]

theorem runLoop_post {St : Type u} {R : Type v} {f : St → StepOut St R}
    {μ : St → ℕ × ℕ} {P : St → Prop} {Q : R → Prop}
    (hstep : ∀ st, P st → (∀ st', f st = .cont st' → P st') ∧
      (∀ r, f st = .done r → Q r)) :
    ∀ st, P st → ∀ r, runLoop f μ st = some (.ok r) → Q r := by
  suffices H : ∀ m st, μ st = m → P st → ∀ r, runLoop f μ st = some (.ok r) → Q r by
    intro st
    exact H (μ st) st rfl
  intro m
  induction m using lex_induction with
  | ih m IH =>
      intro st hm hP r hrun
      cases hf : f st with
      | cont st' =>
          rw [runLoop_cont hf] at hrun
          by_cases hg : lexLt (μ st') (μ st)
          · rw [dif_pos hg] at hrun
            exact IH (μ st') (hm ▸ hg) st' rfl ((hstep st hP).1 st' hf) r hrun
          · rw [dif_neg hg] at hrun
            exact absurd hrun (by simp)
      | done r' =>
          rw [runLoop_done hf] at hrun
          simp only [Option.some.injEq, Except.ok.injEq] at hrun
          exact hrun ▸ (hstep st hP).2 r' hf
      | fail e =>
          rw [runLoop_fail hf] at hrun
          simp at hrun
      | crash =>
          rw [runLoop_crash hf] at hrun
          simp at hrun

theorem runLoop_no_crash {St : Type u} {R : Type v} {f : St → StepOut St R}
    {μ : St → ℕ × ℕ} {P : St → Prop}
    (hstep : ∀ st, P st → (∀ st', f st = .cont st' → P st' ∧ lexLt (μ st') (μ st)) ∧
      f st ≠ .crash) :
    ∀ st, P st → runLoop f μ st ≠ none := by
  suffices H : ∀ m st, μ st = m → P st → runLoop f μ st ≠ none by
    intro st
    exact H (μ st) st rfl
  intro m
  induction m using lex_induction with
  | ih m IH =>
      intro st hm hP hrun
      cases hf : f st with
      | cont st' =>
          rw [runLoop_cont hf] at hrun
          obtain ⟨hP', hdec⟩ := (hstep st hP).1 st' hf
          rw [dif_pos hdec] at hrun
          exact IH (μ st') (hm ▸ hdec) st' rfl hP' hrun
      | done r' =>
          rw [runLoop_done hf] at hrun
          simp at hrun
      | fail e =>
          rw [runLoop_fail hf] at hrun
          simp at hrun
      | crash => exact (hstep st hP).2 hf

theorem runLoop_bisim {St1 : Type u} {St2 : Type v} {R1 R2 T : Type w}
    {f1 : St1 → StepOut St1 R1} {f2 : St2 → StepOut St2 R2}
    {μ1 : St1 → ℕ × ℕ} {μ2 : St2 → ℕ × ℕ}
    {Rel : St1 → St2 → Prop} {φ1 : R1 → T} {φ2 : R2 → T}
    (hμ : ∀ a b, Rel a b → μ2 b = μ1 a)
    (hsim : ∀ a b, Rel a b →
      ((∀ a', f1 a = .cont a' → ∃ b', f2 b = .cont b' ∧ Rel a' b') ∧
       (∀ r, f1 a = .done r → ∃ r2, f2 b = .done r2 ∧ φ2 r2 = φ1 r) ∧
       (∀ e, f1 a = .fail e → f2 b = .fail e) ∧
       (f1 a = .crash → f2 b = .crash))) :
    ∀ a b, Rel a b →
      (runLoop f2 μ2 b).map (Except.map φ2) = (runLoop f1 μ1 a).map (Except.map φ1) := by
  suffices H : ∀ m a b, μ1 a = m → Rel a b →
      (runLoop f2 μ2 b).map (Except.map φ2) = (runLoop f1 μ1 a).map (Except.map φ1) by
    intro a b hab
    exact H (μ1 a) a b rfl hab
  intro m
  induction m using lex_induction with
  | ih m IH =>
      intro a b hm hab
      cases hf : f1 a with
      | cont a' =>
          obtain ⟨b', hf2, hab'⟩ := (hsim a b hab).1 a' hf
          rw [runLoop_cont hf, runLoop_cont hf2]
          have hμa : μ2 b' = μ1 a' := hμ a' b' hab'
          have hμb : μ2 b = μ1 a := hμ a b hab
          by_cases hg : lexLt (μ1 a') (μ1 a)
          · rw [dif_pos hg, dif_pos (by rw [hμa, hμb]; exact hg)]
            exact IH (μ1 a') (hm ▸ hg) a' b' rfl hab'
          · rw [dif_neg hg, dif_neg (by rw [hμa, hμb]; exact hg)]
            rfl
      | done r =>
          obtain ⟨r2, hf2, hφ⟩ := (hsim a b hab).2.1 r hf
          rw [runLoop_done hf, runLoop_done hf2]
          simp [Except.map, hφ]
      | fail e =>
          rw [runLoop_fail hf, runLoop_fail ((hsim a b hab).2.2.1 e hf)]
          rfl
      | crash =>
          rw [runLoop_crash hf, runLoop_crash ((hsim a b hab).2.2.2 hf)]
          rfl

theorem runLoopFuel_agree {St : Type u} {R : Type v} {f : St → StepOut St R}
    {μ : St → ℕ × ℕ} :
    ∀ (n : ℕ) (st : St) (out : Option (Except SearchErr R)),
      runLoopFuel f μ n st = some out → runLoop f μ st = out := by
  intro n
  induction n with
  | zero => intro st out h; simp [runLoopFuel] at h
  | succ n ih =>
      intro st out h
      cases hf : f st with
      | cont st' =>
          simp only [runLoopFuel, hf] at h
          by_cases hg : lexLt (μ st') (μ st)
          · rw [if_pos hg] at h
            rw [runLoop_cont hf, dif_pos hg]
            exact ih st' out h
          · rw [if_neg hg] at h
            cases h
            rw [runLoop_cont hf, dif_neg hg]
      | done r =>
          simp only [runLoopFuel, hf, Option.some.injEq] at h
          rw [← h]
          exact runLoop_done hf
      | fail e =>
          simp only [runLoopFuel, hf, Option.some.injEq] at h
          rw [← h]
          exact runLoop_fail hf
      | crash =>
          simp only [runLoopFuel, hf, Option.some.injEq] at h
          rw [← h]
          exact runLoop_crash hf

theorem runLoopFuel_project {St : Type u} {R : Type v} {β : Type w}
    {f : St → StepOut St R} {μ : St → ℕ × ℕ}
    (π : Option (Except SearchErr R) → β) (n : ℕ) {st : St} {b : β}
    (h : (runLoopFuel f μ n st).map π = some b) : π (runLoop f μ st) = b := by
  cases hfu : runLoopFuel f μ n st with
  | none => rw [hfu] at h; simp at h
  | some out =>
      rw [hfu] at h
      simp only [Option.map, Option.some.injEq] at h
      rw [runLoopFuel_agree n st out hfu, h]

/-! ### Step elimination and termination lemmas -/

theorem ucsStep_elim {S : Type u} {A : Type v} [DecidableEq S] [LinearOrder S]
    (p : Problem K S A) (cap : ℕ) (tr : Bool) (st : UState K S A)
    (out : StepOut (UState K S A) (SearchResult K S A)) (h : ucsStep p cap tr st = out) :
    (cap ≤ st.expanded ∧ out = .fail .resourceExhausted) ∨
    (¬ cap ≤ st.expanded ∧ (∃ q', PQ.popMin14 st.frontier = (none, q') ∧
        out = .fail .noSolution)) ∨
    (¬ cap ≤ st.expanded ∧ ∃ s g q', PQ.popMin14 st.frontier = (some (s, g), q') ∧
        some g ≠ alookup st.bestG s ∧ out = .cont { st with frontier := q' }) ∨
    (¬ cap ≤ st.expanded ∧ ∃ s g q', PQ.popMin14 st.frontier = (some (s, g), q') ∧
        some g = alookup st.bestG s ∧ p.isGoal s = true ∧
        ((reconstruct s st.parent = none ∧ out = .crash) ∨
         (∃ sts acts, reconstruct s st.parent = some (sts, acts) ∧
            out = .done { cost := g, actions := acts, states := sts,
                          expanded := st.expanded + 1, generated := st.generated,
                          reopens := st.reopens, maxFrontier := st.maxFrontier,
                          trace :=
                            if tr then
                              some ⟨st.parent, st.bestG,
                                    if tr then st.expandedOrder ++ [s] else st.expandedOrder,
                                    st.edges⟩
                            else none }))) ∨
    (¬ cap ≤ st.expanded ∧ ∃ s g q', PQ.popMin14 st.frontier = (some (s, g), q') ∧
        some g = alookup st.bestG s ∧ p.isGoal s = false ∧
        out = .cont ((p.succs s).foldl (ucsRelax s g)
          { st with frontier := q', expanded := st.expanded + 1,
                    expandedOrder :=
                      if tr then st.expandedOrder ++ [s] else st.expandedOrder })) := by
  by_cases hcap : cap ≤ st.expanded
  · left
    refine ⟨hcap, ?_⟩
    rw [← h]
    simp [ucsStep, hcap]
  · rcases hpop : PQ.popMin14 st.frontier with ⟨o, q'⟩
    cases o with
    | none =>
        right; left
        refine ⟨hcap, q', rfl, ?_⟩
        rw [← h]
        simp [ucsStep, hcap, hpop]
    | some sg =>
        rcases sg with ⟨s, g⟩
        by_cases hstale : some g = alookup st.bestG s
        · by_cases hgoal : p.isGoal s
          · cases hrec : reconstruct s st.parent with
            | none =>
                right; right; right; left
                refine ⟨hcap, s, g, q', rfl, hstale, hgoal, Or.inl ⟨hrec, ?_⟩⟩
                rw [← h]
                simp [ucsStep, hcap, hpop, hstale, hgoal, hrec]
            | some pr =>
                rcases pr with ⟨sts, acts⟩
                right; right; right; left
                refine ⟨hcap, s, g, q', rfl, hstale, hgoal, Or.inr ⟨sts, acts, hrec, ?_⟩⟩
                rw [← h]
                simp [ucsStep, hcap, hpop, hstale, hgoal, hrec]
          · right; right; right; right
            refine ⟨hcap, s, g, q', rfl, hstale, by simpa using hgoal, ?_⟩
            rw [← h]
            simp [ucsStep, hcap, hpop, hstale, hgoal]
        · right; right; left
          refine ⟨hcap, s, g, q', rfl, hstale, ?_⟩
          rw [← h]
          simp [ucsStep, hcap, hpop, hstale]

theorem astarStep_elim {S : Type u} {A : Type v} [DecidableEq S] [LinearOrder S]
    (p : Problem K S A) (hr : S → K) (cap : ℕ) (tr : Bool) (st : AState K S A)
    (out : StepOut (AState K S A) (SearchResult K S A)) (h : astarStep p hr cap tr st = out) :
    (cap ≤ st.expanded ∧ out = .fail .resourceExhausted) ∨
    (¬ cap ≤ st.expanded ∧ (∃ q', PQ.popMin14 st.frontier = (none, q') ∧
        out = .fail .noSolution)) ∨
    (¬ cap ≤ st.expanded ∧ ∃ s f q', PQ.popMin14 st.frontier = (some (s, f), q') ∧
        some f ≠ alookup st.bestF s ∧ out = .cont { st with frontier := q' }) ∨
    (¬ cap ≤ st.expanded ∧ ∃ s f q', PQ.popMin14 st.frontier = (some (s, f), q') ∧
        some f = alookup st.bestF s ∧ alookup st.bestG s = none ∧ out = .crash) ∨
    (¬ cap ≤ st.expanded ∧ ∃ s f g q', PQ.popMin14 st.frontier = (some (s, f), q') ∧
        some f = alookup st.bestF s ∧ alookup st.bestG s = some g ∧ p.isGoal s = true ∧
        ((reconstruct s st.parent = none ∧ out = .crash) ∨
         (∃ sts acts, reconstruct s st.parent = some (sts, acts) ∧
            out = .done { cost := g, actions := acts, states := sts,
                          expanded := st.expanded + 1, generated := st.generated,
                          reopens := st.reopens, maxFrontier := st.maxFrontier,
                          trace :=
                            if tr then
                              some ⟨st.parent, st.bestG,
                                    if tr then st.expandedOrder ++ [s] else st.expandedOrder,
                                    st.edges⟩
                            else none }))) ∨
    (¬ cap ≤ st.expanded ∧ ∃ s f g q', PQ.popMin14 st.frontier = (some (s, f), q') ∧
        some f = alookup st.bestF s ∧ alookup st.bestG s = some g ∧ p.isGoal s = false ∧
        out = .cont ((p.succs s).foldl (astarRelax hr s g)
          { st with frontier := q', expanded := st.expanded + 1,
                    expandedOrder :=
                      if tr then st.expandedOrder ++ [s] else st.expandedOrder })) := by
  by_cases hcap : cap ≤ st.expanded
  · left
    refine ⟨hcap, ?_⟩
    rw [← h]
    simp [astarStep, hcap]
  · rcases hpop : PQ.popMin14 st.frontier with ⟨o, q'⟩
    cases o with
    | none =>
        right; left
        refine ⟨hcap, q', rfl, ?_⟩
        rw [← h]
        simp [astarStep, hcap, hpop]
    | some sg =>
        rcases sg with ⟨s, f⟩
        by_cases hstale : some f = alookup st.bestF s
        · cases hg : alookup st.bestG s with
          | none =>
              right; right; right; left
              refine ⟨hcap, s, f, q', rfl, hstale, hg, ?_⟩
              rw [← h]
              simp [astarStep, hcap, hpop, hstale, hg]
          | some g =>
              by_cases hgoal : p.isGoal s
              · cases hrec : reconstruct s st.parent with
                | none =>
                    right; right; right; right; left
                    refine ⟨hcap, s, f, g, q', rfl, hstale, hg, hgoal, Or.inl ⟨hrec, ?_⟩⟩
                    rw [← h]
                    simp [astarStep, hcap, hpop, hstale, hg, hgoal, hrec]
                | some pr =>
                    rcases pr with ⟨sts, acts⟩
                    right; right; right; right; left
                    refine ⟨hcap, s, f, g, q', rfl, hstale, hg, hgoal,
                      Or.inr ⟨sts, acts, hrec, ?_⟩⟩
                    rw [← h]
                    simp [astarStep, hcap, hpop, hstale, hg, hgoal, hrec]
              · right; right; right; right; right
                refine ⟨hcap, s, f, g, q', rfl, hstale, hg, by simpa using hgoal, ?_⟩
                rw [← h]
                simp [astarStep, hcap, hpop, hstale, hg, hgoal]
        · right; right; left
          refine ⟨hcap, s, f, q', rfl, hstale, ?_⟩
          rw [← h]
          simp [astarStep, hcap, hpop, hstale]

theorem ucsRelax_expanded {S : Type u} {A : Type v} [DecidableEq S] [LinearOrder S]
    (s : S) (g : K) (st : UState K S A) (e : A × S × K) :
    (ucsRelax s g st e).expanded = st.expanded := by
  simp only [ucsRelax]
  (repeat' split) <;> rfl

theorem foldl_ucsRelax_expanded {S : Type u} {A : Type v} [DecidableEq S] [LinearOrder S]
    (s : S) (g : K) (l : List (A × S × K)) :
    ∀ st : UState K S A, (l.foldl (ucsRelax s g) st).expanded = st.expanded := by
  induction l with
  | nil => intro st; rfl
  | cons e l ih =>
      intro st
      simp only [List.foldl_cons]
      rw [ih, ucsRelax_expanded]

theorem astarRelax_expanded {S : Type u} {A : Type v} [DecidableEq S] [LinearOrder S]
    (hr : S → K) (s : S) (g : K) (st : AState K S A) (e : A × S × K) :
    (astarRelax hr s g st e).expanded = st.expanded := by
  simp only [astarRelax]
  (repeat' split) <;> rfl

theorem foldl_astarRelax_expanded {S : Type u} {A : Type v} [DecidableEq S] [LinearOrder S]
    (hr : S → K) (s : S) (g : K) (l : List (A × S × K)) :
    ∀ st : AState K S A, (l.foldl (astarRelax hr s g) st).expanded = st.expanded := by
  induction l with
  | nil => intro st; rfl
  | cons e l ih =>
      intro st
      simp only [List.foldl_cons]
      rw [ih, astarRelax_expanded]

theorem ucsStep_dec {S : Type u} {A : Type v} [DecidableEq S] [LinearOrder S]
    (p : Problem K S A) (cap : ℕ) (tr : Bool) (st st' : UState K S A)
    (h : ucsStep p cap tr st = .cont st') :
    lexLt (pqMeasure cap st') (pqMeasure cap st) := by
  rcases ucsStep_elim p cap tr st _ h with
    ⟨_, hout⟩ | ⟨_, _, _, hout⟩ | ⟨hcap, s, g, q', hpop, _, hout⟩ |
    ⟨hcap, s, g, q', hpop, _, _, hout | hout⟩ | ⟨hcap, s, g, q', hpop, _, _, hout⟩
  · simp at hout
  · simp at hout
  · have hst' : st' = { st with frontier := q' } := by
      simpa using hout
    subst hst'
    right
    refine ⟨rfl, ?_⟩
    exact popMin14_heap_lt hpop
  · simp at hout
  · obtain ⟨_, _, _, hout⟩ := hout
    simp at hout
  · have hst' : st' = (p.succs s).foldl (ucsRelax s g)
        { st with frontier := q', expanded := st.expanded + 1,
                  expandedOrder :=
                    if tr then st.expandedOrder ++ [s] else st.expandedOrder } := by
      simpa using hout
    subst hst'
    left
    simp only [pqMeasure, foldl_ucsRelax_expanded]
    omega

theorem astarStep_dec {S : Type u} {A : Type v} [DecidableEq S] [LinearOrder S]
    (p : Problem K S A) (hr : S → K) (cap : ℕ) (tr : Bool) (st st' : AState K S A)
    (h : astarStep p hr cap tr st = .cont st') :
    lexLt (pqMeasureA cap st') (pqMeasureA cap st) := by
  rcases astarStep_elim p hr cap tr st _ h with
    ⟨_, hout⟩ | ⟨_, _, _, hout⟩ | ⟨hcap, s, f, q', hpop, _, hout⟩ |
    ⟨_, _, _, _, _, _, _, hout⟩ |
    ⟨hcap, s, f, g, q', hpop, _, _, _, hout | hout⟩ |
    ⟨hcap, s, f, g, q', hpop, _, _, _, hout⟩
  · simp at hout
  · simp at hout
  · have hst' : st' = { st with frontier := q' } := by
      simpa using hout
    subst hst'
    right
    refine ⟨rfl, ?_⟩
    exact popMin14_heap_lt hpop
  · simp at hout
  · simp at hout
  · obtain ⟨_, _, _, hout⟩ := hout
    simp at hout
  · have hst' : st' = (p.succs s).foldl (astarRelax hr s g)
        { st with frontier := q', expanded := st.expanded + 1,
                  expandedOrder :=
                    if tr then st.expandedOrder ++ [s] else st.expandedOrder } := by
      simpa using hout
    subst hst'
    left
    simp only [pqMeasureA, foldl_astarRelax_expanded]
    omega

theorem bfsScan_cont_expanded {S : Type u} {A : Type v} [DecidableEq S]
    (p : Problem K S A) (tr : Bool) (s : S) (l : List (A × S × K)) :
    ∀ st st' : BState K S A, bfsScan p tr s l st = .cont st' → st'.expanded = st.expanded := by
  induction l with
  | nil =>
      intro st st' h
      simp only [bfsScan] at h
      cases h
      rfl
  | cons e rest ih =>
      intro st st' h
      simp only [bfsScan] at h
      split at h
      · exact (ih _ st' h).trans rfl
      · split at h
        · simp at h
        · split at h
          · split at h
            · simp at h
            · simp at h
          · exact (ih _ st' h).trans rfl

theorem dfsScan_cont_expanded {S : Type u} {A : Type v} [DecidableEq S]
    (p : Problem K S A) (s : S) (l : List (A × S × K)) :
    ∀ st st' : BState K S A, dfsScan p s l st = .cont st' → st'.expanded = st.expanded := by
  induction l with
  | nil =>
      intro st st' h
      simp only [dfsScan] at h
      cases h
      rfl
  | cons e rest ih =>
      intro st st' h
      simp only [dfsScan] at h
      split at h
      · exact (ih _ st' h).trans rfl
      · split at h
        · simp at h
        · exact (ih _ st' h).trans rfl

theorem bfsStep_dec {S : Type u} {A : Type v} [DecidableEq S]
    (p : Problem K S A) (cap : ℕ) (tr : Bool) (st st' : BState K S A)
    (h : bfsStep p cap tr st = .cont st') :
    lexLt (bMeasure cap st') (bMeasure cap st) := by
  simp only [bfsStep] at h
  split at h
  · simp at h
  · split at h
    · simp at h
    · have hexp := bfsScan_cont_expanded p tr _ _ _ _ h
      left
      simp only [bMeasure, hexp]
      simp only [bMeasure] at *
      omega

theorem dfsStep_dec {S : Type u} {A : Type v} [DecidableEq S]
    (p : Problem K S A) (cap : ℕ) (tr : Bool) (st st' : BState K S A)
    (h : dfsStep p cap tr st = .cont st') :
    lexLt (bMeasure cap st') (bMeasure cap st) := by
  simp only [dfsStep] at h
  split at h
  · simp at h
  · split at h
    · simp at h
    · split at h
      · split at h
        · simp at h
        · simp at h
      · have hexp := dfsScan_cont_expanded p _ _ _ _ h
        left
        simp only [bMeasure, hexp]
        simp only [bMeasure] at *
        omega

theorem stepIter_reach {St : Type u} {R : Type v} {f : St → StepOut St R} :
    ∀ {n : ℕ} {st st' : St}, stepIter f n st = some st' → LoopReach f st st' := by
  intro n
  induction n with
  | zero =>
      intro st st' h
      cases h
      exact Relation.ReflTransGen.refl
  | succ n ih =>
      intro st st' h
      cases hf : f st with
      | cont st1 =>
          simp only [stepIter, hf] at h
          exact Relation.ReflTransGen.head hf (ih h)
      | done r => simp [stepIter, hf] at h
      | fail e => simp [stepIter, hf] at h
      | crash => simp [stepIter, hf] at h

/-! ### Claim C2 -/

/-- C2 counterexample: on the v1_1 `PriorityQueue`, `pop_min` does NOT
delete the popped state from the tracked map, so a later `update` of the
same state at the same priority does NOT re-insert it — the claim as
stated (covering the v1_1 queue of its sources) is false. -/
theorem claim_C2_counterexample :
    (PQ.popMin11 ((PQ.update (PQ.empty (K := ℤ) (S := ℕ)) 0 5).2)).1 = some (0, 5) ∧
    alookup ((PQ.popMin11 ((PQ.update (PQ.empty (K := ℤ) (S := ℕ)) 0 5).2)).2).best 0 =
      some 5 ∧
    (PQ.update ((PQ.popMin11 ((PQ.update (PQ.empty (K := ℤ) (S := ℕ)) 0 5).2)).2) 0 5).1 =
      false := by
  refine ⟨?_, ?_, ?_⟩ <;> decide

/-- C2 amended: the claimed `pop_min` behaviour holds for the v1_4
`PriorityQueue` (with no-duplicate tracked keys, as every dict has): the
popped heap prefix is exactly the stale entries, none of which is ever
returned; the first live entry is returned and its state is deleted from
the tracked map, so a later `update` of that state at ANY priority pushes
again; if no live entry exists the heap empties, the tracked map is
untouched, and the empty result is returned. -/
theorem claim_C2_amended {K : Type w} [LinearOrderedCommRing K] {S : Type u}
    [DecidableEq S] [LinearOrder S] (q : PQ K S)
    (hnd : (q.best.map Prod.fst).Nodup) :
    ∃ pre rest, q.heap = pre ++ rest ∧
      (∀ e ∈ pre, alookup q.best e.2 ≠ some e.1) ∧
      ((rest = [] ∧ PQ.popMin14 q = (none, ⟨[], q.best⟩)) ∨
       (∃ pri s tail, rest = (pri, s) :: tail ∧ alookup q.best s = some pri ∧
          PQ.popMin14 q = (some (s, pri), ⟨tail, aerase q.best s⟩) ∧
          alookup (aerase q.best s) s = none ∧
          ∀ p' : K, (PQ.update ((PQ.popMin14 q).2) s p').1 = true)) := by
  obtain ⟨pre, rest, heq, hstale, hout⟩ := popMin14_spec_aux q.best q.heap
  have hq14 : PQ.popMin14 q = PQ.popMin14 ⟨q.heap, q.best⟩ := rfl
  refine ⟨pre, rest, heq, hstale, ?_⟩
  rcases hout with ⟨h1, h2⟩ | ⟨pri, s, tail, h1, h2, h3⟩
  · exact Or.inl ⟨h1, hq14 ▸ h2⟩
  · refine Or.inr ⟨pri, s, tail, h1, h2, hq14 ▸ h3, alookup_aerase_self _ _ hnd, ?_⟩
    intro p'
    rw [hq14, h3]
    have : alookup (aerase q.best s) s = none := alookup_aerase_self _ _ hnd
    rw [update_not_tracked _ _ _ (by simpa using this)]

/-- C2 amended witness at a concrete queue: one stale and one live entry. -/
theorem claim_C2_amended_witness :
    (((runOps14 (K := ℤ) [PQOp.update (0 : ℕ) 5, PQOp.update 0 3]).best.map
        Prod.fst).Nodup) ∧
    (∃ pre rest,
      (runOps14 (K := ℤ) [PQOp.update (0 : ℕ) 5, PQOp.update 0 3]).heap = pre ++ rest ∧
      (∀ e ∈ pre,
          alookup (runOps14 (K := ℤ) [PQOp.update (0 : ℕ) 5, PQOp.update 0 3]).best e.2 ≠
            some e.1) ∧
      ((rest = [] ∧
          PQ.popMin14 (runOps14 (K := ℤ) [PQOp.update (0 : ℕ) 5, PQOp.update 0 3]) =
            (none, ⟨[], (runOps14 (K := ℤ) [PQOp.update (0 : ℕ) 5, PQOp.update 0 3]).best⟩)) ∨
       (∃ pri s tail, rest = (pri, s) :: tail ∧
          alookup (runOps14 (K := ℤ) [PQOp.update (0 : ℕ) 5, PQOp.update 0 3]).best s =
            some pri ∧
          PQ.popMin14 (runOps14 (K := ℤ) [PQOp.update (0 : ℕ) 5, PQOp.update 0 3]) =
            (some (s, pri),
             ⟨tail,
              aerase (runOps14 (K := ℤ) [PQOp.update (0 : ℕ) 5, PQOp.update 0 3]).best s⟩) ∧
          alookup
              (aerase (runOps14 (K := ℤ) [PQOp.update (0 : ℕ) 5, PQOp.update 0 3]).best s)
              s = none ∧
          ∀ p' : ℤ,
            (PQ.update
                ((PQ.popMin14
                    (runOps14 (K := ℤ) [PQOp.update (0 : ℕ) 5, PQOp.update 0 3])).2)
                s p').1 = true))) :=
  ⟨by decide, claim_C2_amended _ (by decide)⟩

/-! ### Claim C3 (counterexample part) -/

/-- C3 counterexample: on the v1_1 `PriorityQueue` cited by the claim,
`len` is the raw heap size: after `update(0, 5); update(0, 3)` it reports
2 although only one live tracked entry exists (state 0 at priority 3). -/
theorem claim_C3_counterexample :
    PQ.len11 (runOps11 (K := ℤ) [PQOp.update (0 : ℕ) 5, PQOp.update 0 3]) = 2 ∧
    (runOps11 (K := ℤ) [PQOp.update (0 : ℕ) 5, PQOp.update 0 3]).best.length = 1 ∧
    alookup (runOps11 (K := ℤ) [PQOp.update (0 : ℕ) 5, PQOp.update 0 3]).best 0 =
      some 3 := by
  refine ⟨?_, ?_, ?_⟩ <;> decide

/-! ### Claim C10 -/

/-- C10: the heap stores `(priority, state)` tuples compared by Python
tuple order, so inserting two distinct identity-only states at equal
priorities makes `heapq.heappush` compare the states and raise
`TypeError`: `update(0, 5)` succeeds, then `update(1, 5)` raises. -/
theorem claim_C10 :
    PQPy.update ⟨[], []⟩ 0 5 = .ok (true, ⟨[(5, 0)], [(0, 5)]⟩) ∧
    PQPy.update ⟨[(5, 0)], [(0, 5)]⟩ 1 5 = .error () ∧
    (0 : ℕ) ≠ 1 := by
  refine ⟨?_, ?_, ?_⟩ <;> decide

/-! ### Claim C4 -/

/-- C4 counterexample: on a problem whose start satisfies the goal test,
`ucs`, `astar` and `dfs` all report `expanded = 1` (the start state is
popped and counted before its goal test), not the claimed 0; only `bfs`
reports 0. -/
theorem claim_C4_counterexample :
    trivGoal.isGoal trivGoal.start = true ∧
    runExpanded (ucsRun trivGoal 10 false false) = some 1 ∧
    runExpanded (dfsRun trivGoal 10 false false) = some 1 ∧
    runExpanded (astarRun trivGoal (fun _ => 0) 10 false false) = some 1 ∧
    runExpanded (bfsRun trivGoal 10 false false) = some 0 := by
  refine ⟨by decide, runLoopFuel_project runExpanded 5 (by decide),
    runLoopFuel_project runExpanded 5 (by decide),
    runLoopFuel_project runExpanded 5 (by decide), by decide⟩

/-- C4 amended: when the start state satisfies the goal test, every
algorithm returns cost 0, no actions, and the one-element state path — but
only `bfs` (which special-cases this before its loop) reports 0
expansions; `dfs`, `ucs` and `astar` pop and count the start state first
and report exactly 1 expansion (given a positive expansion cap). -/
theorem claim_C4_amended {K : Type w} [LinearOrderedCommRing K] {S : Type u} {A : Type v}
    [DecidableEq S] [LinearOrder S]
    (p : Problem K S A) (h : S → K) (cap : ℕ) (tr te : Bool)
    (hgoal : p.isGoal p.start = true) (hcap : 0 < cap) :
    (∃ r : SearchResult K S A, bfsRun p cap tr te = some (.ok r) ∧
      r.cost = 0 ∧ r.actions = [] ∧ r.states = [p.start] ∧ r.expanded = 0) ∧
    (∃ r : SearchResult K S A, dfsRun p cap tr te = some (.ok r) ∧
      r.cost = 0 ∧ r.actions = [] ∧ r.states = [p.start] ∧ r.expanded = 1) ∧
    (∃ r : SearchResult K S A, ucsRun p cap tr te = some (.ok r) ∧
      r.cost = 0 ∧ r.actions = [] ∧ r.states = [p.start] ∧ r.expanded = 1) ∧
    (∃ r : SearchResult K S A, astarRun p h cap tr te = some (.ok r) ∧
      r.cost = 0 ∧ r.actions = [] ∧ r.states = [p.start] ∧ r.expanded = 1) := by
  have hcap' : ¬ cap ≤ 0 := by omega
  refine ⟨?_, ?_, ?_, ?_⟩
  · exact ⟨{ cost := 0, actions := [], states := [p.start], expanded := 0,
             generated := 0, reopens := 0, maxFrontier := 1,
             trace := if tr then some ⟨[(p.start, (none, none))], [(p.start, 0)], [],
                        if te then some [] else none⟩ else none },
           by simp [bfsRun, hgoal], rfl, rfl, rfl, rfl⟩
  · have hstep : dfsStep p cap tr
        { q := [p.start], parent := [(p.start, (none, none))],
          depth := [(p.start, 0)], expandedOrder := [],
          edges := if tr && te then some [] else none,
          expanded := 0, generated := 0, maxFrontier := 1 } = .done
        { cost := ((0 : ℕ) : K), actions := [], states := [p.start], expanded := 1,
          generated := 0, reopens := 0, maxFrontier := 1,
          trace := if tr then some ⟨[(p.start, (none, none))],
                     [(p.start, ((0 : ℕ) : K))],
                     if tr then [] ++ [p.start] else [],
                     if tr && te then some [] else none⟩
                   else none } := by
      simp [dfsStep, hcap', hgoal, reconstruct, reconRec, alookup]
    refine ⟨_, runLoop_done hstep, by simp, rfl, rfl, rfl⟩
  · have hfr : (PQ.update (PQ.empty (K := K) (S := S)) p.start 0).2 =
        ⟨[(0, p.start)], [(p.start, 0)]⟩ := by
      rw [update_not_tracked _ _ _ (by rfl)]
      rfl
    have hstep : ucsStep p cap tr (ucsInit p tr te) = .done
        { cost := 0, actions := [], states := [p.start], expanded := 1,
          generated := 0, reopens := 0, maxFrontier := 1,
          trace := if tr then some ⟨[(p.start, (none, none))], [(p.start, 0)],
                     if tr then [] ++ [p.start] else [],
                     if tr && te then some [] else none⟩
                   else none } := by
      simp [ucsStep, ucsInit, hfr, PQ.popMin14, popGo14, alookup, aerase, hcap',
            hgoal, reconstruct, reconRec, PQ.len14]
    exact ⟨_, runLoop_done hstep, rfl, rfl, rfl, rfl⟩
  · have hfr : (PQ.update (PQ.empty (K := K) (S := S)) p.start (h p.start)).2 =
        ⟨[(h p.start, p.start)], [(p.start, h p.start)]⟩ := by
      rw [update_not_tracked _ _ _ (by rfl)]
      rfl
    have hstep : astarStep p h cap tr (astarInit p h tr te) = .done
        { cost := 0, actions := [], states := [p.start], expanded := 1,
          generated := 0, reopens := 0, maxFrontier := 1,
          trace := if tr then some ⟨[(p.start, (none, none))], [(p.start, 0)],
                     if tr then [] ++ [p.start] else [],
                     if tr && te then some [] else none⟩
                   else none } := by
      simp [astarStep, astarInit, hfr, PQ.popMin14, popGo14, alookup, aerase, hcap',
            hgoal, reconstruct, reconRec, PQ.len14]
    exact ⟨_, runLoop_done hstep, rfl, rfl, rfl, rfl⟩

/-- C4 amended witness on the concrete one-state problem. -/
theorem claim_C4_amended_witness :
    (trivGoal.isGoal trivGoal.start = true ∧ 0 < 10) ∧
    (∃ r : SearchResult ℤ (Fin 1) ℕ, ucsRun trivGoal 10 false false = some (.ok r) ∧
      r.cost = 0 ∧ r.actions = [] ∧ r.states = [trivGoal.start] ∧ r.expanded = 1) :=
  ⟨⟨by decide, by decide⟩,
   (claim_C4_amended trivGoal (fun _ => 0) 10 false false (by decide) (by decide)).2.2.1⟩

/-! ### Claim C5 -/

/-- C5: in the successor loops of `ucs` and `astar`, with `g2 = g + c` for
an edge `(a, s2, c)` out of the expanded state `s`: `reopens` is
incremented exactly when `s2` already has a recorded best cost and `g2`
strictly improves it; `parent`, `best_g` (and `best_f` for `astar`, at
`f2 = g2 + h s2`) are rewritten and the frontier updated exactly when `s2`
has no recorded cost or `g2` strictly improves it; otherwise all of them
are left unchanged. -/
theorem claim_C5 {K : Type w} [LinearOrderedCommRing K] {S : Type u} {A : Type v}
    [DecidableEq S] [LinearOrder S] (h : S → K) (s : S) (g : K)
    (stU : UState K S A) (stA : AState K S A) (e : A × S × K) :
    (alookup stU.bestG e.2.1 = none →
      (ucsRelax s g stU e).reopens = stU.reopens ∧
      (ucsRelax s g stU e).bestG = ainsert stU.bestG e.2.1 (g + e.2.2) ∧
      (ucsRelax s g stU e).parent = ainsert stU.parent e.2.1 (some s, some e.1) ∧
      (ucsRelax s g stU e).frontier = (PQ.update stU.frontier e.2.1 (g + e.2.2)).2) ∧
    (∀ old, alookup stU.bestG e.2.1 = some old → g + e.2.2 < old →
      (ucsRelax s g stU e).reopens = stU.reopens + 1 ∧
      (ucsRelax s g stU e).bestG = ainsert stU.bestG e.2.1 (g + e.2.2) ∧
      (ucsRelax s g stU e).parent = ainsert stU.parent e.2.1 (some s, some e.1) ∧
      (ucsRelax s g stU e).frontier = (PQ.update stU.frontier e.2.1 (g + e.2.2)).2) ∧
    (∀ old, alookup stU.bestG e.2.1 = some old → ¬ g + e.2.2 < old →
      (ucsRelax s g stU e).reopens = stU.reopens ∧
      (ucsRelax s g stU e).bestG = stU.bestG ∧
      (ucsRelax s g stU e).parent = stU.parent ∧
      (ucsRelax s g stU e).frontier = stU.frontier) ∧
    (alookup stA.bestG e.2.1 = none →
      (astarRelax h s g stA e).reopens = stA.reopens ∧
      (astarRelax h s g stA e).bestG = ainsert stA.bestG e.2.1 (g + e.2.2) ∧
      (astarRelax h s g stA e).bestF =
        ainsert stA.bestF e.2.1 (g + e.2.2 + h e.2.1) ∧
      (astarRelax h s g stA e).parent = ainsert stA.parent e.2.1 (some s, some e.1) ∧
      (astarRelax h s g stA e).frontier =
        (PQ.update stA.frontier e.2.1 (g + e.2.2 + h e.2.1)).2) ∧
    (∀ old, alookup stA.bestG e.2.1 = some old → g + e.2.2 < old →
      (astarRelax h s g stA e).reopens = stA.reopens + 1 ∧
      (astarRelax h s g stA e).bestG = ainsert stA.bestG e.2.1 (g + e.2.2) ∧
      (astarRelax h s g stA e).bestF =
        ainsert stA.bestF e.2.1 (g + e.2.2 + h e.2.1) ∧
      (astarRelax h s g stA e).parent = ainsert stA.parent e.2.1 (some s, some e.1) ∧
      (astarRelax h s g stA e).frontier =
        (PQ.update stA.frontier e.2.1 (g + e.2.2 + h e.2.1)).2) ∧
    (∀ old, alookup stA.bestG e.2.1 = some old → ¬ g + e.2.2 < old →
      (astarRelax h s g stA e).reopens = stA.reopens ∧
      (astarRelax h s g stA e).bestG = stA.bestG ∧
      (astarRelax h s g stA e).bestF = stA.bestF ∧
      (astarRelax h s g stA e).parent = stA.parent ∧
      (astarRelax h s g stA e).frontier = stA.frontier) := by
  refine ⟨?_, ?_, ?_, ?_, ?_, ?_⟩
  · intro hnone
    simp [ucsRelax, hnone]
  · intro old hold hlt
    simp [ucsRelax, hold, hlt]
  · intro old hold hge
    simp [ucsRelax, hold, hge]
  · intro hnone
    simp [astarRelax, hnone]
  · intro old hold hlt
    simp [astarRelax, hold, hlt]
  · intro old hold hge
    simp [astarRelax, hold, hge]

/-- C5 witness: a first-discovery edge on the two-state line problem. -/
theorem claim_C5_witness :
    (alookup (ucsInit lineProb false false).bestG (1 : Fin 2) = none) ∧
    ((ucsRelax (0 : Fin 2) 0 (ucsInit lineProb false false) ((0 : ℕ), (1 : Fin 2), (1 : ℤ))).reopens =
        (ucsInit lineProb false false).reopens ∧
     (ucsRelax (0 : Fin 2) 0 (ucsInit lineProb false false) ((0 : ℕ), (1 : Fin 2), (1 : ℤ))).bestG =
        ainsert (ucsInit lineProb false false).bestG 1 (0 + 1) ∧
     (ucsRelax (0 : Fin 2) 0 (ucsInit lineProb false false) ((0 : ℕ), (1 : Fin 2), (1 : ℤ))).parent =
        ainsert (ucsInit lineProb false false).parent 1 (some 0, some 0) ∧
     (ucsRelax (0 : Fin 2) 0 (ucsInit lineProb false false) ((0 : ℕ), (1 : Fin 2), (1 : ℤ))).frontier =
        (PQ.update (ucsInit lineProb false false).frontier 1 (0 + 1)).2) :=
  ⟨by decide,
   (claim_C5 (fun _ => 0) 0 0 (ucsInit lineProb false false)
      (astarInit lineProb (fun _ => 0) false false) ((0 : ℕ), (1 : Fin 2), (1 : ℤ))).1
     (by decide)⟩

/-! ### Claim C1 (counterexample part) -/

theorem cexNegH_path_from2 {es : List (ℕ × Fin 3 × ℤ)} {t : Fin 3}
    (hp : IsPath cexNegH 2 es t) : es = [] ∧ t = 2 := by
  cases hp with
  | nil => exact ⟨rfl, rfl⟩
  | cons hmem htail => simp [cexNegH] at hmem

theorem cexNegH_path_from1 {es : List (ℕ × Fin 3 × ℤ)} {t : Fin 3}
    (hp : IsPath cexNegH 1 es t) (hg : cexNegH.isGoal t = true) : pathCost es = 4 := by
  cases hp with
  | nil => simp [cexNegH] at hg
  | cons hmem htail =>
      simp only [cexNegH, List.mem_singleton, Prod.mk.injEq] at hmem
      obtain ⟨rfl, rfl, rfl⟩ := hmem
      obtain ⟨rfl, rfl⟩ := cexNegH_path_from2 htail
      simp [pathCost]

theorem cexNegH_path_from0 {es : List (ℕ × Fin 3 × ℤ)} {t : Fin 3}
    (hp : IsPath cexNegH 0 es t) (hg : cexNegH.isGoal t = true) :
    pathCost es = 10 ∨ pathCost es = 5 := by
  cases hp with
  | nil => simp [cexNegH] at hg
  | cons hmem htail =>
      simp only [cexNegH, List.mem_cons, List.mem_singleton, Prod.mk.injEq] at hmem
      rcases hmem with ⟨rfl, rfl, rfl⟩ | ⟨rfl, rfl, rfl⟩ | hmem
      · obtain ⟨rfl, rfl⟩ := cexNegH_path_from2 htail
        left
        simp [pathCost]
      · right
        have h4 := cexNegH_path_from1 htail hg
        simp [pathCost] at h4 ⊢
        omega
      · simp at hmem

theorem cexNegH_admissible : Admissible cexNegH cexNegHheur := by
  intro s t es hp hg
  fin_cases s
  · rcases cexNegH_path_from0 hp hg with h | h <;> rw [h] <;> decide
  · rw [cexNegH_path_from1 hp hg]
    decide
  · obtain ⟨rfl, rfl⟩ := cexNegH_path_from2 hp
    decide

/-- C1 counterexample: on a three-state diamond with nonnegative costs and
a reachable goal, the heuristic that is 0 off the goal and -100 at the
goal never overestimates any remaining path cost (it is admissible in
exactly the claim's sense), yet `astar` returns cost 10 while `ucs`
returns the optimal 5 — admissibility alone does not suffice; the
heuristic must also be nonnegative at goal states. -/
theorem claim_C1_counterexample :
    NonnegCosts cexNegH ∧ Admissible cexNegH cexNegHheur ∧ GoalReachable cexNegH ∧
    runCost (ucsRun cexNegH 100 false false) = some 5 ∧
    runCost (astarRun cexNegH cexNegHheur 100 false false) = some 10 ∧
    (5 : ℤ) ≠ 10 := by
  refine ⟨by unfold NonnegCosts; decide, cexNegH_admissible, ?_, ?_, ?_, by decide⟩
  · exact ⟨[((0 : ℕ), (2 : Fin 3), (10 : ℤ))], 2,
      IsPath.cons (by decide) (IsPath.nil 2), by decide⟩
  · exact runLoopFuel_project runCost 30 (by decide)
  · exact runLoopFuel_project runCost 30 (by decide)

/-! ### Claim C6 (counterexample part) -/

theorem reconRec_cexCycle_stuck :
    ∀ n : ℕ, ∀ cur : Fin 4, cur = 1 ∨ cur = 2 →
      ∀ (sts : List (Fin 4)) (acts : List ℕ),
        reconRec n cexCycleParent (some cur) sts acts = none := by
  intro n
  induction n with
  | zero => intro cur _ sts acts; rfl
  | succ n ih =>
      rintro cur (rfl | rfl) sts acts
      · have hl : alookup cexCycleParent (1 : Fin 4) = some (some 2, some 0) := by decide
        simp only [reconRec, hl]
        exact ih 2 (Or.inr rfl) _ _
      · have hl : alookup cexCycleParent (2 : Fin 4) = some (some 1, some 0) := by decide
        simp only [reconRec, hl]
        exact ih 1 (Or.inl rfl) _ _

theorem reconRec_cexCycle_goal_stuck :
    ∀ n : ℕ, ∀ (sts : List (Fin 4)) (acts : List ℕ),
      reconRec n cexCycleParent (some 3) sts acts = none := by
  intro n sts acts
  cases n with
  | zero => rfl
  | succ n =>
      have hl : alookup cexCycleParent (3 : Fin 4) = some (some 2, some 1) := by decide
      simp only [reconRec, hl]
      exact reconRec_cexCycle_stuck n 2 (Or.inr rfl) _ _

/-- C6 counterexample: on a problem with negative edge costs, `ucs`
neither returns a goal result nor raises either error: by the time the
goal `3` is popped the parent dict is the cyclic `cexCycleParent`, and the
`_reconstruct` walk from the goal never reaches the root sentinel at any
fuel — the Python loop runs forever, a fourth outcome. -/
theorem claim_C6_counterexample :
    ucsRun cexNegCost 100 false false = none ∧
    (stepIter (ucsStep cexNegCost 100 false) 3 (ucsInit cexNegCost false false)).map
      (fun st => st.parent) = some cexCycleParent ∧
    cexNegCost.isGoal 3 = true ∧
    GoalReachable cexNegCost ∧
    (∀ n : ℕ, reconRec n cexCycleParent (some 3) [] [] = none) := by
  refine ⟨runLoopFuel_agree 20 _ _ (by decide), by decide, by decide, ?_,
    fun n => reconRec_cexCycle_goal_stuck n [] []⟩
  exact ⟨[((0 : ℕ), (1 : Fin 4), (0 : ℤ)), ((0 : ℕ), (2 : Fin 4), (0 : ℤ)),
          ((1 : ℕ), (3 : Fin 4), (-50 : ℤ))], 3,
    IsPath.cons (by decide) (IsPath.cons (by decide)
      (IsPath.cons (by decide) (IsPath.nil 3))), by decide⟩

/-! ### Claim C9 (counterexample part) -/

/-- C9 counterexample: with negative edge costs, the `ucs` parent map is
NOT acyclic at every point of execution: after three expansions on
`cexNegCost` (a state reachable by the loop from its initial state) the
parent pointers of `1` and `2` form a cycle. -/
theorem claim_C9_counterexample :
    ∃ st : UState ℤ (Fin 4) ℕ,
      LoopReach (ucsStep cexNegCost 100 false) (ucsInit cexNegCost false false) st ∧
      ¬ Acyc st.parent := by
  rcases hst : stepIter (ucsStep cexNegCost 100 false) 3 (ucsInit cexNegCost false false)
    with _ | st
  · have hs : (stepIter (ucsStep cexNegCost 100 false) 3
        (ucsInit cexNegCost false false)).isSome = true := by decide
    rw [hst] at hs
    simp at hs
  · refine ⟨st, stepIter_reach hst, ?_⟩
    have hpar : st.parent = cexCycleParent := by
      have h2 : (stepIter (ucsStep cexNegCost 100 false) 3
          (ucsInit cexNegCost false false)).map (fun s => s.parent) =
          some cexCycleParent := by decide
      rw [hst] at h2
      simpa using h2
    intro hacyc
    refine hacyc 1 (Relation.TransGen.head (b := 2) ⟨some 0, ?_⟩ (Relation.TransGen.single ⟨some 0, ?_⟩))
    · rw [hpar]
      decide
    · rw [hpar]
      decide

/-! ### The zero-heuristic simulation: `ucs` is `astar` with `h = 0` -/

theorem astarRelax_zero {K : Type w} [LinearOrderedCommRing K] {S : Type u} {A : Type v}
    [DecidableEq S] [LinearOrder S] (s : S) (g : K) (st : UState K S A) (e : A × S × K) :
    astarRelax zeroH s g (embedU st) e = embedU (ucsRelax s g st e) := by
  cases he : alookup st.bestG e.2.1 with
  | none =>
      simp [astarRelax, ucsRelax, embedU, zeroH, he, add_zero]
  | some old =>
      by_cases hlt : g + e.2.2 < old
      · simp [astarRelax, ucsRelax, embedU, zeroH, he, hlt, add_zero]
      · simp [astarRelax, ucsRelax, embedU, zeroH, he, hlt, add_zero]

theorem foldl_astarRelax_zero {K : Type w} [LinearOrderedCommRing K] {S : Type u}
    {A : Type v} [DecidableEq S] [LinearOrder S] (s : S) (g : K)
    (l : List (A × S × K)) :
    ∀ st : UState K S A,
      l.foldl (astarRelax zeroH s g) (embedU st) = embedU (l.foldl (ucsRelax s g) st) := by
  induction l with
  | nil => intro st; rfl
  | cons e l ih =>
      intro st
      simp only [List.foldl_cons]
      rw [astarRelax_zero, ih]

theorem astarStep_zero {K : Type w} [LinearOrderedCommRing K] {S : Type u} {A : Type v}
    [DecidableEq S] [LinearOrder S] (p : Problem K S A) (cap : ℕ) (tr : Bool)
    (u : UState K S A) :
    astarStep p zeroH cap tr (embedU u) =
      match ucsStep p cap tr u with
      | .cont u' => .cont (embedU u')
      | .done r => .done r
      | .fail e => .fail e
      | .crash => .crash := by
  by_cases hcap : cap ≤ u.expanded
  · simp [astarStep, ucsStep, embedU, hcap]
  · rcases hpop : PQ.popMin14 u.frontier with ⟨o, q'⟩
    have hpop2 : PQ.popMin14 (embedU u).frontier = (o, q') := hpop
    cases o with
    | none => simp [astarStep, ucsStep, embedU, hcap, hpop, hpop2]
    | some sg =>
        rcases sg with ⟨s, g⟩
        by_cases hstale : some g = alookup u.bestG s
        · have hlook : alookup u.bestG s = some g := hstale.symm
          by_cases hgoal : p.isGoal s
          · cases hrec : reconstruct s u.parent with
            | none =>
                simp [astarStep, ucsStep, embedU, hcap, hpop, hpop2, hgoal, hrec,
                      hlook]
            | some pr =>
                rcases pr with ⟨sts, acts⟩
                simp [astarStep, ucsStep, embedU, hcap, hpop, hpop2, hgoal, hrec,
                      hlook]
          · have hfold := foldl_astarRelax_zero s g (p.succs s)
              { u with frontier := q', expanded := u.expanded + 1,
                       expandedOrder :=
                         if tr then u.expandedOrder ++ [s] else u.expandedOrder }
            simp only [astarStep, ucsStep, embedU, hcap, hpop, hpop2, hgoal,
              hlook] at hfold ⊢
            simp [hfold, embedU]
        · simp [astarStep, ucsStep, embedU, hcap, hpop, hpop2, hstale]

theorem astarRun_zero {K : Type w} [LinearOrderedCommRing K] {S : Type u} {A : Type v}
    [DecidableEq S] [LinearOrder S] (p : Problem K S A) (cap : ℕ) (tr te : Bool) :
    astarRun p zeroH cap tr te = ucsRun p cap tr te := by
  have hmain := @runLoop_bisim _ _ _ _ _
    (ucsStep p cap tr) (astarStep p zeroH cap tr)
    (pqMeasure cap) (pqMeasureA cap)
    (fun u b => b = embedU u)
    (fun r : SearchResult K S A => r) (fun r => r)
    (by intro a b hb; rw [hb]; rfl)
    ?_ (ucsInit p tr te) (astarInit p zeroH tr te) rfl
  · have hid : ∀ o : Option (Except SearchErr (SearchResult K S A)),
        o.map (Except.map fun r => r) = o := by
      intro o
      cases o with
      | none => rfl
      | some x => cases x <;> rfl
    rw [hid, hid] at hmain
    exact hmain
  · intro a b hb
    subst hb
    have hz := astarStep_zero p cap tr a
    refine ⟨?_, ?_, ?_, ?_⟩
    · intro a' hf
      rw [hf] at hz
      exact ⟨embedU a', hz, rfl⟩
    · intro r hf
      rw [hf] at hz
      exact ⟨r, hz, rfl⟩
    · intro e hf
      rw [hf] at hz
      exact hz
    · intro hf
      rw [hf] at hz
      exact hz

/-! ### Path lemmas -/

theorem pathCost_nil {K : Type w} [LinearOrderedCommRing K] {S : Type u} {A : Type v} :
    pathCost ([] : List (A × S × K)) = 0 := rfl

theorem pathCost_cons {K : Type w} [LinearOrderedCommRing K] {S : Type u} {A : Type v}
    (e : A × S × K) (es : List (A × S × K)) :
    pathCost (e :: es) = e.2.2 + pathCost es := by
  simp [pathCost]

theorem pathCost_append {K : Type w} [LinearOrderedCommRing K] {S : Type u} {A : Type v}
    (es es' : List (A × S × K)) :
    pathCost (es ++ es') = pathCost es + pathCost es' := by
  simp [pathCost]

theorem IsPath.append_edge {K : Type w} [LinearOrderedCommRing K] {S : Type u}
    {A : Type v} {p : Problem K S A} {x y z : S} {es : List (A × S × K)}
    {a : A} {c : K} (hp : IsPath p x es y) (he : (a, z, c) ∈ p.succs y) :
    IsPath p x (es ++ [(a, z, c)]) z := by
  induction hp with
  | nil w => exact IsPath.cons he (IsPath.nil z)
  | cons hmem htail ih => exact IsPath.cons hmem (ih he)

theorem pathCost_nonneg {K : Type w} [LinearOrderedCommRing K] {S : Type u} {A : Type v}
    {p : Problem K S A} (hNN : NonnegCosts p) {x y : S} {es : List (A × S × K)}
    (hp : IsPath p x es y) : 0 ≤ pathCost es := by
  induction hp with
  | nil w => simp [pathCost]
  | cons hmem htail ih =>
      rw [pathCost_cons]
      have := hNN _ _ hmem
      linarith

theorem admissible_zero {K : Type w} [LinearOrderedCommRing K] {S : Type u} {A : Type v}
    {p : Problem K S A} (hNN : NonnegCosts p) : Admissible p (zeroH (S := S)) := by
  intro s t es hp hg
  exact pathCost_nonneg hNN hp

/-! ### Acyclicity of the parent tree under pointer rewriting -/

theorem rtg_split {S : Type u} (r r' : S → S → Prop) (s2 s : S)
    (hchar : ∀ x y, r' x y ↔ ((x = s2 ∧ y = s) ∨ (x ≠ s2 ∧ r x y))) :
    ∀ a b, Relation.ReflTransGen r' a b →
      Relation.ReflTransGen r a b ∨
        (Relation.ReflTransGen r a s2 ∧ Relation.ReflTransGen r' s b) := by
  intro a b hab
  induction hab using Relation.ReflTransGen.head_induction_on with
  | refl => exact Or.inl Relation.ReflTransGen.refl
  | head hstep htail ih =>
      rcases (hchar _ _).mp hstep with ⟨rfl, rfl⟩ | ⟨hne, hr⟩
      · exact Or.inr ⟨Relation.ReflTransGen.refl, htail⟩
      · rcases ih with ih | ⟨ih1, ih2⟩
        · exact Or.inl (Relation.ReflTransGen.head hr ih)
        · exact Or.inr ⟨Relation.ReflTransGen.head hr ih1, ih2⟩

theorem acyc_insert {S : Type u} (r r' : S → S → Prop) (s2 s : S)
    (hchar : ∀ x y, r' x y ↔ ((x = s2 ∧ y = s) ∨ (x ≠ s2 ∧ r x y)))
    (hacyc : ∀ x, ¬ Relation.TransGen r x x) {z : S}
    (hz : Relation.TransGen r' z z) : Relation.ReflTransGen r s s2 := by
  obtain ⟨w, hzw, hwz⟩ := Relation.TransGen.head'_iff.mp hz
  rcases (hchar z w).mp hzw with ⟨rfl, rfl⟩ | ⟨hne, hr⟩
  · rcases rtg_split r r' _ _ hchar _ _ hwz with hpure | ⟨hpure, _⟩
    · exact hpure
    · exact hpure
  · rcases rtg_split r r' s2 s hchar _ _ hwz with hpure | ⟨hpure, hs⟩
    · exact absurd (Relation.TransGen.head' hr hpure) (hacyc z)
    · rcases rtg_split r r' s2 s hchar _ _ hs with hs' | ⟨hs', _⟩
      · exact hs'.trans (Relation.ReflTransGen.head hr hpure)
      · exact hs'

theorem pstep_chain_le {K : Type w} [LinearOrderedCommRing K] {S : Type u} {A : Type v}
    [DecidableEq S] [LinearOrder S] {p : Problem K S A}
    {parent : List (S × (Option S × Option A))} {bestG : List (S × K)}
    (hNN : NonnegCosts p)
    (hparg : ∀ s2 q a, alookup parent s2 = some (some q, a) →
      ∃ a' c g2 gq, a = some a' ∧ (a', s2, c) ∈ p.succs q ∧
        alookup bestG q = some gq ∧ alookup bestG s2 = some g2 ∧ gq + c ≤ g2) :
    ∀ x y, Relation.ReflTransGen (pstep parent) x y →
      ∀ gx, alookup bestG x = some gx → ∃ gy, alookup bestG y = some gy ∧ gy ≤ gx := by
  intro x y hxy
  induction hxy using Relation.ReflTransGen.head_induction_on with
  | refl => exact fun gx hgx => ⟨gx, hgx, le_refl gx⟩
  | head hstep htail ih =>
      rename_i x' c' _
      intro gx hgx
      obtain ⟨a, hlook⟩ := hstep
      obtain ⟨a', cc, g2, gq, _, hmem, hgq, hg2, hle⟩ := hparg _ _ _ hlook
      have hcc : 0 ≤ cc := hNN _ _ hmem
      have hgxg2 : g2 = gx := by
        rw [hgx] at hg2
        exact (Option.some.inj hg2).symm
      obtain ⟨gy, hgy, hgyle⟩ := ih gq hgq
      exact ⟨gy, hgy, le_trans hgyle (by linarith)⟩

/-! ### Per-edge preservation of the mid-expansion invariant -/

theorem astarRelax_eq_new {S : Type u} {A : Type v} [DecidableEq S] [LinearOrder S]
    (h : S → K) (s : S) (g : K) (st : AState K S A) (a : A) (s2 : S) (c : K)
    (hbg : alookup st.bestG s2 = none) :
    astarRelax h s g st (a, s2, c) =
      { frontier := (PQ.update st.frontier s2 (g + c + h s2)).2,
        parent := ainsert st.parent s2 (some s, some a),
        bestG := ainsert st.bestG s2 (g + c),
        bestF := ainsert st.bestF s2 (g + c + h s2),
        expandedOrder := st.expandedOrder,
        edges := match st.edges with
          | none => none
          | some l => some (l ++ [(s, s2, a, c)]),
        expanded := st.expanded,
        generated := st.generated + 1,
        reopens := st.reopens,
        maxFrontier :=
          if st.maxFrontier < PQ.len14 (PQ.update st.frontier s2 (g + c + h s2)).2
          then PQ.len14 (PQ.update st.frontier s2 (g + c + h s2)).2
          else st.maxFrontier } := by
  simp [astarRelax, hbg]

theorem astarRelax_eq_improve {S : Type u} {A : Type v} [DecidableEq S] [LinearOrder S]
    (h : S → K) (s : S) (g : K) (st : AState K S A) (a : A) (s2 : S) (c : K) (old : K)
    (hbg : alookup st.bestG s2 = some old) (hlt : g + c < old) :
    astarRelax h s g st (a, s2, c) =
      { frontier := (PQ.update st.frontier s2 (g + c + h s2)).2,
        parent := ainsert st.parent s2 (some s, some a),
        bestG := ainsert st.bestG s2 (g + c),
        bestF := ainsert st.bestF s2 (g + c + h s2),
        expandedOrder := st.expandedOrder,
        edges := match st.edges with
          | none => none
          | some l => some (l ++ [(s, s2, a, c)]),
        expanded := st.expanded,
        generated := st.generated + 1,
        reopens := st.reopens + 1,
        maxFrontier :=
          if st.maxFrontier < PQ.len14 (PQ.update st.frontier s2 (g + c + h s2)).2
          then PQ.len14 (PQ.update st.frontier s2 (g + c + h s2)).2
          else st.maxFrontier } := by
  simp [astarRelax, hbg, hlt]

theorem astarRelax_eq_noop {S : Type u} {A : Type v} [DecidableEq S] [LinearOrder S]
    (h : S → K) (s : S) (g : K) (st : AState K S A) (a : A) (s2 : S) (c : K) (old : K)
    (hbg : alookup st.bestG s2 = some old) (hge : ¬ g + c < old) :
    astarRelax h s g st (a, s2, c) =
      { st with generated := st.generated + 1,
                edges := match st.edges with
                  | none => none
                  | some l => some (l ++ [(s, s2, a, c)]) } := by
  simp [astarRelax, hbg, hge]

theorem midInv_relax_improve {K : Type w} [LinearOrderedCommRing K] {S : Type u}
    {A : Type v} [DecidableEq S] [LinearOrder S] {p : Problem K S A} {h : S → K}
    {s : S} {g : K} {done : List (A × S × K)} {st : AState K S A}
    {a : A} {s2 : S} {c : K}
    (eds : Option (List (S × S × A × K))) (xo : List S) (xp gen ro mf : ℕ)
    (hNN : NonnegCosts p) (hmem : (a, s2, c) ∈ p.succs s)
    (hm : MidInv p h s g done st)
    (hbgnew : ∀ old, alookup st.bestG s2 = some old → g + c < old) :
    MidInv p h s g (done ++ [(a, s2, c)])
      { frontier := (PQ.update st.frontier s2 (g + c + h s2)).2,
        parent := ainsert st.parent s2 (some s, some a),
        bestG := ainsert st.bestG s2 (g + c),
        bestF := ainsert st.bestF s2 (g + c + h s2),
        expandedOrder := xo, edges := eds, expanded := xp,
        generated := gen, reopens := ro, maxFrontier := mf } := by
  have hc0 : 0 ≤ c := hNN _ _ hmem
  have hs2ne : s2 ≠ s := by
    intro heq
    subst heq
    have := hbgnew g hm.sBG
    linarith
  have hsne : s ≠ s2 := fun heq => hs2ne heq.symm
  -- the push always happens: either untracked, or strictly improving
  have hpush : (PQ.update st.frontier s2 (g + c + h s2)).1 = true := by
    cases ht : alookup st.frontier.best s2 with
    | none => rw [update_not_tracked _ _ _ ht]
    | some pv =>
        have hbf : alookup st.bestF s2 = some pv := hm.tsync s2 pv ht
        rw [hm.fsync s2] at hbf
        cases hbg : alookup st.bestG s2 with
        | none => rw [hbg] at hbf; simp at hbf
        | some old =>
            rw [hbg] at hbf
            simp only [Option.map_some'] at hbf
            have hpv : pv = old + h s2 := (Option.some.inj hbf).symm
            have hlt : g + c + h s2 < pv := by
              have := hbgnew old hbg
              rw [hpv]
              linarith
            rw [update_improves _ _ _ pv ht hlt]
  have hfr_self :
      alookup ((PQ.update st.frontier s2 (g + c + h s2)).2).best s2 =
        some (g + c + h s2) := by
    rw [update_best_lookup_self, hpush]
    simp
  have hfr_ne : ∀ x, x ≠ s2 →
      alookup ((PQ.update st.frontier s2 (g + c + h s2)).2).best x =
        alookup st.frontier.best x :=
    fun x hx => update_best_lookup_ne _ _ _ _ hx
  have hmono : ∀ y gy, alookup st.bestG y = some gy →
      ∃ gy', alookup (ainsert st.bestG s2 (g + c)) y = some gy' ∧ gy' ≤ gy := by
    intro y gy hy
    by_cases hys : y = s2
    · subst hys
      exact ⟨g + c, alookup_ainsert_self _ _ _, le_of_lt (hbgnew gy hy)⟩
    · exact ⟨gy, by rw [alookup_ainsert_ne _ _ _ _ hys]; exact hy, le_refl gy⟩
  refine ⟨update_sorted _ _ _ hm.sorted, update_nodup _ _ _ hm.nkBest,
    update_track _ _ _ hm.track, ?_, ?_, ?_, ?_, ?_, ?_, ?_, ?_, ?_, ?_, ?_,
    hm.sNotGoal, ?_⟩
  · -- tsync
    intro x pri hx
    by_cases hxs : x = s2
    · subst hxs
      rw [hfr_self] at hx
      cases hx
      exact alookup_ainsert_self _ _ _
    · rw [hfr_ne x hxs] at hx
      rw [alookup_ainsert_ne _ _ _ _ hxs]
      exact hm.tsync x pri hx
  · -- fsync
    intro x
    by_cases hxs : x = s2
    · subst hxs
      rw [alookup_ainsert_self, alookup_ainsert_self]
      rfl
    · rw [alookup_ainsert_ne _ _ _ _ hxs, alookup_ainsert_ne _ _ _ _ hxs]
      exact hm.fsync x
  · -- reach
    intro x gx hx
    by_cases hxs : x = s2
    · subst hxs
      rw [alookup_ainsert_self] at hx
      cases hx
      obtain ⟨es, hp, hcost⟩ := hm.reach s g hm.sBG
      refine ⟨es ++ [(a, _, c)], hp.append_edge hmem, ?_⟩
      rw [pathCost_append, hcost]
      simp [pathCost]
    · rw [alookup_ainsert_ne _ _ _ _ hxs] at hx
      exact hm.reach x gx hx
  · -- closedX
    intro x gx hgx hfrx hxs e' he'
    by_cases hxs2 : x = s2
    · subst hxs2
      rw [hfr_self] at hfrx
      exact absurd hfrx (by simp)
    · rw [alookup_ainsert_ne _ _ _ _ hxs2] at hgx
      rw [hfr_ne x hxs2] at hfrx
      obtain ⟨g', hgl, hb⟩ := hm.closedX x gx hgx hfrx hxs e' he'
      obtain ⟨g'', hgl', hle'⟩ := hmono _ _ hgl
      exact ⟨g'', hgl', le_trans hle' hb⟩
  · -- noGoalClosed
    intro x hgoal hsome
    by_cases hxs : x = s2
    · subst hxs
      rw [hfr_self]
      rfl
    · rw [alookup_ainsert_ne _ _ _ _ hxs] at hsome
      rw [hfr_ne x hxs]
      exact hm.noGoalClosed x hgoal hsome
  · -- parg
    intro x q' a' hlook
    by_cases hxs : x = s2
    · subst hxs
      rw [alookup_ainsert_self] at hlook
      obtain ⟨h1, h2⟩ := Prod.mk.injEq _ _ _ _ ▸ Option.some.inj hlook
      cases Option.some.inj h1
      subst h2
      refine ⟨a, c, g + c, g, rfl, hmem, ?_, alookup_ainsert_self _ _ _, le_refl _⟩
      rw [alookup_ainsert_ne _ _ _ _ hsne]
      exact hm.sBG
    · rw [alookup_ainsert_ne _ _ _ _ hxs] at hlook
      obtain ⟨a'', cc, gx, gq, ha, hmem', hgq, hgx, hle⟩ := hm.parg x q' a' hlook
      obtain ⟨gq', hq', hq'le⟩ := hmono _ _ hgq
      refine ⟨a'', cc, gx, gq', ha, hmem', hq', ?_, by linarith⟩
      rw [alookup_ainsert_ne _ _ _ _ hxs]
      exact hgx
  · -- parRoot
    intro x a0 hlook
    by_cases hxs : x = s2
    · subst hxs
      rw [alookup_ainsert_self] at hlook
      obtain ⟨h1, _⟩ := Prod.mk.injEq _ _ _ _ ▸ Option.some.inj hlook
      exact absurd h1 (by simp)
    · rw [alookup_ainsert_ne _ _ _ _ hxs] at hlook
      exact hm.parRoot x a0 hlook
  · -- parDom
    intro x
    by_cases hxs : x = s2
    · subst hxs
      rw [alookup_ainsert_self, alookup_ainsert_self]
      simp
    · rw [alookup_ainsert_ne _ _ _ _ hxs, alookup_ainsert_ne _ _ _ _ hxs]
      exact hm.parDom x
  · -- acyc
    have hchar : ∀ x y, pstep (ainsert st.parent s2 (some s, some a)) x y ↔
        ((x = s2 ∧ y = s) ∨ (x ≠ s2 ∧ pstep st.parent x y)) := by
      intro x y
      constructor
      · rintro ⟨a0, hl⟩
        by_cases hxs : x = s2
        · subst hxs
          rw [alookup_ainsert_self] at hl
          obtain ⟨h1, _⟩ := Prod.mk.injEq _ _ _ _ ▸ Option.some.inj hl
          exact Or.inl ⟨rfl, (Option.some.inj h1).symm⟩
        · rw [alookup_ainsert_ne _ _ _ _ hxs] at hl
          exact Or.inr ⟨hxs, a0, hl⟩
      · rintro (⟨rfl, rfl⟩ | ⟨hne, a0, hl⟩)
        · exact ⟨some a, alookup_ainsert_self _ _ _⟩
        · exact ⟨a0, by rw [alookup_ainsert_ne _ _ _ _ hne]; exact hl⟩
    intro z hz
    have hrt := acyc_insert (pstep st.parent) _ s2 s hchar hm.acyc hz
    obtain ⟨gy, hgy, hgyle⟩ :=
      pstep_chain_le hNN hm.parg s s2 hrt g hm.sBG
    have := hbgnew gy hgy
    linarith
  · -- sBG
    rw [alookup_ainsert_ne _ _ _ _ hsne]
    exact hm.sBG
  · -- sUntracked
    rw [hfr_ne s hsne]
    exact hm.sUntracked
  · -- doneBound
    intro e' he'
    rcases List.mem_append.mp he' with he' | he'
    · obtain ⟨g', hg', hb⟩ := hm.doneBound e' he'
      obtain ⟨g'', hg'', hle'⟩ := hmono _ _ hg'
      exact ⟨g'', hg'', le_trans hle' hb⟩
    · rcases List.mem_singleton.mp he' with rfl
      exact ⟨g + c, alookup_ainsert_self _ _ _, le_refl _⟩

theorem midInv_step {K : Type w} [LinearOrderedCommRing K] {S : Type u}
    {A : Type v} [DecidableEq S] [LinearOrder S] {p : Problem K S A} {h : S → K}
    {s : S} {g : K} {done : List (A × S × K)} {st : AState K S A}
    {e : A × S × K} (hNN : NonnegCosts p) (he : e ∈ p.succs s)
    (hm : MidInv p h s g done st) :
    MidInv p h s g (done ++ [e]) (astarRelax h s g st e) := by
  obtain ⟨a, s2, c⟩ := e
  cases hbg : alookup st.bestG s2 with
  | none =>
      rw [astarRelax_eq_new h s g st a s2 c hbg]
      exact midInv_relax_improve _ _ _ _ _ _ hNN he hm
        (fun old hold => absurd (hbg ▸ hold) (by simp))
  | some old =>
      by_cases hlt : g + c < old
      · rw [astarRelax_eq_improve h s g st a s2 c old hbg hlt]
        exact midInv_relax_improve _ _ _ _ _ _ hNN he hm
          (fun old' hold' => by
            rw [hbg] at hold'
            cases hold'
            exact hlt)
      · rw [astarRelax_eq_noop h s g st a s2 c old hbg hlt]
        refine ⟨hm.sorted, hm.nkBest, hm.track, hm.tsync, hm.fsync, hm.reach,
          hm.closedX, hm.noGoalClosed, hm.parg, hm.parRoot, hm.parDom, hm.acyc,
          hm.sBG, hm.sUntracked, hm.sNotGoal, ?_⟩
        intro e' he'
        rcases List.mem_append.mp he' with he' | he'
        · exact hm.doneBound e' he'
        · rcases List.mem_singleton.mp he' with rfl
          exact ⟨old, hbg, not_lt.mp hlt⟩

theorem midInv_fold {K : Type w} [LinearOrderedCommRing K] {S : Type u}
    {A : Type v} [DecidableEq S] [LinearOrder S] {p : Problem K S A} {h : S → K}
    {s : S} {g : K} (hNN : NonnegCosts p) :
    ∀ (es : List (A × S × K)) (done : List (A × S × K)) (st : AState K S A),
      (∀ e ∈ es, e ∈ p.succs s) → MidInv p h s g done st →
      MidInv p h s g (done ++ es) (es.foldl (astarRelax h s g) st) := by
  intro es
  induction es with
  | nil => intro done st _ hm; simpa using hm
  | cons e rest ih =>
      intro done st hes hm
      have h1 : MidInv p h s g (done ++ [e]) (astarRelax h s g st e) :=
        midInv_step hNN (hes e (List.mem_cons_self e rest)) hm
      have h2 := ih (done ++ [e]) (astarRelax h s g st e)
        (fun e' he' => hes e' (List.mem_cons_of_mem e he')) h1
      simpa using h2

theorem ainv_pop_midinv {K : Type w} [LinearOrderedCommRing K] {S : Type u}
    {A : Type v} [DecidableEq S] [LinearOrder S] {p : Problem K S A} {h : S → K}
    {st : AState K S A} {s : S} {f g : K} {q' : PQ K S}
    (hinv : AInv p h st) (hpop : PQ.popMin14 st.frontier = (some (s, f), q'))
    (hg : alookup st.bestG s = some g) (hng : p.isGoal s = false)
    (xo : List S) (xp : ℕ) :
    MidInv p h s g []
      { st with frontier := q', expanded := xp, expandedOrder := xo } := by
  obtain ⟨hlive, hbest, pre, hstale, hsplit⟩ := popMin14_some_elim hpop
  have herase_ne : ∀ x, x ≠ s → alookup q'.best x = alookup st.frontier.best x := by
    intro x hx
    rw [hbest]
    exact alookup_aerase_ne _ _ _ hx
  have herase_self : alookup q'.best s = none := by
    rw [hbest]
    exact alookup_aerase_self _ _ hinv.nkBest
  refine ⟨popMin14_sorted_rest hinv.sorted hpop, ?_, ?_, ?_, hinv.fsync, hinv.reach,
    ?_, ?_, hinv.parg, hinv.parRoot, hinv.parDom, hinv.acyc, hg, herase_self, hng,
    by simp⟩
  · -- nkBest
    rw [hbest]
    exact nodup_keys_aerase _ _ hinv.nkBest
  · -- track
    intro x pri hx
    by_cases hxs : x = s
    · subst hxs
      rw [herase_self] at hx
      exact absurd hx (by simp)
    · rw [herase_ne x hxs] at hx
      exact popMin14_mem_rest hpop x pri hxs hx (hinv.track x pri hx)
  · -- tsync
    intro x pri hx
    by_cases hxs : x = s
    · subst hxs
      rw [herase_self] at hx
      exact absurd hx (by simp)
    · rw [herase_ne x hxs] at hx
      exact hinv.tsync x pri hx
  · -- closedX
    intro x gx hgx hfrx hxs e' he'
    rw [herase_ne x hxs] at hfrx
    exact hinv.closed x gx hgx hfrx e' he'
  · -- noGoalClosed
    intro x hgoal hsome
    by_cases hxs : x = s
    · subst hxs
      rw [hgoal] at hng
      exact absurd hng (by simp)
    · rw [herase_ne x hxs]
      exact hinv.noGoalClosed x hgoal hsome

theorem midInv_to_ainv {K : Type w} [LinearOrderedCommRing K] {S : Type u}
    {A : Type v} [DecidableEq S] [LinearOrder S] {p : Problem K S A} {h : S → K}
    {s : S} {g : K} {st : AState K S A}
    (hm : MidInv p h s g (p.succs s) st) : AInv p h st := by
  refine ⟨hm.sorted, hm.nkBest, hm.track, hm.tsync, hm.fsync, hm.reach, ?_,
    hm.noGoalClosed, hm.parg, hm.parRoot, hm.parDom, hm.acyc⟩
  intro x gx hgx hfrx e' he'
  by_cases hxs : x = s
  · subst hxs
    have hgg : gx = g := by
      rw [hm.sBG] at hgx
      exact (Option.some.inj hgx).symm
    subst hgg
    exact hm.doneBound e' he'
  · exact hm.closedX x gx hgx hfrx hxs e' he'

theorem astarStep_ainv {K : Type w} [LinearOrderedCommRing K] {S : Type u}
    {A : Type v} [DecidableEq S] [LinearOrder S] {p : Problem K S A} {h : S → K}
    {cap : ℕ} {tr : Bool} {st st' : AState K S A}
    (hNN : NonnegCosts p) (hinv : AInv p h st)
    (hstep : astarStep p h cap tr st = .cont st') : AInv p h st' := by
  rcases astarStep_elim p h cap tr st _ hstep with
    ⟨_, hout⟩ | ⟨_, _, _, hout⟩ | ⟨_, s, f, q', hpop, hstale, hout⟩ |
    ⟨_, s, f, q', hpop, _, _, hout⟩ | ⟨_, s, f, g, q', hpop, _, _, _, hrec⟩ |
    ⟨_, s, f, g, q', hpop, _, hg, hng, hout⟩
  · exact absurd hout (by simp)
  · exact absurd hout (by simp)
  · -- a live pop is never stale: best agrees with bestF
    have hlive := (popMin14_some_elim hpop).1
    exact absurd (hinv.tsync s f hlive).symm hstale
  · exact absurd hout (by simp)
  · rcases hrec with ⟨_, hout⟩ | ⟨_, _, _, hout⟩ <;> exact absurd hout (by simp)
  · have hcont : st' = (p.succs s).foldl (astarRelax h s g)
        { st with frontier := q', expanded := st.expanded + 1,
                  expandedOrder :=
                    if tr then st.expandedOrder ++ [s] else st.expandedOrder } := by
      have := hout
      simp only [StepOut.cont.injEq] at this
      exact this
    subst hcont
    have hmid := ainv_pop_midinv hinv hpop hg hng
      (if tr then st.expandedOrder ++ [s] else st.expandedOrder) (st.expanded + 1)
    have hfold := midInv_fold hNN (p.succs s) [] _ (fun _ he => he) hmid
    simp only [List.nil_append] at hfold
    exact midInv_to_ainv hfold

theorem IsPath.trans {K : Type w} [LinearOrderedCommRing K] {S : Type u}
    {A : Type v} {p : Problem K S A} {x y z : S} {es fs : List (A × S × K)}
    (h1 : IsPath p x es y) (h2 : IsPath p y fs z) : IsPath p x (es ++ fs) z := by
  induction h1 with
  | nil w => exact h2
  | cons hmem htail ih => exact IsPath.cons hmem (ih h2)

theorem ainv_init {K : Type w} [LinearOrderedCommRing K] {S : Type u}
    {A : Type v} [DecidableEq S] [LinearOrder S] (p : Problem K S A) (h : S → K)
    (tr te : Bool) : AInv p h (astarInit p h tr te) := by
  have hfr : (PQ.update (PQ.empty (K := K) (S := S)) p.start (h p.start)).2 =
      ⟨[(h p.start, p.start)], [(p.start, h p.start)]⟩ := by
    rw [update_not_tracked _ _ _ (by rfl)]
    rfl
  refine ⟨?_, ?_, ?_, ?_, ?_, ?_, ?_, ?_, ?_, ?_, ?_, ?_⟩ <;>
    simp only [astarInit, hfr]
  · exact List.sorted_singleton _
  · simp
  · intro s pri hs
    simp only [alookup] at hs
    by_cases hss : s = p.start
    · rw [if_pos hss] at hs
      cases hs
      simp [hss]
    · rw [if_neg hss] at hs
      exact absurd hs (by simp [alookup])
  · intro s pri hs
    exact hs
  · intro x
    simp only [alookup]
    by_cases hxs : x = p.start
    · subst hxs
      rw [if_pos rfl, if_pos rfl]
      simp
    · rw [if_neg hxs, if_neg hxs]
      rfl
  · intro x gx hx
    simp only [alookup] at hx
    by_cases hxs : x = p.start
    · rw [if_pos hxs] at hx
      cases hx
      exact ⟨[], hxs ▸ IsPath.nil x, by simp [pathCost]⟩
    · rw [if_neg hxs] at hx
      exact absurd hx (by simp [alookup])
  · intro x gx hx hfrx
    simp only [alookup] at hx hfrx
    by_cases hxs : x = p.start
    · rw [if_pos hxs] at hfrx
      exact absurd hfrx (by simp)
    · rw [if_neg hxs] at hx
      exact absurd hx (by simp [alookup])
  · intro x _ hsome
    simp only [alookup] at hsome ⊢
    by_cases hxs : x = p.start
    · rw [if_pos hxs]
      rfl
    · rw [if_neg hxs] at hsome
      exact absurd hsome (by simp [alookup])
  · intro s2 q a hlook
    simp only [alookup] at hlook
    by_cases hss : s2 = p.start
    · rw [if_pos hss] at hlook
      exact absurd hlook (by simp)
    · rw [if_neg hss] at hlook
      exact absurd hlook (by simp [alookup])
  · intro x a hlook
    simp only [alookup] at hlook
    by_cases hxs : x = p.start
    · rw [if_pos hxs] at hlook
      simp only [Option.some.injEq, Prod.mk.injEq] at hlook
      exact ⟨hxs, hlook.2.symm⟩
    · rw [if_neg hxs] at hlook
      exact absurd hlook (by simp [alookup])
  · intro x
    simp only [alookup]
    by_cases hxs : x = p.start
    · rw [if_pos hxs, if_pos hxs]
      simp
    · rw [if_neg hxs, if_neg hxs]
      simp [alookup]
  · intro x hx
    obtain ⟨w, ⟨a0, hl⟩, _⟩ := Relation.TransGen.head'_iff.mp hx
    simp only [alookup] at hl
    by_cases hxs : x = p.start
    · rw [if_pos hxs] at hl
      exact absurd hl (by simp)
    · rw [if_neg hxs] at hl
      exact absurd hl (by simp [alookup])

theorem astarRelax_bestG_mono {K : Type w} [LinearOrderedCommRing K] {S : Type u}
    {A : Type v} [DecidableEq S] [LinearOrder S] (h : S → K) (s : S) (g : K)
    (st : AState K S A) (e : A × S × K) :
    ∀ y gy, alookup st.bestG y = some gy →
      ∃ gy', alookup (astarRelax h s g st e).bestG y = some gy' ∧ gy' ≤ gy := by
  obtain ⟨a, s2, c⟩ := e
  intro y gy hy
  cases hbg : alookup st.bestG s2 with
  | none =>
      rw [astarRelax_eq_new h s g st a s2 c hbg]
      by_cases hys : y = s2
      · subst hys
        rw [hbg] at hy
        exact absurd hy (by simp)
      · exact ⟨gy, by rw [alookup_ainsert_ne _ _ _ _ hys]; exact hy, le_refl gy⟩
  | some old =>
      by_cases hlt : g + c < old
      · rw [astarRelax_eq_improve h s g st a s2 c old hbg hlt]
        by_cases hys : y = s2
        · subst hys
          rw [hbg] at hy
          cases hy
          exact ⟨g + c, alookup_ainsert_self _ _ _, le_of_lt hlt⟩
        · exact ⟨gy, by rw [alookup_ainsert_ne _ _ _ _ hys]; exact hy, le_refl gy⟩
      · rw [astarRelax_eq_noop h s g st a s2 c old hbg hlt]
        exact ⟨gy, hy, le_refl gy⟩

theorem foldl_bestG_mono {K : Type w} [LinearOrderedCommRing K] {S : Type u}
    {A : Type v} [DecidableEq S] [LinearOrder S] (h : S → K) (s : S) (g : K) :
    ∀ (es : List (A × S × K)) (st : AState K S A) (y : S) (gy : K),
      alookup st.bestG y = some gy →
      ∃ gy', alookup (es.foldl (astarRelax h s g) st).bestG y = some gy' ∧ gy' ≤ gy := by
  intro es
  induction es with
  | nil => intro st y gy hy; exact ⟨gy, hy, le_refl gy⟩
  | cons e rest ih =>
      intro st y gy hy
      obtain ⟨gy1, hy1, hle1⟩ := astarRelax_bestG_mono h s g st e y gy hy
      obtain ⟨gy2, hy2, hle2⟩ := ih (astarRelax h s g st e) y gy1 hy1
      exact ⟨gy2, hy2, le_trans hle2 hle1⟩

/-- Walking an optimal path forward from a closed node, bounds propagate
through the `closed` invariant until a tracked node (or the goal, which is
never closed) is found. -/
theorem find_witness {K : Type w} [LinearOrderedCommRing K] {S : Type u}
    {A : Type v} [DecidableEq S] [LinearOrder S] {p : Problem K S A} {h : S → K}
    {st : AState K S A} {t : S} (hinv : AInv p h st) (hgoal : p.isGoal t = true) :
    ∀ (suf : List (A × S × K)) (v : S) (b : K), IsPath p v suf t →
      ∀ gv, alookup st.bestG v = some gv → gv ≤ b →
      ∃ pre2 suf2 w, suf = pre2 ++ suf2 ∧ IsPath p v pre2 w ∧ IsPath p w suf2 t ∧
        ∃ gw, alookup st.bestG w = some gw ∧ gw ≤ b + pathCost pre2 ∧
          (alookup st.frontier.best w).isSome := by
  intro suf
  induction suf with
  | nil =>
      intro v b hpath gv hgv hb
      cases hpath
      have htracked := hinv.noGoalClosed t hgoal (by rw [hgv]; rfl)
      exact ⟨[], [], t, rfl, IsPath.nil t, IsPath.nil t, gv, hgv,
        by simpa [pathCost] using hb, htracked⟩
  | cons e rest ih =>
      intro v b hpath gv hgv hb
      cases hfr : alookup st.frontier.best v with
      | some pv =>
          exact ⟨[], e :: rest, v, rfl, IsPath.nil v, hpath, gv, hgv,
            by simpa [pathCost] using hb, by rw [hfr]; rfl⟩
      | none =>
          obtain ⟨a, y, c⟩ := e
          cases hpath with
          | cons hmem htail =>
              obtain ⟨g', hg', hble⟩ := hinv.closed v gv hgv hfr (a, y, c) hmem
              have hg'2 : alookup st.bestG y = some g' := hg'
              have hble2 : g' ≤ gv + c := hble
              obtain ⟨pre2, suf2, w, hsplit, hp2, hps, gw, hgw, hbw, htw⟩ :=
                ih y (b + c) htail g' hg'2 (by linarith)
              refine ⟨(a, y, c) :: pre2, suf2, w, by rw [hsplit]; rfl, IsPath.cons hmem hp2,
                hps, gw, hgw, ?_, htw⟩
              rw [pathCost_cons]
              linarith

theorem pathwitness_init {K : Type w} [LinearOrderedCommRing K] {S : Type u}
    {A : Type v} [DecidableEq S] [LinearOrder S] {p : Problem K S A} {h : S → K}
    {es : List (A × S × K)} {t : S} (hpath : IsPath p p.start es t)
    (tr te : Bool) : PathWitness p (astarInit p h tr te) es t := by
  have hfr : (PQ.update (PQ.empty (K := K) (S := S)) p.start (h p.start)).2 =
      ⟨[(h p.start, p.start)], [(p.start, h p.start)]⟩ := by
    rw [update_not_tracked _ _ _ (by rfl)]
    rfl
  refine ⟨[], es, p.start, by simp, IsPath.nil p.start, hpath, 0, ?_, ?_, ?_⟩
  · simp [astarInit, alookup]
  · simp [pathCost]
  · simp only [astarInit, hfr]
    simp [alookup]

theorem astar_opt {K : Type w} [LinearOrderedCommRing K] {S : Type u}
    {A : Type v} [DecidableEq S] [LinearOrder S] {p : Problem K S A} {h : S → K}
    (hNN : NonnegCosts p) (hAdm : Admissible p h)
    (hGH : ∀ x, p.isGoal x = true → 0 ≤ h x)
    {es : List (A × S × K)} {t : S}
    (hpath : IsPath p p.start es t) (hgoal : p.isGoal t = true)
    {cap : ℕ} {tr te : Bool} {r : SearchResult K S A}
    (hrun : astarRun p h cap tr te = some (.ok r)) :
    r.cost ≤ pathCost es := by
  refine runLoop_post (P := fun st => AInv p h st ∧ PathWitness p st es t)
    (Q := fun r => r.cost ≤ pathCost es) ?_ (astarInit p h tr te)
    ⟨ainv_init p h tr te, pathwitness_init hpath tr te⟩ r hrun
  rintro st ⟨hinv, hw⟩
  constructor
  · -- the continue case preserves the invariant and the live path witness
    intro st' hc
    refine ⟨astarStep_ainv hNN hinv hc, ?_⟩
    rcases astarStep_elim p h cap tr st _ hc with
      ⟨_, hout⟩ | ⟨_, _, _, hout⟩ | ⟨_, s, f, q', hpop, hstale, hout⟩ |
      ⟨_, _, _, _, _, _, _, hout⟩ | ⟨_, _, _, _, _, _, _, _, _, hrec⟩ |
      ⟨_, s, f, g, q', hpop, hf, hg, hng, hout⟩
    · exact absurd hout (by simp)
    · exact absurd hout (by simp)
    · exact absurd ((hinv.tsync s f (popMin14_some_elim hpop).1).symm) hstale
    · exact absurd hout (by simp)
    · rcases hrec with ⟨_, hout⟩ | ⟨_, _, _, hout⟩ <;> exact absurd hout (by simp)
    · have hst' : st' = (p.succs s).foldl (astarRelax h s g)
          { st with frontier := q', expanded := st.expanded + 1,
                    expandedOrder :=
                      if tr then st.expandedOrder ++ [s] else st.expandedOrder } := by
        have := hout
        simp only [StepOut.cont.injEq] at this
        exact this
      obtain ⟨pre, suf, v, hsplit, hpre, hsuf, gv, hgv, hbv, _⟩ := hw
      have hinv' : AInv p h st' := astarStep_ainv hNN hinv hc
      have hmono := foldl_bestG_mono h s g (p.succs s)
        { st with frontier := q', expanded := st.expanded + 1,
                  expandedOrder :=
                    if tr then st.expandedOrder ++ [s] else st.expandedOrder }
        v gv hgv
      rw [← hst'] at hmono
      obtain ⟨gv', hgv', hle⟩ := hmono
      obtain ⟨pre2, suf2, w, hs2, hp2, hps2, gw, hgw, hbw, htw⟩ :=
        find_witness hinv' hgoal suf v (pathCost pre) hsuf gv' hgv'
          (le_trans hle hbv)
      refine ⟨pre ++ pre2, suf2, w, ?_, hpre.trans hp2, hps2, gw, hgw, ?_, htw⟩
      · rw [hsplit, hs2, List.append_assoc]
      · rw [pathCost_append]
        linarith
  · -- the done case returns the popped cost, bounded by the path cost
    intro r' hd
    rcases astarStep_elim p h cap tr st _ hd with
      ⟨_, hout⟩ | ⟨_, _, _, hout⟩ | ⟨_, _, _, _, _, _, hout⟩ |
      ⟨_, _, _, _, _, _, _, hout⟩ | ⟨_, s, f, g, q', hpop, hf, hg, hgs, hrec⟩ |
      ⟨_, _, _, _, _, _, _, _, _, hout⟩
    · exact absurd hout (by simp)
    · exact absurd hout (by simp)
    · exact absurd hout (by simp)
    · exact absurd hout (by simp)
    · rcases hrec with ⟨_, hout⟩ | ⟨sts, acts, hrc, hout⟩
      · exact absurd hout (by simp)
      · have hr' : r'.cost = g := by
          simp only [StepOut.done.injEq] at hout
          rw [hout]
        rw [hr']
        obtain ⟨pre, suf, v, hsplit, hpre, hsuf, gv, hgv, hbv, htv⟩ := hw
        obtain ⟨pv, hpv⟩ := Option.isSome_iff_exists.mp htv
        have hpvF : alookup st.bestF v = some pv := hinv.tsync v pv hpv
        have hpvEq : pv = gv + h v := by
          rw [hinv.fsync v, hgv] at hpvF
          simpa using hpvF.symm
        have hmem : (pv, v) ∈ st.frontier.heap := hinv.track v pv hpv
        have hfle : f ≤ pv := popMin14_min hinv.sorted hpop v pv hpv hmem
        have hfEq : f = g + h s := by
          rw [hinv.fsync s, hg] at hf
          simpa using hf
        have hAdmV : h v ≤ pathCost suf := hAdm v t suf hsuf hgoal
        have hHS : 0 ≤ h s := hGH s hgs
        have hcost : pathCost es = pathCost pre + pathCost suf := by
          rw [hsplit, pathCost_append]
        rw [hcost]
        linarith
    · exact absurd hout (by simp)

theorem astar_sound {K : Type w} [LinearOrderedCommRing K] {S : Type u}
    {A : Type v} [DecidableEq S] [LinearOrder S] {p : Problem K S A} {h : S → K}
    (hNN : NonnegCosts p) {cap : ℕ} {tr te : Bool} {r : SearchResult K S A}
    (hrun : astarRun p h cap tr te = some (.ok r)) :
    GoalPathCost p p.start r.cost := by
  refine runLoop_post (P := fun st => AInv p h st)
    (Q := fun r : SearchResult K S A => GoalPathCost p p.start r.cost) ?_
    (astarInit p h tr te) (ainv_init p h tr te) r hrun
  intro st hinv
  constructor
  · exact fun st' hc => astarStep_ainv hNN hinv hc
  · intro r' hd
    rcases astarStep_elim p h cap tr st _ hd with
      ⟨_, hout⟩ | ⟨_, _, _, hout⟩ | ⟨_, _, _, _, _, _, hout⟩ |
      ⟨_, _, _, _, _, _, _, hout⟩ | ⟨_, s, f, g, q', hpop, hf, hg, hgs, hrec⟩ |
      ⟨_, _, _, _, _, _, _, _, _, hout⟩
    · exact absurd hout (by simp)
    · exact absurd hout (by simp)
    · exact absurd hout (by simp)
    · exact absurd hout (by simp)
    · rcases hrec with ⟨_, hout⟩ | ⟨sts, acts, hrc, hout⟩
      · exact absurd hout (by simp)
      · have hr' : r'.cost = g := by
          simp only [StepOut.done.injEq] at hout
          rw [hout]
        obtain ⟨es, hp, hcost⟩ := hinv.reach s g hg
        exact ⟨es, s, hp, hgs, by rw [hr', hcost]⟩
    · exact absurd hout (by simp)

/-- C1 (amended): for every problem with nonnegative edge costs and every
admissible heuristic that is also nonnegative on goal states, whenever
`ucs` and `astar` both return successfully they return the same (optimal)
cost.  The amendment adds the nonnegativity of `h` at goal states, without
which `claim_C1_counterexample` exhibits an admissible heuristic where the
two costs differ. -/
theorem claim_C1_amended {K : Type w} [LinearOrderedCommRing K] {S : Type u}
    {A : Type v} [DecidableEq S] [LinearOrder S] {p : Problem K S A} {h : S → K}
    (hNN : NonnegCosts p) (hAdm : Admissible p h)
    (hGH : ∀ x, p.isGoal x = true → 0 ≤ h x)
    {cap cap' : ℕ} {tr te tr' te' : Bool} {rU rA : SearchResult K S A}
    (hU : ucsRun p cap tr te = some (.ok rU))
    (hA : astarRun p h cap' tr' te' = some (.ok rA)) :
    rA.cost = rU.cost := by
  have hU' : astarRun p (zeroH (S := S)) cap tr te = some (.ok rU) := by
    rw [astarRun_zero]
    exact hU
  obtain ⟨esU, tU, hpU, hgU, hcU⟩ := astar_sound hNN hU'
  obtain ⟨esA, tA, hpA, hgA, hcA⟩ := astar_sound hNN hA
  have h1 : rA.cost ≤ pathCost esU := astar_opt hNN hAdm hGH hpU hgU hA
  have h2 : rU.cost ≤ pathCost esA :=
    astar_opt hNN (admissible_zero hNN) (fun x _ => le_refl 0) hpA hgA hU'
  rw [hcU] at h1
  rw [hcA] at h2
  exact le_antisymm h1 h2

theorem claim_C1_amended_witness :
    NonnegCosts lineProb ∧ Admissible lineProb (zeroH (S := Fin 2)) ∧
    ∃ rU rA : SearchResult ℤ (Fin 2) ℕ,
      ucsRun lineProb 10 false false = some (.ok rU) ∧
      astarRun lineProb zeroH 10 false false = some (.ok rA) ∧
      rA.cost = rU.cost := by
  have hNN : NonnegCosts lineProb := by unfold NonnegCosts; decide
  have hAdm : Admissible lineProb (zeroH (S := Fin 2)) := admissible_zero hNN
  have hU : ucsRun lineProb 10 false false =
      some (.ok { cost := 1, actions := [0], states := [0, 1], expanded := 2,
                  generated := 1, reopens := 0, maxFrontier := 1, trace := none }) :=
    runLoopFuel_agree 10 _ _ (by decide)
  have hA : astarRun lineProb zeroH 10 false false =
      some (.ok { cost := 1, actions := [0], states := [0, 1], expanded := 2,
                  generated := 1, reopens := 0, maxFrontier := 1, trace := none }) :=
    runLoopFuel_agree 10 _ _ (by decide)
  exact ⟨hNN, hAdm, _, _, hU, hA,
    claim_C1_amended hNN hAdm (fun x _ => le_refl 0) hU hA⟩

/-! ### Reconstruction terminates on an acyclic parent tree -/

theorem mem_keys_of_alookup_isSome {K : Type u} {V : Type v} [DecidableEq K]
    {m : List (K × V)} {k : K} (h : (alookup m k).isSome) : k ∈ m.map Prod.fst := by
  induction m with
  | nil => simp [alookup] at h
  | cons kv m ih =>
      cases kv with
      | mk k0 v0 =>
          simp only [alookup] at h
          by_cases h2 : k = k0
          · simp [h2]
          · rw [if_neg h2] at h
            simp only [List.map_cons, List.mem_cons]
            exact Or.inr (ih h)

theorem chain_lookup_isSome {S : Type u} {A : Type v} [DecidableEq S]
    {parent : List (S × (Option S × Option A))}
    (hnext : ∀ x y a, alookup parent x = some (some y, a) → (alookup parent y).isSome)
    {cur : S} (hsome : (alookup parent cur).isSome) :
    ∀ x, Relation.ReflTransGen (pstep parent) cur x → (alookup parent x).isSome := by
  intro x hx
  induction hx with
  | refl => exact hsome
  | tail _ hstep _ =>
      obtain ⟨a', hl'⟩ := hstep
      exact hnext _ _ a' hl'

theorem anc_finite {S : Type u} {A : Type v} [DecidableEq S]
    {parent : List (S × (Option S × Option A))}
    (hnext : ∀ x y a, alookup parent x = some (some y, a) → (alookup parent y).isSome)
    {cur : S} (hsome : (alookup parent cur).isSome) :
    {x : S | Relation.ReflTransGen (pstep parent) cur x}.Finite := by
  refine Set.Finite.subset (parent.map Prod.fst).finite_toSet ?_
  intro x hx
  exact mem_keys_of_alookup_isSome (chain_lookup_isSome hnext hsome x hx)

theorem reconRec_isSome {S : Type u} {A : Type v} [DecidableEq S]
    {parent : List (S × (Option S × Option A))}
    (hacyc : Acyc parent)
    (hnext : ∀ x y a, alookup parent x = some (some y, a) → (alookup parent y).isSome) :
    ∀ (fuel : ℕ) (cur : S) (sts : List S) (acts : List A),
      (alookup parent cur).isSome →
      {x : S | Relation.ReflTransGen (pstep parent) cur x}.ncard < fuel →
      (reconRec fuel parent (some cur) sts acts).isSome := by
  intro fuel
  induction fuel with
  | zero => intro cur sts acts _ hcard; exact absurd hcard (by simp)
  | succ n ih =>
      intro cur sts acts hsome hcard
      obtain ⟨pa, hl⟩ := Option.isSome_iff_exists.mp hsome
      obtain ⟨pnext, a⟩ := pa
      cases pnext with
      | none => simp [reconRec, hl]
      | some nxt =>
          have hstep : pstep parent cur nxt := ⟨a, hl⟩
          have hfin := anc_finite hnext hsome
          have hsubset : {x : S | Relation.ReflTransGen (pstep parent) nxt x} ⊆
              {x : S | Relation.ReflTransGen (pstep parent) cur x} :=
            fun x hx => Relation.ReflTransGen.head hstep hx
          have hcur_not : cur ∉ {x : S | Relation.ReflTransGen (pstep parent) nxt x} :=
            fun hc => hacyc cur (Relation.TransGen.head' hstep hc)
          have hssub : {x : S | Relation.ReflTransGen (pstep parent) nxt x} ⊂
              {x : S | Relation.ReflTransGen (pstep parent) cur x} :=
            (Set.ssubset_iff_of_subset hsubset).mpr
              ⟨cur, Relation.ReflTransGen.refl, hcur_not⟩
          have hdec := Set.ncard_lt_ncard hssub hfin
          simp only [reconRec, hl]
          exact ih nxt _ _ (hnext _ _ a hl) (by omega)

theorem reconstruct_isSome {S : Type u} {A : Type v} [DecidableEq S]
    {parent : List (S × (Option S × Option A))}
    (hacyc : Acyc parent)
    (hnext : ∀ x y a, alookup parent x = some (some y, a) → (alookup parent y).isSome)
    {goal : S} (hsome : (alookup parent goal).isSome) :
    (reconstruct goal parent).isSome := by
  refine reconRec_isSome hacyc hnext _ goal [] [] hsome ?_
  have hsub : {x : S | Relation.ReflTransGen (pstep parent) goal x} ⊆
      {x : S | x ∈ parent.map Prod.fst} :=
    fun x hx => mem_keys_of_alookup_isSome (chain_lookup_isSome hnext hsome x hx)
  have h1 : {x : S | Relation.ReflTransGen (pstep parent) goal x}.ncard ≤
      {x : S | x ∈ parent.map Prod.fst}.ncard :=
    Set.ncard_le_ncard hsub (parent.map Prod.fst).finite_toSet
  have h2 : {x : S | x ∈ parent.map Prod.fst}.ncard ≤ (parent.map Prod.fst).length := by
    rw [← List.coe_toFinset, Set.ncard_coe_Finset]
    exact (parent.map Prod.fst).toFinset_card_le
  have h3 : (parent.map Prod.fst).length = parent.length := List.length_map _ _
  omega

theorem reconRec_states_shape {S : Type u} {A : Type v} [DecidableEq S]
    {parent : List (S × (Option S × Option A))} :
    ∀ (fuel : ℕ) (cur : S) (sts : List S) (acts : List A) (os : List S) (oa : List A),
      reconRec fuel parent (some cur) sts acts = some (os, oa) →
      ∃ rest, os = ((sts ++ [cur]) ++ rest).reverse := by
  intro fuel
  induction fuel with
  | zero => intro cur sts acts os oa h; simp [reconRec] at h
  | succ n ih =>
      intro cur sts acts os oa h
      cases hl : alookup parent cur with
      | none => simp [reconRec, hl] at h
      | some pa =>
          obtain ⟨pnext, a⟩ := pa
          cases pnext with
          | none =>
              simp only [reconRec, hl, Option.some.injEq, Prod.mk.injEq] at h
              exact ⟨[], by rw [← h.1]; simp⟩
          | some nxt =>
              simp only [reconRec, hl] at h
              obtain ⟨rest, hrest⟩ := ih nxt _ _ os oa h
              exact ⟨nxt :: rest, by rw [hrest]; simp⟩

theorem reconstruct_getLast {S : Type u} {A : Type v} [DecidableEq S]
    {parent : List (S × (Option S × Option A))} {goal : S}
    {os : List S} {oa : List A}
    (h : reconstruct goal parent = some (os, oa)) : os.getLast? = some goal := by
  obtain ⟨rest, hrest⟩ := reconRec_states_shape _ goal [] [] os oa h
  rw [hrest]
  simp

theorem ainv_parent_next {K : Type w} [LinearOrderedCommRing K] {S : Type u}
    {A : Type v} [DecidableEq S] [LinearOrder S] {p : Problem K S A} {h : S → K}
    {st : AState K S A} (hinv : AInv p h st) :
    ∀ x y a, alookup st.parent x = some (some y, a) → (alookup st.parent y).isSome := by
  intro x y a hl
  obtain ⟨_, _, _, gq, _, _, hgq, _, _⟩ := hinv.parg x y a hl
  exact (hinv.parDom y).mpr (by rw [hgq]; rfl)

theorem astarStep_no_crash {K : Type w} [LinearOrderedCommRing K] {S : Type u}
    {A : Type v} [DecidableEq S] [LinearOrder S] {p : Problem K S A} {h : S → K}
    {cap : ℕ} {tr : Bool} {st : AState K S A} (hinv : AInv p h st) :
    astarStep p h cap tr st ≠ .crash := by
  intro hc
  rcases astarStep_elim p h cap tr st _ hc with
    ⟨_, hout⟩ | ⟨_, _, _, hout⟩ | ⟨_, _, _, _, _, _, hout⟩ |
    ⟨_, s, f, q', hpop, hf, hgnone, _⟩ | ⟨_, s, f, g, q', hpop, hf, hg, hgs, hrec⟩ |
    ⟨_, _, _, _, _, _, _, _, _, hout⟩
  · exact absurd hout (by simp)
  · exact absurd hout (by simp)
  · exact absurd hout (by simp)
  · rw [hinv.fsync s, hgnone] at hf
    exact absurd hf (by simp)
  · rcases hrec with ⟨hrc, _⟩ | ⟨_, _, _, hout⟩
    · have hsome : (alookup st.parent s).isSome :=
        (hinv.parDom s).mpr (by rw [hg]; rfl)
      have := reconstruct_isSome hinv.acyc (ainv_parent_next hinv) hsome
      rw [hrc] at this
      exact absurd this (by simp)
    · exact absurd hout (by simp)
  · exact absurd hout (by simp)

theorem astarRun_ne_none {K : Type w} [LinearOrderedCommRing K] {S : Type u}
    {A : Type v} [DecidableEq S] [LinearOrder S] {p : Problem K S A} {h : S → K}
    (hNN : NonnegCosts p) (cap : ℕ) (tr te : Bool) :
    astarRun p h cap tr te ≠ none :=
  runLoop_no_crash (P := AInv p h)
    (fun st hinv =>
      ⟨fun st' hc => ⟨astarStep_ainv hNN hinv hc, astarStep_dec p h cap tr st st' hc⟩,
       astarStep_no_crash hinv⟩)
    (astarInit p h tr te) (ainv_init p h tr te)

theorem astar_ok_goal {K : Type w} [LinearOrderedCommRing K] {S : Type u}
    {A : Type v} [DecidableEq S] [LinearOrder S] {p : Problem K S A} {h : S → K}
    (hNN : NonnegCosts p) {cap : ℕ} {tr te : Bool} {r : SearchResult K S A}
    (hrun : astarRun p h cap tr te = some (.ok r)) :
    ∃ t, r.states.getLast? = some t ∧ p.isGoal t = true := by
  refine runLoop_post (P := fun st => AInv p h st)
    (Q := fun r : SearchResult K S A =>
      ∃ t, r.states.getLast? = some t ∧ p.isGoal t = true) ?_
    (astarInit p h tr te) (ainv_init p h tr te) r hrun
  intro st hinv
  refine ⟨fun st' hc => astarStep_ainv hNN hinv hc, ?_⟩
  intro r' hd
  rcases astarStep_elim p h cap tr st _ hd with
    ⟨_, hout⟩ | ⟨_, _, _, hout⟩ | ⟨_, _, _, _, _, _, hout⟩ |
    ⟨_, _, _, _, _, _, _, hout⟩ | ⟨_, s, f, g, q', hpop, hf, hg, hgs, hrec⟩ |
    ⟨_, _, _, _, _, _, _, _, _, hout⟩
  · exact absurd hout (by simp)
  · exact absurd hout (by simp)
  · exact absurd hout (by simp)
  · exact absurd hout (by simp)
  · rcases hrec with ⟨_, hout⟩ | ⟨sts, acts, hrc, hout⟩
    · exact absurd hout (by simp)
    · have hst : r'.states = sts := by
        simp only [StepOut.done.injEq] at hout
        rw [hout]
      exact ⟨s, by rw [hst]; exact reconstruct_getLast hrc, hgs⟩
  · exact absurd hout (by simp)

/-- C6 (amended): for every problem with nonnegative edge costs, `ucs` and
`astar` terminate in exactly one of three ways: a result whose last state
is a goal state, a `ResourceExhausted` error, or a distinct `NoSolution`
error.  The amendment adds nonnegative costs, without which
`claim_C6_counterexample` exhibits a fourth outcome: a run that never
terminates because `_reconstruct` loops on a cyclic parent map. -/
theorem claim_C6_amended {K : Type w} [LinearOrderedCommRing K] {S : Type u}
    {A : Type v} [DecidableEq S] [LinearOrder S] {p : Problem K S A}
    (hNN : NonnegCosts p) (h : S → K) (cap : ℕ) (tr te : Bool) :
    (SearchErr.resourceExhausted ≠ SearchErr.noSolution) ∧
    (∃ out, ucsRun p cap tr te = some out ∧
      (∀ r, out = .ok r → ∃ t, r.states.getLast? = some t ∧ p.isGoal t = true) ∧
      (∀ e, out = .error e → e = .resourceExhausted ∨ e = .noSolution)) ∧
    (∃ out, astarRun p h cap tr te = some out ∧
      (∀ r, out = .ok r → ∃ t, r.states.getLast? = some t ∧ p.isGoal t = true) ∧
      (∀ e, out = .error e → e = .resourceExhausted ∨ e = .noSolution)) := by
  refine ⟨by simp, ?_, ?_⟩
  · cases hrun : ucsRun p cap tr te with
    | none =>
        have := astarRun_ne_none (h := zeroH (S := S)) hNN cap tr te
        rw [astarRun_zero] at this
        exact absurd hrun this
    | some out =>
        refine ⟨out, rfl, ?_, ?_⟩
        · rintro r rfl
          have hrun' : astarRun p (zeroH (S := S)) cap tr te = some (.ok r) := by
            rw [astarRun_zero]
            exact hrun
          exact astar_ok_goal hNN hrun'
        · rintro e rfl
          cases e
          · exact Or.inl rfl
          · exact Or.inr rfl
  · cases hrun : astarRun p h cap tr te with
    | none => exact absurd hrun (astarRun_ne_none hNN cap tr te)
    | some out =>
        refine ⟨out, rfl, ?_, ?_⟩
        · rintro r rfl
          exact astar_ok_goal hNN hrun
        · rintro e rfl
          cases e
          · exact Or.inl rfl
          · exact Or.inr rfl

theorem claim_C6_amended_witness :
    NonnegCosts lineProb ∧
    ((SearchErr.resourceExhausted ≠ SearchErr.noSolution) ∧
     (∃ out, ucsRun lineProb 10 false false = some out ∧
       (∀ r, out = .ok r →
          ∃ t, r.states.getLast? = some t ∧ lineProb.isGoal t = true) ∧
       (∀ e, out = .error e → e = .resourceExhausted ∨ e = .noSolution)) ∧
     (∃ out, astarRun lineProb zeroH 10 false false = some out ∧
       (∀ r, out = .ok r →
          ∃ t, r.states.getLast? = some t ∧ lineProb.isGoal t = true) ∧
       (∀ e, out = .error e → e = .resourceExhausted ∨ e = .noSolution))) :=
  ⟨by unfold NonnegCosts; decide,
   claim_C6_amended (by unfold NonnegCosts; decide) zeroH 10 false false⟩

theorem loopreach_ainv {K : Type w} [LinearOrderedCommRing K] {S : Type u}
    {A : Type v} [DecidableEq S] [LinearOrder S] {p : Problem K S A} {h : S → K}
    {cap : ℕ} {tr : Bool} {st0 st : AState K S A} (hNN : NonnegCosts p)
    (h0 : AInv p h st0) (hreach : LoopReach (astarStep p h cap tr) st0 st) :
    AInv p h st := by
  induction hreach with
  | refl => exact h0
  | tail _ hstep ih => exact astarStep_ainv hNN ih hstep

theorem ucs_reach_ainv {K : Type w} [LinearOrderedCommRing K] {S : Type u}
    {A : Type v} [DecidableEq S] [LinearOrder S] {p : Problem K S A}
    {cap : ℕ} {tr te : Bool} {u : UState K S A} (hNN : NonnegCosts p)
    (hreach : LoopReach (ucsStep p cap tr) (ucsInit p tr te) u) :
    AInv p (zeroH (S := S)) (embedU u) := by
  induction hreach with
  | refl => exact ainv_init p (zeroH (S := S)) tr te
  | @tail b c _ hstep ih =>
      have hstep2 : astarStep p (zeroH (S := S)) cap tr (embedU b) =
          .cont (embedU c) := by
        rw [astarStep_zero, hstep]
      exact astarStep_ainv hNN ih hstep2

/-- C9 (amended): for every problem with nonnegative edge costs, at every
reachable point of a `ucs` or `astar` execution the parent map is acyclic
and path reconstruction from any recorded state terminates.  The
amendment adds nonnegative costs, without which `claim_C9_counterexample`
reaches a `ucs` state whose parent map contains the cycle `1 ↔ 2`. -/
theorem claim_C9_amended {K : Type w} [LinearOrderedCommRing K] {S : Type u}
    {A : Type v} [DecidableEq S] [LinearOrder S] {p : Problem K S A}
    (hNN : NonnegCosts p) (h : S → K) (cap : ℕ) (tr te : Bool) :
    (∀ u : UState K S A, LoopReach (ucsStep p cap tr) (ucsInit p tr te) u →
      Acyc u.parent ∧
        ∀ x, (alookup u.bestG x).isSome → (reconstruct x u.parent).isSome) ∧
    (∀ st : AState K S A, LoopReach (astarStep p h cap tr) (astarInit p h tr te) st →
      Acyc st.parent ∧
        ∀ x, (alookup st.bestG x).isSome → (reconstruct x st.parent).isSome) := by
  constructor
  · intro u hreach
    have hinv := ucs_reach_ainv hNN hreach
    refine ⟨hinv.acyc, ?_⟩
    intro x hx
    exact reconstruct_isSome hinv.acyc (ainv_parent_next hinv)
      ((hinv.parDom x).mpr hx)
  · intro st hreach
    have hinv := loopreach_ainv hNN (ainv_init p h tr te) hreach
    refine ⟨hinv.acyc, ?_⟩
    intro x hx
    exact reconstruct_isSome hinv.acyc (ainv_parent_next hinv)
      ((hinv.parDom x).mpr hx)

theorem claim_C9_amended_witness :
    NonnegCosts lineProb ∧
    Acyc (ucsInit lineProb false false).parent ∧
    Acyc (astarInit lineProb zeroH false false).parent := by
  have hNN : NonnegCosts lineProb := by unfold NonnegCosts; decide
  have hmain := claim_C9_amended hNN zeroH 10 false false
  exact ⟨hNN,
    (hmain.1 (ucsInit lineProb false false) Relation.ReflTransGen.refl).1,
    (hmain.2 (astarInit lineProb zeroH false false) Relation.ReflTransGen.refl).1⟩

/-! ### The live frontier size and the high-water counter -/

theorem length_aerase_le {K : Type u} {V : Type v} [DecidableEq K]
    (m : List (K × V)) (k : K) : (aerase m k).length ≤ m.length := by
  induction m with
  | nil => simp [aerase]
  | cons kv m ih =>
      cases kv with
      | mk k0 v0 =>
          simp only [aerase]
          by_cases h : k = k0
          · rw [if_pos h]
            simp
          · rw [if_neg h]
            simpa using ih

theorem astarRelax_mf {K : Type w} [LinearOrderedCommRing K] {S : Type u}
    {A : Type v} [DecidableEq S] [LinearOrder S] (h : S → K) (s : S) (g : K)
    (st : AState K S A) (e : A × S × K) :
    (astarRelax h s g st e).maxFrontier = st.maxFrontier ∨
    (astarRelax h s g st e).maxFrontier =
      PQ.len14 (astarRelax h s g st e).frontier := by
  obtain ⟨a, s2, c⟩ := e
  cases hbg : alookup st.bestG s2 with
  | none =>
      rw [astarRelax_eq_new h s g st a s2 c hbg]
      by_cases hlt :
        st.maxFrontier < PQ.len14 (PQ.update st.frontier s2 (g + c + h s2)).2
      · exact Or.inr (by simp [hlt])
      · exact Or.inl (by simp [hlt])
  | some old =>
      by_cases hlt2 : g + c < old
      · rw [astarRelax_eq_improve h s g st a s2 c old hbg hlt2]
        by_cases hlt :
          st.maxFrontier < PQ.len14 (PQ.update st.frontier s2 (g + c + h s2)).2
        · exact Or.inr (by simp [hlt])
        · exact Or.inl (by simp [hlt])
      · rw [astarRelax_eq_noop h s g st a s2 c old hbg hlt2]
        exact Or.inl rfl

theorem astarRelax_mf_le {K : Type w} [LinearOrderedCommRing K] {S : Type u}
    {A : Type v} [DecidableEq S] [LinearOrder S] (h : S → K) (s : S) (g : K)
    (st : AState K S A) (e : A × S × K)
    (hinv : PQ.len14 st.frontier ≤ st.maxFrontier) :
    PQ.len14 (astarRelax h s g st e).frontier ≤ (astarRelax h s g st e).maxFrontier := by
  obtain ⟨a, s2, c⟩ := e
  cases hbg : alookup st.bestG s2 with
  | none =>
      rw [astarRelax_eq_new h s g st a s2 c hbg]
      by_cases hlt :
        st.maxFrontier < PQ.len14 (PQ.update st.frontier s2 (g + c + h s2)).2
      · simp [hlt]
      · simp only [if_neg hlt]
        omega
  | some old =>
      by_cases hlt2 : g + c < old
      · rw [astarRelax_eq_improve h s g st a s2 c old hbg hlt2]
        by_cases hlt :
          st.maxFrontier < PQ.len14 (PQ.update st.frontier s2 (g + c + h s2)).2
        · simp [hlt]
        · simp only [if_neg hlt]
          omega
      · rw [astarRelax_eq_noop h s g st a s2 c old hbg hlt2]
        exact hinv

theorem foldl_mf_le {K : Type w} [LinearOrderedCommRing K] {S : Type u}
    {A : Type v} [DecidableEq S] [LinearOrder S] (h : S → K) (s : S) (g : K) :
    ∀ (es : List (A × S × K)) (st : AState K S A),
      PQ.len14 st.frontier ≤ st.maxFrontier →
      PQ.len14 ((es.foldl (astarRelax h s g) st)).frontier ≤
        (es.foldl (astarRelax h s g) st).maxFrontier := by
  intro es
  induction es with
  | nil => intro st hinv; exact hinv
  | cons e rest ih =>
      intro st hinv
      exact ih (astarRelax h s g st e) (astarRelax_mf_le h s g st e hinv)

theorem astarStep_mf_le {K : Type w} [LinearOrderedCommRing K] {S : Type u}
    {A : Type v} [DecidableEq S] [LinearOrder S] {p : Problem K S A} {h : S → K}
    {cap : ℕ} {tr : Bool} {st st' : AState K S A}
    (hinv : PQ.len14 st.frontier ≤ st.maxFrontier)
    (hstep : astarStep p h cap tr st = .cont st') :
    PQ.len14 st'.frontier ≤ st'.maxFrontier := by
  have haer : ∀ q' : PQ K S, ∀ o, PQ.popMin14 st.frontier = (o, q') →
      PQ.len14 q' ≤ st.maxFrontier := by
    intro q' o hpop
    cases o with
    | none =>
        obtain ⟨hb, _, _⟩ := popMin14_none_elim hpop
        rw [PQ.len14, hb]
        exact hinv
    | some sp =>
        obtain ⟨s0, pri⟩ := sp
        obtain ⟨_, hb, _⟩ := popMin14_some_elim hpop
        rw [PQ.len14, hb]
        exact le_trans (length_aerase_le _ _) hinv
  rcases astarStep_elim p h cap tr st _ hstep with
    ⟨_, hout⟩ | ⟨_, _, _, hout⟩ | ⟨_, s, f, q', hpop, _, hout⟩ |
    ⟨_, _, _, _, _, _, _, hout⟩ | ⟨_, _, _, _, _, _, _, _, _, hrec⟩ |
    ⟨_, s, f, g, q', hpop, _, _, _, hout⟩
  · exact absurd hout (by simp)
  · exact absurd hout (by simp)
  · have hst' : st' = { st with frontier := q' } := by
      simp only [StepOut.cont.injEq] at hout
      exact hout
    subst hst'
    exact haer q' _ hpop
  · exact absurd hout (by simp)
  · rcases hrec with ⟨_, hout⟩ | ⟨_, _, _, hout⟩ <;> exact absurd hout (by simp)
  · have hst' : st' = (p.succs s).foldl (astarRelax h s g)
        { st with frontier := q', expanded := st.expanded + 1,
                  expandedOrder :=
                    if tr then st.expandedOrder ++ [s] else st.expandedOrder } := by
      simp only [StepOut.cont.injEq] at hout
      exact hout
    subst hst'
    exact foldl_mf_le h s g (p.succs s) _ (haer q' _ hpop)

theorem ucs_reach_embed {K : Type w} [LinearOrderedCommRing K] {S : Type u}
    {A : Type v} [DecidableEq S] [LinearOrder S] {p : Problem K S A}
    {cap : ℕ} {tr : Bool} {u0 u : UState K S A}
    (hreach : LoopReach (ucsStep p cap tr) u0 u) :
    LoopReach (astarStep p (zeroH (S := S)) cap tr) (embedU u0) (embedU u) := by
  induction hreach with
  | refl => exact Relation.ReflTransGen.refl
  | @tail b c _ hstep ih =>
      refine Relation.ReflTransGen.tail ih ?_
      rw [astarStep_zero, hstep]

/-- C3 (amended): the v1_4 frontier length counts the live tracked
entries (`len(self._best)`), while the v1_1 variant returns the raw heap
length, stale entries included; in `ucs` and `astar` (which use the v1_4
behaviour) the `max_frontier` counter only ever moves to the current live
frontier size and bounds it throughout the run, so it is the high-water
mark of the live size, not of the heap size.  The amendment restricts the
claimed live-count behaviour to the v1_4 queue: `claim_C3_counterexample`
shows the cited v1_1 `__len__` counting a stale entry. -/
theorem claim_C3_amended {K : Type w} [LinearOrderedCommRing K] {S : Type u}
    {A : Type v} [DecidableEq S] [LinearOrder S] (p : Problem K S A)
    (h : S → K) (cap : ℕ) (tr te : Bool) :
    (∀ q : PQ K S, PQ.len14 q = q.best.length ∧ PQ.len11 q = PQ.heapSize q) ∧
    (∀ (s : S) (g : K) (st : UState K S A) (e : A × S × K),
        (ucsRelax s g st e).maxFrontier = st.maxFrontier ∨
        (ucsRelax s g st e).maxFrontier = PQ.len14 (ucsRelax s g st e).frontier) ∧
    (∀ (s : S) (g : K) (st : AState K S A) (e : A × S × K),
        (astarRelax h s g st e).maxFrontier = st.maxFrontier ∨
        (astarRelax h s g st e).maxFrontier = PQ.len14 (astarRelax h s g st e).frontier) ∧
    (∀ u : UState K S A, LoopReach (ucsStep p cap tr) (ucsInit p tr te) u →
        PQ.len14 u.frontier ≤ u.maxFrontier) ∧
    (∀ st : AState K S A, LoopReach (astarStep p h cap tr) (astarInit p h tr te) st →
        PQ.len14 st.frontier ≤ st.maxFrontier) := by
  have hastar : ∀ st : AState K S A,
      LoopReach (astarStep p h cap tr) (astarInit p h tr te) st →
      PQ.len14 st.frontier ≤ st.maxFrontier := by
    intro st hreach
    induction hreach with
    | refl => exact le_refl _
    | tail _ hstep ih => exact astarStep_mf_le ih hstep
  have hastar0 : ∀ st : AState K S A,
      LoopReach (astarStep p (zeroH (S := S)) cap tr)
        (astarInit p (zeroH (S := S)) tr te) st →
      PQ.len14 st.frontier ≤ st.maxFrontier := by
    intro st hreach
    induction hreach with
    | refl => exact le_refl _
    | tail _ hstep ih => exact astarStep_mf_le ih hstep
  refine ⟨fun q => ⟨rfl, rfl⟩, ?_, fun s g st e => astarRelax_mf h s g st e, ?_, hastar⟩
  · intro s g st e
    have hz := astarRelax_mf (zeroH (S := S)) s g (embedU st) e
    rw [astarRelax_zero] at hz
    exact hz
  · intro u hreach
    exact hastar0 (embedU u) (ucs_reach_embed hreach)

/-! ### Tracing is observational -/

theorem stepSim_elim {K : Type w} {St : Type u} {S : Type u1} {A : Type v}
    {Rel : St → St → Prop} {o1 o2 : StepOut St (SearchResult K S A)}
    (h : StepSim Rel o1 o2) :
    (∀ a, o1 = .cont a → ∃ b, o2 = .cont b ∧ Rel a b) ∧
    (∀ r, o1 = .done r → ∃ r2, o2 = .done r2 ∧
      SearchResult.core r2 = SearchResult.core r) ∧
    (∀ e, o1 = .fail e → o2 = .fail e) ∧
    (o1 = .crash → o2 = .crash) := by
  cases o1 <;> cases o2 <;> simp_all [StepSim]

theorem ucsRelax_eq_new {S : Type u} {A : Type v} [DecidableEq S] [LinearOrder S]
    (s : S) (g : K) (st : UState K S A) (a : A) (s2 : S) (c : K)
    (hbg : alookup st.bestG s2 = none) :
    ucsRelax s g st (a, s2, c) =
      { frontier := (PQ.update st.frontier s2 (g + c)).2,
        parent := ainsert st.parent s2 (some s, some a),
        bestG := ainsert st.bestG s2 (g + c),
        expandedOrder := st.expandedOrder,
        edges := match st.edges with
          | none => none
          | some l => some (l ++ [(s, s2, a, c)]),
        expanded := st.expanded,
        generated := st.generated + 1,
        reopens := st.reopens,
        maxFrontier :=
          if st.maxFrontier < PQ.len14 (PQ.update st.frontier s2 (g + c)).2
          then PQ.len14 (PQ.update st.frontier s2 (g + c)).2
          else st.maxFrontier } := by
  simp [ucsRelax, hbg]

theorem ucsRelax_eq_improve {S : Type u} {A : Type v} [DecidableEq S] [LinearOrder S]
    (s : S) (g : K) (st : UState K S A) (a : A) (s2 : S) (c : K) (old : K)
    (hbg : alookup st.bestG s2 = some old) (hlt : g + c < old) :
    ucsRelax s g st (a, s2, c) =
      { frontier := (PQ.update st.frontier s2 (g + c)).2,
        parent := ainsert st.parent s2 (some s, some a),
        bestG := ainsert st.bestG s2 (g + c),
        expandedOrder := st.expandedOrder,
        edges := match st.edges with
          | none => none
          | some l => some (l ++ [(s, s2, a, c)]),
        expanded := st.expanded,
        generated := st.generated + 1,
        reopens := st.reopens + 1,
        maxFrontier :=
          if st.maxFrontier < PQ.len14 (PQ.update st.frontier s2 (g + c)).2
          then PQ.len14 (PQ.update st.frontier s2 (g + c)).2
          else st.maxFrontier } := by
  simp [ucsRelax, hbg, hlt]

theorem ucsRelax_eq_noop {S : Type u} {A : Type v} [DecidableEq S] [LinearOrder S]
    (s : S) (g : K) (st : UState K S A) (a : A) (s2 : S) (c : K) (old : K)
    (hbg : alookup st.bestG s2 = some old) (hge : ¬ g + c < old) :
    ucsRelax s g st (a, s2, c) =
      { st with generated := st.generated + 1,
                edges := match st.edges with
                  | none => none
                  | some l => some (l ++ [(s, s2, a, c)]) } := by
  simp [ucsRelax, hbg, hge]

theorem relU_relax {S : Type u} {A : Type v} [DecidableEq S] [LinearOrder S]
    (s : S) (g : K) {a b : UState K S A} (hab : RelU a b) (e : A × S × K) :
    RelU (ucsRelax s g a e) (ucsRelax s g b e) := by
  obtain ⟨a0, s2, c⟩ := e
  obtain ⟨hfr, hpar, hbg, hexp, hgen, hro, hmf⟩ := hab
  cases hl : alookup a.bestG s2 with
  | none =>
      rw [ucsRelax_eq_new s g a a0 s2 c hl,
          ucsRelax_eq_new s g b a0 s2 c (by rw [← hbg]; exact hl)]
      exact ⟨by rw [hfr], by rw [hpar], by rw [hbg], by rw [hexp],
        by rw [hgen], by rw [hro], by rw [hfr, hmf]⟩
  | some old =>
      by_cases hlt : g + c < old
      · rw [ucsRelax_eq_improve s g a a0 s2 c old hl hlt,
            ucsRelax_eq_improve s g b a0 s2 c old (by rw [← hbg]; exact hl) hlt]
        exact ⟨by rw [hfr], by rw [hpar], by rw [hbg], by rw [hexp],
          by rw [hgen], by rw [hro], by rw [hfr, hmf]⟩
      · rw [ucsRelax_eq_noop s g a a0 s2 c old hl hlt,
            ucsRelax_eq_noop s g b a0 s2 c old (by rw [← hbg]; exact hl) hlt]
        exact ⟨hfr, hpar, hbg, hexp, by rw [hgen], hro, hmf⟩

theorem relU_fold {S : Type u} {A : Type v} [DecidableEq S] [LinearOrder S]
    (s : S) (g : K) :
    ∀ (es : List (A × S × K)) {a b : UState K S A}, RelU a b →
      RelU (es.foldl (ucsRelax s g) a) (es.foldl (ucsRelax s g) b) := by
  intro es
  induction es with
  | nil => intro a b hab; exact hab
  | cons e rest ih => intro a b hab; exact ih (relU_relax s g hab e)

theorem ucsStep_sim {S : Type u} {A : Type v} [DecidableEq S] [LinearOrder S]
    (p : Problem K S A) (cap : ℕ) (t1 t2 : Bool) {a b : UState K S A}
    (hab : RelU a b) :
    StepSim RelU (ucsStep p cap t1 a) (ucsStep p cap t2 b) := by
  obtain ⟨hfr, hpar, hbg, hexp, hgen, hro, hmf⟩ := hab
  rcases ucsStep_elim p cap t1 a _ rfl with
    ⟨hcap, hout⟩ | ⟨hcap, q', hpop, hout⟩ | ⟨hcap, s, g, q', hpop, hstale, hout⟩ |
    ⟨hcap, s, g, q', hpop, hstale, hgoal, hrec⟩ |
    ⟨hcap, s, g, q', hpop, hstale, hgoal, hout⟩
  · have hb : ucsStep p cap t2 b = .fail .resourceExhausted := by
      simp [ucsStep, hexp ▸ hcap]
    rw [hout, hb]
    simp [StepSim]
  · have hb : ucsStep p cap t2 b = .fail .noSolution := by
      simp [ucsStep, show ¬ cap ≤ b.expanded from hexp ▸ hcap,
        show PQ.popMin14 b.frontier = (none, q') from hfr ▸ hpop]
    rw [hout, hb]
    simp [StepSim]
  · have hb : ucsStep p cap t2 b = .cont { b with frontier := q' } := by
      simp [ucsStep, show ¬ cap ≤ b.expanded from hexp ▸ hcap,
        show PQ.popMin14 b.frontier = (some (s, g), q') from hfr ▸ hpop,
        show some g ≠ alookup b.bestG s from hbg ▸ hstale]
    rw [hout, hb]
    exact ⟨rfl, hpar, hbg, hexp, hgen, hro, hmf⟩
  · rcases hrec with ⟨hrec, hout⟩ | ⟨sts, acts, hrec, hout⟩
    · have hb : ucsStep p cap t2 b = .crash := by
        simp [ucsStep, show ¬ cap ≤ b.expanded from hexp ▸ hcap,
          show PQ.popMin14 b.frontier = (some (s, g), q') from hfr ▸ hpop,
          show some g = alookup b.bestG s from hbg ▸ hstale, hgoal,
          show reconstruct s b.parent = none from hpar ▸ hrec]
      rw [hout, hb]
      simp [StepSim]
    · have hb : ucsStep p cap t2 b =
          .done { cost := g, actions := acts, states := sts,
                  expanded := b.expanded + 1, generated := b.generated,
                  reopens := b.reopens, maxFrontier := b.maxFrontier,
                  trace :=
                    if t2 then
                      some ⟨b.parent, b.bestG,
                            if t2 then b.expandedOrder ++ [s] else b.expandedOrder,
                            b.edges⟩
                    else none } := by
        simp [ucsStep, show ¬ cap ≤ b.expanded from hexp ▸ hcap,
          show PQ.popMin14 b.frontier = (some (s, g), q') from hfr ▸ hpop,
          show some g = alookup b.bestG s from hbg ▸ hstale, hgoal,
          show reconstruct s b.parent = some (sts, acts) from hpar ▸ hrec]
      rw [hout, hb]
      simp [StepSim, SearchResult.core, hexp, hgen, hro, hmf]
  · have hb : ucsStep p cap t2 b = .cont ((p.succs s).foldl (ucsRelax s g)
        { b with frontier := q', expanded := b.expanded + 1,
                 expandedOrder :=
                   if t2 then b.expandedOrder ++ [s] else b.expandedOrder }) := by
      simp [ucsStep, show ¬ cap ≤ b.expanded from hexp ▸ hcap,
        show PQ.popMin14 b.frontier = (some (s, g), q') from hfr ▸ hpop,
        show some g = alookup b.bestG s from hbg ▸ hstale, hgoal]
    rw [hout, hb]
    refine relU_fold s g (p.succs s) ?_
    exact ⟨rfl, hpar, hbg, by simp [hexp], hgen, hro, hmf⟩

theorem relA_relax {S : Type u} {A : Type v} [DecidableEq S] [LinearOrder S]
    (h : S → K) (s : S) (g : K) {a b : AState K S A} (hab : RelA a b)
    (e : A × S × K) : RelA (astarRelax h s g a e) (astarRelax h s g b e) := by
  obtain ⟨a0, s2, c⟩ := e
  obtain ⟨hfr, hpar, hbg, hbf, hexp, hgen, hro, hmf⟩ := hab
  cases hl : alookup a.bestG s2 with
  | none =>
      rw [astarRelax_eq_new h s g a a0 s2 c hl,
          astarRelax_eq_new h s g b a0 s2 c (by rw [← hbg]; exact hl)]
      exact ⟨by rw [hfr], by rw [hpar], by rw [hbg], by rw [hbf], by rw [hexp],
        by rw [hgen], by rw [hro], by rw [hfr, hmf]⟩
  | some old =>
      by_cases hlt : g + c < old
      · rw [astarRelax_eq_improve h s g a a0 s2 c old hl hlt,
            astarRelax_eq_improve h s g b a0 s2 c old (by rw [← hbg]; exact hl) hlt]
        exact ⟨by rw [hfr], by rw [hpar], by rw [hbg], by rw [hbf], by rw [hexp],
          by rw [hgen], by rw [hro], by rw [hfr, hmf]⟩
      · rw [astarRelax_eq_noop h s g a a0 s2 c old hl hlt,
            astarRelax_eq_noop h s g b a0 s2 c old (by rw [← hbg]; exact hl) hlt]
        exact ⟨hfr, hpar, hbg, hbf, hexp, by rw [hgen], hro, hmf⟩

theorem relA_fold {S : Type u} {A : Type v} [DecidableEq S] [LinearOrder S]
    (h : S → K) (s : S) (g : K) :
    ∀ (es : List (A × S × K)) {a b : AState K S A}, RelA a b →
      RelA (es.foldl (astarRelax h s g) a) (es.foldl (astarRelax h s g) b) := by
  intro es
  induction es with
  | nil => intro a b hab; exact hab
  | cons e rest ih => intro a b hab; exact ih (relA_relax h s g hab e)

theorem astarStep_sim {S : Type u} {A : Type v} [DecidableEq S] [LinearOrder S]
    (p : Problem K S A) (h : S → K) (cap : ℕ) (t1 t2 : Bool) {a b : AState K S A}
    (hab : RelA a b) :
    StepSim RelA (astarStep p h cap t1 a) (astarStep p h cap t2 b) := by
  obtain ⟨hfr, hpar, hbg, hbf, hexp, hgen, hro, hmf⟩ := hab
  rcases astarStep_elim p h cap t1 a _ rfl with
    ⟨hcap, hout⟩ | ⟨hcap, q', hpop, hout⟩ | ⟨hcap, s, f, q', hpop, hstale, hout⟩ |
    ⟨hcap, s, f, q', hpop, hlive, hnone, hout⟩ |
    ⟨hcap, s, f, g, q', hpop, hlive, hg, hgoal, hrec⟩ |
    ⟨hcap, s, f, g, q', hpop, hlive, hg, hgoal, hout⟩
  · have hb : astarStep p h cap t2 b = .fail .resourceExhausted := by
      simp [astarStep, hexp ▸ hcap]
    rw [hout, hb]
    simp [StepSim]
  · have hb : astarStep p h cap t2 b = .fail .noSolution := by
      simp [astarStep, show ¬ cap ≤ b.expanded from hexp ▸ hcap,
        show PQ.popMin14 b.frontier = (none, q') from hfr ▸ hpop]
    rw [hout, hb]
    simp [StepSim]
  · have hb : astarStep p h cap t2 b = .cont { b with frontier := q' } := by
      simp [astarStep, show ¬ cap ≤ b.expanded from hexp ▸ hcap,
        show PQ.popMin14 b.frontier = (some (s, f), q') from hfr ▸ hpop,
        show some f ≠ alookup b.bestF s from hbf ▸ hstale]
    rw [hout, hb]
    exact ⟨rfl, hpar, hbg, hbf, hexp, hgen, hro, hmf⟩
  · have hb : astarStep p h cap t2 b = .crash := by
      simp [astarStep, show ¬ cap ≤ b.expanded from hexp ▸ hcap,
        show PQ.popMin14 b.frontier = (some (s, f), q') from hfr ▸ hpop,
        show some f = alookup b.bestF s from hbf ▸ hlive,
        show alookup b.bestG s = none from hbg ▸ hnone]
    rw [hout, hb]
    simp [StepSim]
  · rcases hrec with ⟨hrec, hout⟩ | ⟨sts, acts, hrec, hout⟩
    · have hb : astarStep p h cap t2 b = .crash := by
        simp [astarStep, show ¬ cap ≤ b.expanded from hexp ▸ hcap,
          show PQ.popMin14 b.frontier = (some (s, f), q') from hfr ▸ hpop,
          show some f = alookup b.bestF s from hbf ▸ hlive,
          show alookup b.bestG s = some g from hbg ▸ hg, hgoal,
          show reconstruct s b.parent = none from hpar ▸ hrec]
      rw [hout, hb]
      simp [StepSim]
    · have hb : astarStep p h cap t2 b =
          .done { cost := g, actions := acts, states := sts,
                  expanded := b.expanded + 1, generated := b.generated,
                  reopens := b.reopens, maxFrontier := b.maxFrontier,
                  trace :=
                    if t2 then
                      some ⟨b.parent, b.bestG,
                            if t2 then b.expandedOrder ++ [s] else b.expandedOrder,
                            b.edges⟩
                    else none } := by
        simp [astarStep, show ¬ cap ≤ b.expanded from hexp ▸ hcap,
          show PQ.popMin14 b.frontier = (some (s, f), q') from hfr ▸ hpop,
          show some f = alookup b.bestF s from hbf ▸ hlive,
          show alookup b.bestG s = some g from hbg ▸ hg, hgoal,
          show reconstruct s b.parent = some (sts, acts) from hpar ▸ hrec]
      rw [hout, hb]
      simp [StepSim, SearchResult.core, hexp, hgen, hro, hmf]
  · have hb : astarStep p h cap t2 b = .cont ((p.succs s).foldl (astarRelax h s g)
        { b with frontier := q', expanded := b.expanded + 1,
                 expandedOrder :=
                   if t2 then b.expandedOrder ++ [s] else b.expandedOrder }) := by
      simp [astarStep, show ¬ cap ≤ b.expanded from hexp ▸ hcap,
        show PQ.popMin14 b.frontier = (some (s, f), q') from hfr ▸ hpop,
        show some f = alookup b.bestF s from hbf ▸ hlive,
        show alookup b.bestG s = some g from hbg ▸ hg, hgoal]
    rw [hout, hb]
    refine relA_fold h s g (p.succs s) ?_
    exact ⟨rfl, hpar, hbg, hbf, by simp [hexp], hgen, hro, hmf⟩

theorem bfsScan_cons_seen {S : Type u} {A : Type v} [DecidableEq S]
    (p : Problem K S A) (tr : Bool) (s : S) (a0 : A) (s2 : S) (c : K)
    (rest : List (A × S × K)) (st : BState K S A)
    (h : (alookup st.parent s2).isSome = true) :
    bfsScan p tr s ((a0, s2, c) :: rest) st =
      bfsScan p tr s rest
        { st with generated := st.generated + 1,
                  edges := match st.edges with
                    | none => none
                    | some l => some (l ++ [(s, s2, a0, c)]) } := by
  simp [bfsScan, h]

theorem bfsScan_cons_crash {S : Type u} {A : Type v} [DecidableEq S]
    (p : Problem K S A) (tr : Bool) (s : S) (a0 : A) (s2 : S) (c : K)
    (rest : List (A × S × K)) (st : BState K S A)
    (h : (alookup st.parent s2).isSome = false)
    (hd : alookup st.depth s = none) :
    bfsScan p tr s ((a0, s2, c) :: rest) st = .crash := by
  simp [bfsScan, h, hd]

theorem bfsScan_cons_new {S : Type u} {A : Type v} [DecidableEq S]
    (p : Problem K S A) (tr : Bool) (s : S) (a0 : A) (s2 : S) (c : K)
    (rest : List (A × S × K)) (st : BState K S A) (d : ℕ)
    (h : (alookup st.parent s2).isSome = false)
    (hd : alookup st.depth s = some d) :
    bfsScan p tr s ((a0, s2, c) :: rest) st =
      (let st2 : BState K S A :=
        { st with generated := st.generated + 1,
                  edges := match st.edges with
                    | none => none
                    | some l => some (l ++ [(s, s2, a0, c)]),
                  parent := ainsert st.parent s2 (some s, some a0),
                  depth := ainsert st.depth s2 (d + 1) }
       if p.isGoal s2 then
         match reconstruct s2 st2.parent with
         | none => .crash
         | some (states, actions) =>
             .done { cost := (actions.length : K), actions := actions,
                     states := states, expanded := st2.expanded,
                     generated := st2.generated, reopens := 0,
                     maxFrontier := st2.maxFrontier,
                     trace :=
                       if tr then
                         some ⟨st2.parent,
                               st2.depth.map fun kv => (kv.1, (kv.2 : K)),
                               st2.expandedOrder, st2.edges⟩
                       else none }
       else
         bfsScan p tr s rest
           { st2 with q := st2.q ++ [s2],
                      maxFrontier :=
                        if st2.maxFrontier < (st2.q ++ [s2]).length
                        then (st2.q ++ [s2]).length else st2.maxFrontier }) := by
  simp [bfsScan, h, hd]

theorem bfsScan_sim {S : Type u} {A : Type v} [DecidableEq S]
    (p : Problem K S A) (t1 t2 : Bool) (s : S) :
    ∀ (es : List (A × S × K)) {a b : BState K S A}, RelB a b →
      StepSim RelB (bfsScan p t1 s es a) (bfsScan p t2 s es b) := by
  intro es
  induction es with
  | nil => intro a b hab; exact hab
  | cons e rest ih =>
      intro a b hab
      obtain ⟨a0, s2, c⟩ := e
      obtain ⟨bq, bpar, bdep, beo, bed, bexp, bgen, bmf⟩ := b
      obtain ⟨hq, hpar, hdep, hexp, hgen, hmf⟩ := hab
      subst hq hpar hdep hexp hgen hmf
      cases hseen : (alookup a.parent s2).isSome with
      | true =>
          rw [bfsScan_cons_seen p t1 s a0 s2 c rest a hseen,
              bfsScan_cons_seen p t2 s a0 s2 c rest ⟨a.q, a.parent, a.depth, beo, bed, a.expanded, a.generated, a.maxFrontier⟩ hseen]
          exact ih ⟨rfl, rfl, rfl, rfl, rfl, rfl⟩
      | false =>
          cases hd : alookup a.depth s with
          | none =>
              rw [bfsScan_cons_crash p t1 s a0 s2 c rest a hseen hd,
                  bfsScan_cons_crash p t2 s a0 s2 c rest ⟨a.q, a.parent, a.depth, beo, bed, a.expanded, a.generated, a.maxFrontier⟩ hseen hd]
              simp [StepSim]
          | some d =>
              rw [bfsScan_cons_new p t1 s a0 s2 c rest a d hseen hd,
                  bfsScan_cons_new p t2 s a0 s2 c rest ⟨a.q, a.parent, a.depth, beo, bed, a.expanded, a.generated, a.maxFrontier⟩ d hseen hd]
              dsimp only
              by_cases hgoal : p.isGoal s2
              · simp only [if_pos hgoal]
                cases hrec : reconstruct s2 (ainsert a.parent s2 (some s, some a0)) with
                | none => simp [StepSim]
                | some pair =>
                    obtain ⟨sts, acts⟩ := pair
                    simp [StepSim, SearchResult.core]
              · simp only [if_neg hgoal]
                exact ih ⟨rfl, rfl, rfl, rfl, rfl, rfl⟩

theorem bfsStep_sim {S : Type u} {A : Type v} [DecidableEq S]
    (p : Problem K S A) (cap : ℕ) (t1 t2 : Bool) {a b : BState K S A}
    (hab : RelB a b) :
    StepSim RelB (bfsStep p cap t1 a) (bfsStep p cap t2 b) := by
  obtain ⟨bq, bpar, bdep, beo, bed, bexp, bgen, bmf⟩ := b
  obtain ⟨hq, hpar, hdep, hexp, hgen, hmf⟩ := hab
  subst hq hpar hdep hexp hgen hmf
  cases hql : a.q with
  | nil =>
      simp only [bfsStep, hql]
      simp [StepSim]
  | cons s rest =>
      simp only [bfsStep, hql]
      by_cases hcap : cap ≤ a.expanded
      · simp only [if_pos hcap]
        simp [StepSim]
      · simp only [if_neg hcap]
        exact bfsScan_sim p t1 t2 s (p.succs s) ⟨rfl, rfl, rfl, rfl, rfl, rfl⟩

theorem dfsScan_cons_seen {S : Type u} {A : Type v} [DecidableEq S]
    (p : Problem K S A) (s : S) (a0 : A) (s2 : S) (c : K)
    (rest : List (A × S × K)) (st : BState K S A)
    (h : (alookup st.parent s2).isSome = true) :
    dfsScan p s ((a0, s2, c) :: rest) st =
      dfsScan p s rest
        { st with generated := st.generated + 1,
                  edges := match st.edges with
                    | none => none
                    | some l => some (l ++ [(s, s2, a0, c)]) } := by
  simp [dfsScan, h]

theorem dfsScan_cons_crash {S : Type u} {A : Type v} [DecidableEq S]
    (p : Problem K S A) (s : S) (a0 : A) (s2 : S) (c : K)
    (rest : List (A × S × K)) (st : BState K S A)
    (h : (alookup st.parent s2).isSome = false)
    (hd : alookup st.depth s = none) :
    dfsScan p s ((a0, s2, c) :: rest) st = .crash := by
  simp [dfsScan, h, hd]

theorem dfsScan_cons_new {S : Type u} {A : Type v} [DecidableEq S]
    (p : Problem K S A) (s : S) (a0 : A) (s2 : S) (c : K)
    (rest : List (A × S × K)) (st : BState K S A) (d : ℕ)
    (h : (alookup st.parent s2).isSome = false)
    (hd : alookup st.depth s = some d) :
    dfsScan p s ((a0, s2, c) :: rest) st =
      (let st1 : BState K S A :=
        { st with generated := st.generated + 1,
                  edges := match st.edges with
                    | none => none
                    | some l => some (l ++ [(s, s2, a0, c)]) }
       dfsScan p s rest
         { st1 with parent := ainsert st1.parent s2 (some s, some a0),
                    depth := ainsert st1.depth s2 (d + 1),
                    q := s2 :: st1.q,
                    maxFrontier :=
                      if st1.maxFrontier < (s2 :: st1.q).length
                      then (s2 :: st1.q).length else st1.maxFrontier }) := by
  simp [dfsScan, h, hd]

theorem dfsScan_sim {S : Type u} {A : Type v} [DecidableEq S]
    (p : Problem K S A) (s : S) :
    ∀ (es : List (A × S × K)) {a b : BState K S A}, RelB a b →
      StepSim RelB (dfsScan p s es a) (dfsScan p s es b) := by
  intro es
  induction es with
  | nil => intro a b hab; exact hab
  | cons e rest ih =>
      intro a b hab
      obtain ⟨a0, s2, c⟩ := e
      obtain ⟨bq, bpar, bdep, beo, bed, bexp, bgen, bmf⟩ := b
      obtain ⟨hq, hpar, hdep, hexp, hgen, hmf⟩ := hab
      subst hq hpar hdep hexp hgen hmf
      cases hseen : (alookup a.parent s2).isSome with
      | true =>
          rw [dfsScan_cons_seen p s a0 s2 c rest a hseen,
              dfsScan_cons_seen p s a0 s2 c rest ⟨a.q, a.parent, a.depth, beo, bed, a.expanded, a.generated, a.maxFrontier⟩ hseen]
          exact ih ⟨rfl, rfl, rfl, rfl, rfl, rfl⟩
      | false =>
          cases hd : alookup a.depth s with
          | none =>
              rw [dfsScan_cons_crash p s a0 s2 c rest a hseen hd,
                  dfsScan_cons_crash p s a0 s2 c rest ⟨a.q, a.parent, a.depth, beo, bed, a.expanded, a.generated, a.maxFrontier⟩ hseen hd]
              simp [StepSim]
          | some d =>
              rw [dfsScan_cons_new p s a0 s2 c rest a d hseen hd,
                  dfsScan_cons_new p s a0 s2 c rest ⟨a.q, a.parent, a.depth, beo, bed, a.expanded, a.generated, a.maxFrontier⟩ d hseen hd]
              dsimp only
              exact ih ⟨rfl, rfl, rfl, rfl, rfl, rfl⟩

theorem dfsStep_sim {S : Type u} {A : Type v} [DecidableEq S]
    (p : Problem K S A) (cap : ℕ) (t1 t2 : Bool) {a b : BState K S A}
    (hab : RelB a b) :
    StepSim RelB (dfsStep p cap t1 a) (dfsStep p cap t2 b) := by
  obtain ⟨bq, bpar, bdep, beo, bed, bexp, bgen, bmf⟩ := b
  obtain ⟨hq, hpar, hdep, hexp, hgen, hmf⟩ := hab
  subst hq hpar hdep hexp hgen hmf
  cases hql : a.q with
  | nil =>
      simp only [dfsStep, hql]
      simp [StepSim]
  | cons s rest =>
      simp only [dfsStep, hql]
      by_cases hcap : cap ≤ a.expanded
      · simp only [if_pos hcap]
        simp [StepSim]
      · simp only [if_neg hcap]
        by_cases hgoal : p.isGoal s
        · simp only [if_pos hgoal]
          cases hrec : reconstruct s a.parent with
          | none => simp [StepSim]
          | some pair =>
              obtain ⟨sts, acts⟩ := pair
              simp [StepSim, SearchResult.core]
        · simp only [if_neg hgoal]
          exact dfsScan_sim p s (p.succs s) ⟨rfl, rfl, rfl, rfl, rfl, rfl⟩

theorem ucs_core_eq {K : Type w} [LinearOrderedCommRing K] {S : Type u}
    {A : Type v} [DecidableEq S] [LinearOrder S] (p : Problem K S A)
    (cap : ℕ) (tr te : Bool) :
    runCore (ucsRun p cap tr te) = runCore (ucsRun p cap false false) :=
  (runLoop_bisim
    (fun a b hab => by
      obtain ⟨hfr, _, _, hexp, _, _, _⟩ := hab
      simp [pqMeasure, hfr, hexp])
    (fun a b hab => stepSim_elim (ucsStep_sim p cap tr false hab))
    (ucsInit p tr te) (ucsInit p false false)
    ⟨rfl, rfl, rfl, rfl, rfl, rfl, rfl⟩).symm

theorem astar_core_eq {K : Type w} [LinearOrderedCommRing K] {S : Type u}
    {A : Type v} [DecidableEq S] [LinearOrder S] (p : Problem K S A) (h : S → K)
    (cap : ℕ) (tr te : Bool) :
    runCore (astarRun p h cap tr te) = runCore (astarRun p h cap false false) :=
  (runLoop_bisim
    (fun a b hab => by
      obtain ⟨hfr, _, _, _, hexp, _, _, _⟩ := hab
      simp [pqMeasureA, hfr, hexp])
    (fun a b hab => stepSim_elim (astarStep_sim p h cap tr false hab))
    (astarInit p h tr te) (astarInit p h false false)
    ⟨rfl, rfl, rfl, rfl, rfl, rfl, rfl, rfl⟩).symm

theorem bfs_core_eq {K : Type w} [LinearOrderedCommRing K] {S : Type u}
    {A : Type v} [DecidableEq S] [LinearOrder S] (p : Problem K S A)
    (cap : ℕ) (tr te : Bool) :
    runCore (bfsRun p cap tr te) = runCore (bfsRun p cap false false) := by
  by_cases hg : p.isGoal p.start
  · simp [bfsRun, hg, runCore, SearchResult.core, Except.map]
  · have hmain := runLoop_bisim
      (show ∀ a b : BState K S A, RelB a b → bMeasure cap b = bMeasure cap a from
        fun a b hab => by
          obtain ⟨_, _, _, hexp, _, _⟩ := hab
          simp [bMeasure, hexp])
      (fun a b hab => stepSim_elim (bfsStep_sim p cap tr false hab))
      { q := [p.start], parent := [(p.start, (none, none))], depth := [(p.start, 0)],
        expandedOrder := [], edges := if tr && te then some [] else none,
        expanded := 0, generated := 0, maxFrontier := 1 }
      { q := [p.start], parent := [(p.start, (none, none))], depth := [(p.start, 0)],
        expandedOrder := [], edges := if false && false then some [] else none,
        expanded := 0, generated := 0, maxFrontier := 1 }
      ⟨rfl, rfl, rfl, rfl, rfl, rfl⟩
    simp only [bfsRun, if_neg hg]
    exact hmain.symm

theorem dfs_core_eq {K : Type w} [LinearOrderedCommRing K] {S : Type u}
    {A : Type v} [DecidableEq S] [LinearOrder S] (p : Problem K S A)
    (cap : ℕ) (tr te : Bool) :
    runCore (dfsRun p cap tr te) = runCore (dfsRun p cap false false) := by
  have hmain := runLoop_bisim
    (show ∀ a b : BState K S A, RelB a b → bMeasure cap b = bMeasure cap a from
      fun a b hab => by
        obtain ⟨_, _, _, hexp, _, _⟩ := hab
        simp [bMeasure, hexp])
    (fun a b hab => stepSim_elim (dfsStep_sim p cap tr false hab))
    { q := [p.start], parent := [(p.start, (none, none))], depth := [(p.start, 0)],
      expandedOrder := [], edges := if tr && te then some [] else none,
      expanded := 0, generated := 0, maxFrontier := 1 }
    { q := [p.start], parent := [(p.start, (none, none))], depth := [(p.start, 0)],
      expandedOrder := [], edges := if false && false then some [] else none,
      expanded := 0, generated := 0, maxFrontier := 1 }
    ⟨rfl, rfl, rfl, rfl, rfl, rfl⟩
  exact hmain.symm

/-- C8: for every problem and heuristic, running `bfs`, `dfs`, `ucs` or
`astar` with trace capture enabled (with or without edge capture) returns
the same cost, actions, states, expanded, generated, reopens and
max_frontier as running it with tracing disabled: tracing is purely
observational. -/
theorem claim_C8 {K : Type w} [LinearOrderedCommRing K] {S : Type u}
    {A : Type v} [DecidableEq S] [LinearOrder S] (p : Problem K S A) (h : S → K)
    (cap : ℕ) (tr te : Bool) :
    runCore (bfsRun p cap tr te) = runCore (bfsRun p cap false false) ∧
    runCore (dfsRun p cap tr te) = runCore (dfsRun p cap false false) ∧
    runCore (ucsRun p cap tr te) = runCore (ucsRun p cap false false) ∧
    runCore (astarRun p h cap tr te) = runCore (astarRun p h cap false false) :=
  ⟨bfs_core_eq p cap tr te, dfs_core_eq p cap tr te,
   ucs_core_eq p cap tr te, astar_core_eq p h cap tr te⟩

/-! ### BFS returns a shortest path in action count -/

theorem first_undisc {K : Type w} [LinearOrderedCommRing K] {S : Type u}
    {A : Type v} [DecidableEq S] {p : Problem K S A}
    {parent : List (S × (Option S × Option A))} :
    ∀ (es : List (A × S × K)) (x z : S), IsPath p x es z →
      (alookup parent x).isSome → ¬ (alookup parent z).isSome →
      ∃ pre e suf x', es = pre ++ e :: suf ∧ IsPath p x pre x' ∧
        (alookup parent x').isSome ∧ e ∈ p.succs x' ∧
        ¬ (alookup parent e.2.1).isSome := by
  intro es
  induction es with
  | nil =>
      intro x z hpath hx hz
      cases hpath
      exact absurd hx hz
  | cons e rest ih =>
      intro x z hpath hx hz
      obtain ⟨a, y, c⟩ := e
      cases hpath with
      | cons hmem htail =>
          by_cases hy : (alookup parent y).isSome
          · obtain ⟨pre, e', suf, x', hsplit, hp, hx', hmem', hnd⟩ :=
              ih y z htail hy hz
            exact ⟨(a, y, c) :: pre, e', suf, x', by rw [hsplit]; rfl,
              IsPath.cons hmem hp, hx', hmem', hnd⟩
          · exact ⟨[], (a, y, c), rest, x, rfl, IsPath.nil x, hx, hmem, hy⟩

theorem bfs_min_walk {K : Type w} [LinearOrderedCommRing K] {S : Type u}
    {A : Type v} [DecidableEq S] {p : Problem K S A} {s : S} {dS : ℕ}
    {done : List (A × S × K)} {st : BState K S A}
    (hm : MidB p s dS done st) :
    ∀ (es : List (A × S × K)) (z : S), IsPath p p.start es z →
      ¬ (alookup st.parent z).isSome → dS + 1 ≤ es.length := by
  intro es z hpath hz
  obtain ⟨pre, e, suf, x', hsplit, hp, hx', hmem, hnd⟩ :=
    first_undisc es p.start z hpath hm.startDisc hz
  have hq : x' ∈ st.q ∨ x' = s := by
    by_cases hqm : x' ∈ st.q
    · exact Or.inl hqm
    · by_cases hxs : x' = s
      · exact Or.inr hxs
      · exact absurd (hm.closedX x' hx' hqm hxs e hmem) hnd
  obtain ⟨dx, hdx⟩ := Option.isSome_iff_exists.mp ((hm.pdDom x').mp hx')
  have hlb : dS ≤ dx := by
    rcases hq with hqm | rfl
    · exact ((hm.qBound x' hqm dx hdx).1)
    · rw [hm.sDepth] at hdx
      cases hdx
      exact le_refl _
  have hub := hm.ubB x' dx hdx pre hp
  rw [hsplit]
  simp only [List.length_append, List.length_cons]
  omega

theorem reconRec_actions_len {S : Type u} {A : Type v} [DecidableEq S]
    {parent : List (S × (Option S × Option A))} {depth : List (S × ℕ)}
    {start : S}
    (hpd : ∀ x q a, alookup parent x = some (some q, a) →
      ∃ act dq dx, a = some act ∧ alookup depth q = some dq ∧
        alookup depth x = some dx ∧ dx = dq + 1)
    (hroot : ∀ x a, alookup parent x = some (none, a) →
      x = start ∧ a = none ∧ alookup depth x = some 0) :
    ∀ (fuel : ℕ) (cur : S) (sts : List S) (acts : List A) (os : List S)
      (oa : List A), reconRec fuel parent (some cur) sts acts = some (os, oa) →
      ∀ dcur, alookup depth cur = some dcur →
        oa.length = acts.length + dcur := by
  intro fuel
  induction fuel with
  | zero => intro cur sts acts os oa h; simp [reconRec] at h
  | succ n ih =>
      intro cur sts acts os oa h dcur hdcur
      cases hl : alookup parent cur with
      | none => simp [reconRec, hl] at h
      | some pa =>
          obtain ⟨pnext, a⟩ := pa
          cases pnext with
          | none =>
              obtain ⟨_, ha, hd0⟩ := hroot cur a hl
              subst ha
              rw [hdcur] at hd0
              cases hd0
              simp only [reconRec, hl, Option.some.injEq, Prod.mk.injEq] at h
              rw [← h.2]
              simp
          | some q =>
              obtain ⟨act, dq, dx, ha, hdq, hdx, hstep⟩ := hpd cur q a hl
              subst ha
              rw [hdcur] at hdx
              cases hdx
              simp only [reconRec, hl] at h
              have := ih q _ _ os oa h dq hdq
              rw [this]
              simp only [List.length_append, List.length_cons,
                List.length_nil]
              omega

theorem reconRec_states_chain {S : Type u} {A : Type v} [DecidableEq S]
    {parent : List (S × (Option S × Option A))} :
    ∀ (fuel : ℕ) (cur : S) (sts : List S) (acts : List A) (os : List S)
      (oa : List A), reconRec fuel parent (some cur) sts acts = some (os, oa) →
      ∃ rest, os = ((sts ++ [cur]) ++ rest).reverse ∧
        ∀ y ∈ rest, Relation.TransGen (pstep parent) cur y := by
  intro fuel
  induction fuel with
  | zero => intro cur sts acts os oa h; simp [reconRec] at h
  | succ n ih =>
      intro cur sts acts os oa h
      cases hl : alookup parent cur with
      | none => simp [reconRec, hl] at h
      | some pa =>
          obtain ⟨pnext, a⟩ := pa
          cases pnext with
          | none =>
              simp only [reconRec, hl, Option.some.injEq, Prod.mk.injEq] at h
              exact ⟨[], by rw [← h.1]; simp, by simp⟩
          | some nxt =>
              simp only [reconRec, hl] at h
              obtain ⟨rest, hrest, hchain⟩ := ih nxt _ _ os oa h
              have hstep : pstep parent cur nxt := ⟨a, hl⟩
              refine ⟨nxt :: rest, by rw [hrest]; simp, ?_⟩
              intro y hy
              rcases List.mem_cons.mp hy with rfl | hy
              · exact Relation.TransGen.single hstep
              · exact Relation.TransGen.head' hstep (hchain y hy).to_reflTransGen

theorem midB_insert_facts {K : Type w} [LinearOrderedCommRing K] {S : Type u}
    {A : Type v} [DecidableEq S] {p : Problem K S A} {s : S} {dS : ℕ}
    {done : List (A × S × K)} {st : BState K S A} {a0 : A} {s2 : S} {c : K}
    (hm : MidB p s dS done st)
    (hnd : (alookup st.parent s2).isSome = false)
    (hmem : (a0, s2, c) ∈ p.succs s) :
    (∀ x, (alookup (ainsert st.parent s2 (some s, some a0)) x).isSome ↔
        (alookup (ainsert st.depth s2 (dS + 1)) x).isSome) ∧
    (∀ x q a, alookup (ainsert st.parent s2 (some s, some a0)) x = some (some q, a) →
      ∃ act dq dx, a = some act ∧ alookup (ainsert st.depth s2 (dS + 1)) q = some dq ∧
        alookup (ainsert st.depth s2 (dS + 1)) x = some dx ∧ dx = dq + 1) ∧
    (∀ x a, alookup (ainsert st.parent s2 (some s, some a0)) x = some (none, a) →
      x = p.start ∧ a = none ∧ alookup (ainsert st.depth s2 (dS + 1)) x = some 0) := by
  have hs2s : s2 ≠ s := by
    intro heq
    rw [heq, (hm.pdDom s).mpr (by rw [hm.sDepth]; rfl)] at hnd
    exact absurd hnd (by simp)
  have hs2start : s2 ≠ p.start := by
    intro heq
    rw [heq, hm.startDisc] at hnd
    exact absurd hnd (by simp)
  have hdnd : (alookup st.depth s2).isSome = false := by
    cases hd : (alookup st.depth s2).isSome with
    | false => rfl
    | true => rw [(hm.pdDom s2).mpr hd] at hnd; exact hnd
  refine ⟨?_, ?_, ?_⟩
  · intro x
    by_cases hxs : x = s2
    · subst hxs
      rw [alookup_ainsert_self, alookup_ainsert_self]
      simp
    · rw [alookup_ainsert_ne _ _ _ _ hxs, alookup_ainsert_ne _ _ _ _ hxs]
      exact hm.pdDom x
  · intro x q a hl
    by_cases hxs : x = s2
    · subst hxs
      rw [alookup_ainsert_self] at hl
      obtain ⟨h1, h2⟩ := Prod.mk.injEq _ _ _ _ ▸ Option.some.inj hl
      cases Option.some.inj h1
      subst h2
      refine ⟨a0, dS, dS + 1, rfl, ?_, alookup_ainsert_self _ _ _, rfl⟩
      rw [alookup_ainsert_ne _ _ _ _ (fun h => hs2s h.symm)]
      exact hm.sDepth
    · rw [alookup_ainsert_ne _ _ _ _ hxs] at hl
      obtain ⟨act, dq, dx, ha, hdq, hdx, hstep⟩ := hm.pardepth x q a hl
      have hqs2 : q ≠ s2 := by
        intro heq
        rw [heq] at hdq
        rw [hdq] at hdnd
        exact absurd hdnd (by simp)
      refine ⟨act, dq, dx, ha, ?_, ?_, hstep⟩
      · rw [alookup_ainsert_ne _ _ _ _ hqs2]
        exact hdq
      · rw [alookup_ainsert_ne _ _ _ _ hxs]
        exact hdx
  · intro x a hl
    by_cases hxs : x = s2
    · subst hxs
      rw [alookup_ainsert_self] at hl
      obtain ⟨h1, _⟩ := Prod.mk.injEq _ _ _ _ ▸ Option.some.inj hl
      exact absurd h1 (by simp)
    · rw [alookup_ainsert_ne _ _ _ _ hxs] at hl
      obtain ⟨hx, ha, hd⟩ := hm.parRootB x a hl
      refine ⟨hx, ha, ?_⟩
      rw [alookup_ainsert_ne _ _ _ _ hxs]
      exact hd

theorem disc_insert_mono {S : Type u} {A : Type v} [DecidableEq S]
    (parent : List (S × (Option S × Option A))) (s2 : S) (v : Option S × Option A) :
    ∀ x, (alookup parent x).isSome →
      (alookup (ainsert parent s2 v) x).isSome := by
  intro x hx
  by_cases hxs : x = s2
  · subst hxs
    rw [alookup_ainsert_self]
    rfl
  · rw [alookup_ainsert_ne _ _ _ _ hxs]
    exact hx

theorem pairwise_congr_mem {α : Type u} {R R' : α → α → Prop} :
    ∀ (l : List α), (∀ x ∈ l, ∀ y ∈ l, R x y → R' x y) →
      l.Pairwise R → l.Pairwise R' := by
  intro l
  induction l with
  | nil => intro _ _; exact List.Pairwise.nil
  | cons a l ih =>
      intro h hp
      cases hp with
      | cons ha hl =>
          refine List.Pairwise.cons ?_ (ih ?_ hl)
          · intro y hy
            exact h a (by simp) y (by simp [hy]) (ha y hy)
          · intro x hx y hy hr
            exact h x (by simp [hx]) y (by simp [hy]) hr

theorem midB_child_step {K : Type w} [LinearOrderedCommRing K] {S : Type u}
    {A : Type v} [DecidableEq S] {p : Problem K S A} {s : S} {dS : ℕ}
    {done : List (A × S × K)} {st : BState K S A} {a0 : A} {s2 : S} {c : K}
    (E : Option (List (S × S × A × K))) (xo : List S) (xp G M : ℕ)
    (hm : MidB p s dS done st)
    (hnd : (alookup st.parent s2).isSome = false)
    (hmem : (a0, s2, c) ∈ p.succs s)
    (hng : p.isGoal s2 = false) :
    MidB p s dS (done ++ [(a0, s2, c)])
      { q := st.q ++ [s2], parent := ainsert st.parent s2 (some s, some a0),
        depth := ainsert st.depth s2 (dS + 1), expandedOrder := xo,
        edges := E, expanded := xp, generated := G, maxFrontier := M } := by
  obtain ⟨hdom, hpd, hroot⟩ := midB_insert_facts hm hnd hmem
  have hs2s : s2 ≠ s := by
    intro heq
    rw [heq, (hm.pdDom s).mpr (by rw [hm.sDepth]; rfl)] at hnd
    exact absurd hnd (by simp)
  have hs2start : s2 ≠ p.start := by
    intro heq
    rw [heq, hm.startDisc] at hnd
    exact absurd hnd (by simp)
  have hdnd : ∀ d0, alookup st.depth s2 = some d0 → False := by
    intro d0 hd0
    have h1 := (hm.pdDom s2).mpr (by rw [hd0]; rfl)
    rw [h1] at hnd
    exact absurd hnd (by simp)
  have hq_ne : ∀ x ∈ st.q, x ≠ s2 := by
    intro x hx heq
    obtain ⟨d0, hd0⟩ := Option.isSome_iff_exists.mp (hm.qDisc x hx)
    exact hdnd d0 (heq ▸ hd0)
  refine ⟨hdom, hpd, hroot, ?_, ?_, ?_, ?_, ?_, ?_, ?_, ?_, ?_, ?_⟩
  · -- reachB
    intro x dx hx
    by_cases hxs : x = s2
    · subst hxs
      rw [alookup_ainsert_self] at hx
      cases hx
      obtain ⟨es, hp, hlen⟩ := hm.reachB s dS hm.sDepth
      exact ⟨es ++ [(a0, x, c)], hp.append_edge hmem, by simp [hlen]⟩
    · rw [alookup_ainsert_ne _ _ _ _ hxs] at hx
      exact hm.reachB x dx hx
  · -- ubB
    intro x dx hx es hp
    by_cases hxs : x = s2
    · subst hxs
      rw [alookup_ainsert_self] at hx
      cases hx
      exact bfs_min_walk hm es _ hp (by rw [hnd]; simp)
    · rw [alookup_ainsert_ne _ _ _ _ hxs] at hx
      exact hm.ubB x dx hx es hp
  · -- qDisc
    intro x hx
    rcases List.mem_append.mp hx with hx | hx
    · rw [alookup_ainsert_ne _ _ _ _ (hq_ne x hx)]
      exact hm.qDisc x hx
    · rcases List.mem_singleton.mp hx with rfl
      rw [alookup_ainsert_self]
      rfl
  · -- qSortedB
    rw [List.pairwise_append]
    refine ⟨?_, List.pairwise_singleton _ _, ?_⟩
    · refine pairwise_congr_mem st.q ?_ hm.qSortedB
      intro x hxq y hyq hxy dx dy hdx hdy
      rw [alookup_ainsert_ne _ _ _ _ (hq_ne x hxq)] at hdx
      rw [alookup_ainsert_ne _ _ _ _ (hq_ne y hyq)] at hdy
      exact hxy dx dy hdx hdy
    · intro x hxq y hy
      rcases List.mem_singleton.mp hy with rfl
      intro dx dy hdx hdy
      rw [alookup_ainsert_ne _ _ _ _ (hq_ne x hxq)] at hdx
      rw [alookup_ainsert_self] at hdy
      cases hdy
      exact (hm.qBound x hxq dx hdx).2
  · -- qBound
    intro x hx dx hdx
    rcases List.mem_append.mp hx with hx | hx
    · rw [alookup_ainsert_ne _ _ _ _ (hq_ne x hx)] at hdx
      exact hm.qBound x hx dx hdx
    · rcases List.mem_singleton.mp hx with rfl
      rw [alookup_ainsert_self] at hdx
      cases hdx
      omega
  · -- closedX
    intro x hx hxq hxs e he
    by_cases hxs2 : x = s2
    · subst hxs2
      exact absurd (List.mem_append.mpr (Or.inr (by simp))) hxq
    · rw [alookup_ainsert_ne _ _ _ _ hxs2] at hx
      have hxq' : x ∉ st.q := fun hmemq =>
        hxq (List.mem_append.mpr (Or.inl hmemq))
      exact disc_insert_mono _ _ _ _ (hm.closedX x hx hxq' hxs e he)
  · -- noGoalDisc
    intro x hx
    by_cases hxs : x = s2
    · subst hxs
      exact hng
    · rw [alookup_ainsert_ne _ _ _ _ hxs] at hx
      exact hm.noGoalDisc x hx
  · -- startDisc
    rw [alookup_ainsert_ne _ _ _ _ (Ne.symm hs2start)]
    exact hm.startDisc
  · -- sDepth
    rw [alookup_ainsert_ne _ _ _ _ (Ne.symm hs2s)]
    exact hm.sDepth
  · -- doneDisc
    intro e he
    rcases List.mem_append.mp he with he | he
    · exact disc_insert_mono _ _ _ _ (hm.doneDisc e he)
    · rcases List.mem_singleton.mp he with rfl
      rw [alookup_ainsert_self]
      rfl

theorem midB_done_case {K : Type w} [LinearOrderedCommRing K] {S : Type u}
    {A : Type v} [DecidableEq S] {p : Problem K S A} {s : S} {dS : ℕ}
    {done : List (A × S × K)} {st : BState K S A} {a0 : A} {s2 : S} {c : K}
    {sts : List S} {acts : List A}
    (hm : MidB p s dS done st)
    (hnd : (alookup st.parent s2).isSome = false)
    (hmem : (a0, s2, c) ∈ p.succs s)
    (hgoal : p.isGoal s2 = true)
    (hrec : reconstruct s2 (ainsert st.parent s2 (some s, some a0)) =
      some (sts, acts)) :
    acts.length = dS + 1 ∧
    (∃ es t, IsPath p p.start es t ∧ p.isGoal t = true ∧
      es.length = acts.length) ∧
    (∀ es t, IsPath p p.start es t → p.isGoal t = true →
      acts.length ≤ es.length) ∧
    (∀ x ∈ sts.dropLast, p.isGoal x = false) := by
  obtain ⟨hdom, hpd, hroot⟩ := midB_insert_facts hm hnd hmem
  have hs2s : s2 ≠ s := by
    intro heq
    rw [heq, (hm.pdDom s).mpr (by rw [hm.sDepth]; rfl)] at hnd
    exact absurd hnd (by simp)
  have hlen : acts.length = dS + 1 := by
    have := reconRec_actions_len hpd hroot _ s2 [] [] sts acts hrec (dS + 1)
      (alookup_ainsert_self _ _ _)
    simpa using this
  refine ⟨hlen, ?_, ?_, ?_⟩
  · obtain ⟨es, hp, hplen⟩ := hm.reachB s dS hm.sDepth
    exact ⟨es ++ [(a0, s2, c)], s2, hp.append_edge hmem, hgoal,
      by simp [hplen, hlen]⟩
  · intro es t hp hgt
    rw [hlen]
    refine bfs_min_walk hm es t hp ?_
    intro hdisc
    rw [hm.noGoalDisc t hdisc] at hgt
    exact absurd hgt (by simp)
  · obtain ⟨rest, hshape, hchain⟩ :=
      reconRec_states_chain _ s2 [] [] sts acts hrec
    have hsts : sts = rest.reverse ++ [s2] := by
      rw [hshape]
      simp
    rw [hsts, List.dropLast_concat]
    intro x hx
    have hxr : x ∈ rest := by simpa using hx
    obtain ⟨w, hw, ⟨aw, hlw⟩⟩ :=
      (Relation.TransGen.tail'_iff).mp (hchain x hxr)
    by_cases hws : w = s2
    · subst hws
      rw [alookup_ainsert_self] at hlw
      obtain ⟨h1, _⟩ := Prod.mk.injEq _ _ _ _ ▸ Option.some.inj hlw
      cases Option.some.inj h1
      exact hm.noGoalDisc _ ((hm.pdDom _).mpr (by rw [hm.sDepth]; rfl))
    · rw [alookup_ainsert_ne _ _ _ _ hws] at hlw
      obtain ⟨act, dq, dx, _, hdq, _, _⟩ := hm.pardepth w x aw hlw
      exact hm.noGoalDisc x ((hm.pdDom x).mpr (by rw [hdq]; rfl))

theorem bfsScan_post {K : Type w} [LinearOrderedCommRing K] {S : Type u}
    {A : Type v} [DecidableEq S] {p : Problem K S A} (tr : Bool) {s : S} {dS : ℕ} :
    ∀ (pending done : List (A × S × K)) (st : BState K S A),
      MidB p s dS done st → done ++ pending = p.succs s →
      (∀ st', bfsScan p tr s pending st = .cont st' → BInv p st') ∧
      (∀ r, bfsScan p tr s pending st = .done r →
        r.cost = (r.actions.length : K) ∧
        (∃ es t, IsPath p p.start es t ∧ p.isGoal t = true ∧
          es.length = r.actions.length) ∧
        (∀ es t, IsPath p p.start es t → p.isGoal t = true →
          r.actions.length ≤ es.length) ∧
        (∀ x ∈ r.states.dropLast, p.isGoal x = false)) := by
  intro pending
  induction pending with
  | nil =>
      intro done st hm hcover
      constructor
      · intro st' hc
        have hst : st = st' := by
          simpa [bfsScan] using hc
        subst hst
        refine ⟨hm.pdDom, hm.pardepth, hm.parRootB, hm.reachB, hm.ubB, hm.qDisc,
          hm.qSortedB, ?_, ?_, hm.noGoalDisc, hm.startDisc⟩
        · intro x hx y hy dx dy hdx hdy
          have hbx := hm.qBound x hx dx hdx
          have hby := hm.qBound y hy dy hdy
          omega
        · intro x hx hxq e he
          by_cases hxs : x = s
          · subst hxs
            have hed : e ∈ done := by
              rw [List.append_nil] at hcover
              rw [hcover]
              exact he
            exact hm.doneDisc e hed
          · exact hm.closedX x hx hxq hxs e he
      · intro r hr
        exact absurd hr (by simp [bfsScan])
  | cons e rest ih =>
      intro done st hm hcover
      obtain ⟨a0, s2, c⟩ := e
      have hmem : (a0, s2, c) ∈ p.succs s := by
        rw [← hcover]
        exact List.mem_append.mpr (Or.inr (List.mem_cons_self _ _))
      by_cases hseen : (alookup st.parent s2).isSome
      · rw [bfsScan_cons_seen p tr s a0 s2 c rest st hseen]
        refine ih (done ++ [(a0, s2, c)]) _
          ⟨hm.pdDom, hm.pardepth, hm.parRootB, hm.reachB, hm.ubB, hm.qDisc,
           hm.qSortedB, hm.qBound, hm.closedX, hm.noGoalDisc, hm.startDisc,
           hm.sDepth, ?_⟩ (by rw [← hcover]; simp)
        intro e' he'
        rcases List.mem_append.mp he' with he' | he'
        · exact hm.doneDisc e' he'
        · rcases List.mem_singleton.mp he' with rfl
          exact hseen
      · have hseen' : (alookup st.parent s2).isSome = false := by
          simpa using hseen
        rw [bfsScan_cons_new p tr s a0 s2 c rest st dS hseen' hm.sDepth]
        dsimp only
        by_cases hgoal : p.isGoal s2
        · simp only [if_pos hgoal]
          cases hrec : reconstruct s2 (ainsert st.parent s2 (some s, some a0)) with
          | none =>
              simp only [hrec]
              exact ⟨fun st' hc => absurd hc (by simp),
                fun r hr => absurd hr (by simp)⟩
          | some pair =>
              obtain ⟨sts, acts⟩ := pair
              simp only [hrec]
              refine ⟨fun st' hc => absurd hc (by simp), ?_⟩
              intro r hr
              simp only [StepOut.done.injEq] at hr
              obtain ⟨hlen, hex, hmin, hdl⟩ :=
                midB_done_case hm hseen' hmem hgoal hrec
              subst hr
              exact ⟨rfl, hex, hmin, hdl⟩
        · have hgoal' : p.isGoal s2 = false := by simpa using hgoal
          simp only [hgoal']
          simp only [if_neg (by simp : ¬ (false = true))]
          exact ih (done ++ [(a0, s2, c)]) _
            (midB_child_step _ _ _ _ _ hm hseen' hmem hgoal')
            (by rw [← hcover]; simp)

theorem binv_pop_midb {K : Type w} [LinearOrderedCommRing K] {S : Type u}
    {A : Type v} [DecidableEq S] {p : Problem K S A} {st : BState K S A}
    {s : S} {rest : List S} {dS : ℕ}
    (hinv : BInv p st) (hql : st.q = s :: rest)
    (hdS : alookup st.depth s = some dS) (xo : List S) (xp : ℕ) :
    MidB p s dS [] { st with q := rest, expanded := xp, expandedOrder := xo } := by
  have hsortedq := hql ▸ hinv.qSortedB
  refine ⟨hinv.pdDom, hinv.pardepth, hinv.parRootB, hinv.reachB, hinv.ubB,
    ?_, hsortedq.of_cons, ?_, ?_, hinv.noGoalDisc, hinv.startDisc, hdS, by simp⟩
  · intro x hx
    exact hinv.qDisc x (by rw [hql]; exact List.mem_cons_of_mem s hx)
  · intro x hx dx hdx
    constructor
    · exact List.rel_of_pairwise_cons hsortedq hx dS dx hdS hdx
    · exact hinv.qSpread x (by rw [hql]; exact List.mem_cons_of_mem s hx)
        s (by rw [hql]; exact List.mem_cons_self s rest) dx dS hdx hdS
  · intro x hx hxq hxs e he
    refine hinv.closedB x hx ?_ e he
    rw [hql]
    intro hmem
    rcases List.mem_cons.mp hmem with rfl | hmem
    · exact hxs rfl
    · exact hxq hmem

theorem bfs_post {K : Type w} [LinearOrderedCommRing K] {S : Type u}
    {A : Type v} [DecidableEq S] [LinearOrder S] {p : Problem K S A}
    {cap : ℕ} {tr : Bool} {st0 : BState K S A} {r : SearchResult K S A}
    (hinv0 : BInv p st0)
    (hrun : runLoop (bfsStep p cap tr) (bMeasure cap) st0 = some (.ok r)) :
    r.cost = (r.actions.length : K) ∧
    (∃ es t, IsPath p p.start es t ∧ p.isGoal t = true ∧
      es.length = r.actions.length) ∧
    (∀ es t, IsPath p p.start es t → p.isGoal t = true →
      r.actions.length ≤ es.length) ∧
    (∀ x ∈ r.states.dropLast, p.isGoal x = false) := by
  refine runLoop_post (P := fun st => BInv p st)
    (Q := fun r : SearchResult K S A =>
      r.cost = (r.actions.length : K) ∧
      (∃ es t, IsPath p p.start es t ∧ p.isGoal t = true ∧
        es.length = r.actions.length) ∧
      (∀ es t, IsPath p p.start es t → p.isGoal t = true →
        r.actions.length ≤ es.length) ∧
      (∀ x ∈ r.states.dropLast, p.isGoal x = false))
    ?_ st0 hinv0 r hrun
  intro st hinv
  cases hql : st.q with
  | nil =>
      have hb : bfsStep p cap tr st = .fail .noSolution := by
        simp [bfsStep, hql]
      constructor
      · intro st' hc
        rw [hb] at hc
        exact absurd hc (by simp)
      · intro r' hr
        rw [hb] at hr
        exact absurd hr (by simp)
  | cons s rest =>
      by_cases hcap : cap ≤ st.expanded
      · have hb : bfsStep p cap tr st = .fail .resourceExhausted := by
          simp [bfsStep, hql, hcap]
        constructor
        · intro st' hc
          rw [hb] at hc
          exact absurd hc (by simp)
        · intro r' hr
          rw [hb] at hr
          exact absurd hr (by simp)
      · obtain ⟨dS, hdS⟩ := Option.isSome_iff_exists.mp
          (hinv.qDisc s (by rw [hql]; exact List.mem_cons_self s rest))
        have hb : bfsStep p cap tr st = bfsScan p tr s (p.succs s)
            { st with q := rest, expanded := st.expanded + 1,
                      expandedOrder :=
                        if tr then st.expandedOrder ++ [s] else st.expandedOrder } := by
          simp [bfsStep, hql, hcap]
        have hmid := binv_pop_midb hinv hql hdS
          (if tr then st.expandedOrder ++ [s] else st.expandedOrder)
          (st.expanded + 1)
        have hscan := bfsScan_post (p := p) (s := s) tr (p.succs s) [] _ hmid (by simp)
        constructor
        · intro st' hc
          rw [hb] at hc
          exact hscan.1 st' hc
        · intro r' hr
          rw [hb] at hr
          exact hscan.2 r' hr

theorem binv_init {K : Type w} [LinearOrderedCommRing K] {S : Type u}
    {A : Type v} [DecidableEq S] (p : Problem K S A)
    (hg : p.isGoal p.start = false) (ed : Option (List (S × S × A × K))) :
    BInv p { q := [p.start], parent := [(p.start, (none, none))],
             depth := [(p.start, 0)], expandedOrder := [], edges := ed,
             expanded := 0, generated := 0, maxFrontier := 1 } := by
  refine ⟨?_, ?_, ?_, ?_, ?_, ?_, ?_, ?_, ?_, ?_, ?_⟩
  · intro x
    simp only [alookup]
    by_cases hxs : x = p.start
    · rw [if_pos hxs, if_pos hxs]
      simp
    · rw [if_neg hxs, if_neg hxs]
      simp [alookup]
  · intro x q a hl
    simp only [alookup] at hl
    by_cases hxs : x = p.start
    · rw [if_pos hxs] at hl
      exact absurd hl (by simp)
    · rw [if_neg hxs] at hl
      exact absurd hl (by simp [alookup])
  · intro x a hl
    simp only [alookup] at hl
    by_cases hxs : x = p.start
    · rw [if_pos hxs] at hl
      simp only [Option.some.injEq, Prod.mk.injEq] at hl
      refine ⟨hxs, hl.2.symm, ?_⟩
      simp only [alookup]
      rw [if_pos hxs]
    · rw [if_neg hxs] at hl
      exact absurd hl (by simp [alookup])
  · intro x dx hx
    simp only [alookup] at hx
    by_cases hxs : x = p.start
    · rw [if_pos hxs] at hx
      cases hx
      exact ⟨[], hxs ▸ IsPath.nil x, rfl⟩
    · rw [if_neg hxs] at hx
      exact absurd hx (by simp [alookup])
  · intro x dx hx es hp
    simp only [alookup] at hx
    by_cases hxs : x = p.start
    · rw [if_pos hxs] at hx
      cases hx
      exact Nat.zero_le _
    · rw [if_neg hxs] at hx
      exact absurd hx (by simp [alookup])
  · intro x hx
    rcases List.mem_singleton.mp hx with rfl
    simp [alookup]
  · exact List.pairwise_singleton _ _
  · intro x hx y hy dx dy hdx hdy
    rcases List.mem_singleton.mp hx with rfl
    rcases List.mem_singleton.mp hy with rfl
    rw [hdx] at hdy
    cases hdy
    omega
  · intro x hx hxq e he
    simp only [alookup] at hx
    by_cases hxs : x = p.start
    · exact absurd (hxs ▸ List.mem_singleton_self p.start) hxq
    · rw [if_neg hxs] at hx
      exact absurd hx (by simp [alookup])
  · intro x hx
    simp only [alookup] at hx
    by_cases hxs : x = p.start
    · rw [hxs]
      exact hg
    · rw [if_neg hxs] at hx
      exact absurd hx (by simp [alookup])
  · simp [alookup]

/-- C7: whenever `bfs` returns a result, its cost equals the length of
the returned action list, that length is attained by some start-to-goal
path and is minimal among all start-to-goal paths (edge costs ignored),
and no state of the returned path before the final one is a goal — the
goal was detected at generation time, before it could be dequeued. -/
theorem claim_C7 {K : Type w} [LinearOrderedCommRing K] {S : Type u}
    {A : Type v} [DecidableEq S] [LinearOrder S] {p : Problem K S A}
    {cap : ℕ} {tr te : Bool} {r : SearchResult K S A}
    (hrun : bfsRun p cap tr te = some (.ok r)) :
    r.cost = (r.actions.length : K) ∧
    (∃ es t, IsPath p p.start es t ∧ p.isGoal t = true ∧
      es.length = r.actions.length) ∧
    (∀ es t, IsPath p p.start es t → p.isGoal t = true →
      r.actions.length ≤ es.length) ∧
    (∀ x ∈ r.states.dropLast, p.isGoal x = false) := by
  by_cases hg : p.isGoal p.start
  · rw [bfsRun, if_pos hg] at hrun
    simp only [Option.some.injEq, Except.ok.injEq] at hrun
    subst hrun
    refine ⟨by simp, ⟨[], p.start, IsPath.nil p.start, hg, rfl⟩, ?_, by simp⟩
    intro es t _ _
    simp
  · rw [bfsRun, if_neg hg] at hrun
    have hg' : p.isGoal p.start = false := by simpa using hg
    exact bfs_post (binv_init p hg' (if tr && te then some [] else none)) hrun

theorem claim_C7_witness :
    ∃ r : SearchResult ℤ (Fin 2) ℕ,
      bfsRun lineProb 10 false false = some (.ok r) ∧
      r.cost = (r.actions.length : ℤ) ∧
      (∃ es t, IsPath lineProb lineProb.start es t ∧
        lineProb.isGoal t = true ∧ es.length = r.actions.length) ∧
      (∀ es t, IsPath lineProb lineProb.start es t →
        lineProb.isGoal t = true → r.actions.length ≤ es.length) ∧
      (∀ x ∈ r.states.dropLast, lineProb.isGoal x = false) := by
  have hrun : bfsRun lineProb 10 false false =
      some (.ok { cost := 1, actions := [0], states := [0, 1], expanded := 1,
                  generated := 1, reopens := 0, maxFrontier := 1,
                  trace := none }) := by
    rw [bfsRun, if_neg (by decide)]
    exact runLoopFuel_agree 5 _ _ (by decide)
  exact ⟨_, hrun, claim_C7 hrun⟩
